import Mathlib

/-! The render-graph IR core of rgc.

A shallow embedding of the IR core of `rgc` (types and their pool, constants and
their pool, values with their user maps, actions, the intrusive list and the
graph teardown), followed by theorems about it.

Conventions of the embedding.

* An object is named by its address, a natural number. A pointer is an
  `Option Nat`, `none` being `nullptr`.
* An `assert` of the source is a contract violation: the embedded operation
  returns `Except.error` with the violation that names the assertion.
* `size_t` arithmetic wraps modulo `2 ^ 64`.
* What the C++ standard library leaves open (the values of `std::hash`, the
  order in which `std::unordered_set::find` meets the elements of a bucket) is
  a parameter, collected in `StdEnv`; so is the length of the pixel format
  table `rgc/PixelFormat.inc`, which decides the number of `PixelFormat::Auto`.
-/

namespace rgc

/-! ## Contract violations -/

/-- The ways an operation of the core can fail. Every constructor but the last
two is one `assert` of the source, named after its message. `outOfRange` is the
`std::out_of_range` thrown by `std::vector::at`; `deadObject` marks an access
through a pointer to an object that is not alive, which the source leaves
undefined. -/
inductive Violation where
  | elementSizeZero
  | userDoubleInsertion
  | nullValue
  | valueInUse
  | cyclicDependency
  | nullNode
  | nodeConnected
  | nodeDoubleInsertion
  | afterNotRegistered
  | nullNextNode
  | beforeNotRegistered
  | nullPrevNode
  | erasedNotRegistered
  | outOfRange
  | deadObject
  deriving DecidableEq, Repr

deriving instance DecidableEq for Except

/-! ## Standard library parameters -/

/-- The behaviour of the C++ standard library that the repository relies on
without fixing it. `hashSize` is `std::hash<size_t>`, `hashUnsigned` is
`std::hash<unsigned>`, `pixelFormatAuto` is the numeric value of
`ImageType::PixelFormat::Auto` (the number of entries of `PixelFormat.inc`).
`choose` decides which element `std::unordered_set::find` returns when several
stored elements are accepted: it receives the hash codes of the stored elements
in insertion order and the indices of the accepted ones, and answers with a
position in the latter list (taken modulo its length). `bucket n h` is the
bucket in which a set of `n` elements keeps an element with the hash code `h`:
`find` compares the candidate with the elements of its bucket only. In
libstdc++, which does not store the hash codes of a set with a `noexcept` hash
functor, it is the remainder of `h` by the bucket count; for a set that
compares the stored hash codes before it calls `Equal` it is `h` itself. -/
structure StdEnv where
  hashSize : Nat → Nat
  hashUnsigned : Nat → Nat
  pixelFormatAuto : Nat
  choose : List Nat → List Nat → Nat
  bucket : Nat → Nat → Nat

/-- The number of values of `size_t`. -/
def sizeModulus : Nat := 2 ^ 64

/-- Addition of two `size_t` values. -/
def sizeAdd (a b : Nat) : Nat := (a + b) % sizeModulus

/-- The call `std::hash<size_t>{}(x)`. -/
def StdEnv.stdHashSize (env : StdEnv) (x : Nat) : Nat :=
  env.hashSize (x % sizeModulus) % sizeModulus

/-- The call `std::hash<unsigned>{}(x)`. -/
def StdEnv.stdHashUnsigned (env : StdEnv) (x : Nat) : Nat :=
  env.hashUnsigned (x % 2 ^ 32) % sizeModulus

/-! ## Type descriptors (Type.hpp, Types.hpp) -/

/-- The enumeration `ScalarType::OwnerType`. -/
inductive OwnerType where
  | Host
  | Device
  | None
  deriving DecidableEq, Repr

/-- The enumeration `ScalarType::Kind`. -/
inductive ScalarKind where
  | Image
  | Buffer
  | Null
  | Integer
  deriving DecidableEq, Repr

/-- The enumeration `ImageType::ImageKind`. -/
inductive ImageKind where
  | Allocated
  | ScreenBuffer
  | TiedToScreenBuffer
  deriving DecidableEq, Repr

/-- The enumeration `ImageType::PixelFormat`: the entries of `PixelFormat.inc`,
named by their position in that file, followed by `Auto`. -/
inductive PixelFormat where
  | listed (position : Nat)
  | Auto
  deriving DecidableEq, Repr

/-- The enumeration `ImageType::ExtentType`. -/
inductive ExtentType where
  | T1D
  | T2D
  | T3D
  | Auto
  deriving DecidableEq, Repr

/-- The cast `(unsigned long long)m_kind`. -/
def ImageKind.toNat : ImageKind → Nat
  | .Allocated => 0
  | .ScreenBuffer => 1
  | .TiedToScreenBuffer => 2

/-- The cast `(unsigned long long)m_pixelFormat`. -/
def PixelFormat.toNat (env : StdEnv) : PixelFormat → Nat
  | .listed position => position
  | .Auto => env.pixelFormatAuto

/-- The cast `(unsigned long long)m_type`. -/
def ExtentType.toNat : ExtentType → Nat
  | .T1D => 0
  | .T2D => 1
  | .T3D => 2
  | .Auto => 3

/-- The data members of the `ImageType` part of an image descriptor. -/
structure ImageType where
  m_kind : ImageKind
  m_pixelFormat : PixelFormat
  m_type : ExtentType
  m_mipLevels : Nat
  m_extents : List Nat
  deriving DecidableEq, Repr

/-- The concrete classes of type descriptor that can be instantiated. -/
inductive ConcreteKind where
  | NullType
  | BufferType
  | ImageType
  | AllocatedImageType
  | ScreenBufferImage
  | TiedToScreenBufferImage
  deriving DecidableEq, Repr

/-- A type descriptor object, given by its concrete class and the arguments of
that class's constructor. `AggregateType` declares no `hash` and no `equal`, so
it is abstract and has no instances. -/
inductive TypeDesc where
  | NullType
  | BufferType (ownerType : OwnerType) (m_elementSize m_elementCount : Nat)
  | ImageType (ik : ImageKind) (pf : PixelFormat) (et : ExtentType) (mipLevels : Nat)
      (e0 e1 e2 : Nat)
  | AllocatedImageType (pf : PixelFormat) (et : ExtentType) (mipLevels : Nat) (e0 e1 e2 : Nat)
  | ScreenBufferImage (m_swapChainID : Nat)
  | TiedToScreenBufferImage (pf : PixelFormat) (m_swapChainID : Nat)
  deriving DecidableEq, Repr

namespace TypeDesc

/-- The concrete class of a descriptor (its dynamic type). -/
def concreteKind : TypeDesc → ConcreteKind
  | .NullType => .NullType
  | .BufferType _ _ _ => .BufferType
  | .ImageType _ _ _ _ _ _ _ => .ImageType
  | .AllocatedImageType _ _ _ _ _ _ => .AllocatedImageType
  | .ScreenBufferImage _ => .ScreenBufferImage
  | .TiedToScreenBufferImage _ _ => .TiedToScreenBufferImage

/-- The constructor assertions: `BufferType` rejects a zero element size. -/
def construct (d : TypeDesc) : Except Violation TypeDesc :=
  match d with
  | .BufferType _ es _ => if es = 0 then .error .elementSizeZero else .ok d
  | _ => .ok d

/-- The member `ScalarType::scalarKind`, as set by each constructor. -/
def scalarKind : TypeDesc → ScalarKind
  | .NullType => .Null
  | .BufferType _ _ _ => .Buffer
  | _ => .Image

/-- The member `ScalarType::ownerType`, as set by each constructor. -/
def ownerType : TypeDesc → OwnerType
  | .NullType => .None
  | .BufferType o _ _ => o
  | _ => .Device

/-- The cast `dynamic_cast<ImageType *>`: the `ImageType` part of a descriptor
of class `ImageType` or of a class derived from it, as the constructors of
these classes initialise it (default arguments: one mip level, extents zero). -/
def asImageType : TypeDesc → Option rgc.ImageType
  | .ImageType ik pf et mipLevels e0 e1 e2 => some ⟨ik, pf, et, mipLevels, [e0, e1, e2]⟩
  | .AllocatedImageType pf et mipLevels e0 e1 e2 =>
      some ⟨.Allocated, pf, et, mipLevels, [e0, e1, e2]⟩
  | .ScreenBufferImage _ => some ⟨.ScreenBuffer, .Auto, .Auto, 1, [0, 0, 0]⟩
  | .TiedToScreenBufferImage pf _ => some ⟨.TiedToScreenBuffer, pf, .Auto, 1, [0, 0, 0]⟩
  | _ => none

end TypeDesc

/-- The function `ImageType::hash`. -/
def ImageType.hash (env : StdEnv) (i : ImageType) : Nat :=
  let extentHash := i.m_extents.foldl
    (fun s e => env.stdHashSize (sizeAdd (env.stdHashSize s) (env.stdHashSize e))) 0
  env.stdHashSize
    (sizeAdd (sizeAdd (sizeAdd (sizeAdd extentHash (env.stdHashSize i.m_kind.toNat))
      (env.stdHashSize (i.m_pixelFormat.toNat env))) (env.stdHashSize i.m_type.toNat))
      (env.stdHashUnsigned i.m_mipLevels))

/-- The function `ImageType::equal`, after its `dynamic_cast` has succeeded. -/
def ImageType.equalFields (i j : ImageType) : Bool :=
  i.m_kind == j.m_kind && i.m_pixelFormat == j.m_pixelFormat && i.m_type == j.m_type &&
    i.m_mipLevels == j.m_mipLevels && i.m_extents == j.m_extents

namespace TypeDesc

/-- The function `ImageType::equal` on a receiver whose `ImageType` part is `i`. -/
def imageEqual (i : rgc.ImageType) (another : TypeDesc) : Bool :=
  match another.asImageType with
  | some j => i.equalFields j
  | none => false

/-- The virtual function `Type::hash` of each concrete class. -/
def hash (env : StdEnv) : TypeDesc → Nat
  | .NullType => 0
  | .BufferType _ es ec =>
      env.stdHashSize (sizeAdd (env.stdHashSize es) (env.stdHashSize ec))
  | .ImageType ik pf et mipLevels e0 e1 e2 =>
      rgc.ImageType.hash env ⟨ik, pf, et, mipLevels, [e0, e1, e2]⟩
  | .AllocatedImageType pf et mipLevels e0 e1 e2 =>
      rgc.ImageType.hash env ⟨.Allocated, pf, et, mipLevels, [e0, e1, e2]⟩
  | .ScreenBufferImage id =>
      env.stdHashSize (sizeAdd id
        (rgc.ImageType.hash env ⟨.ScreenBuffer, .Auto, .Auto, 1, [0, 0, 0]⟩))
  | .TiedToScreenBufferImage pf id =>
      env.stdHashSize (sizeAdd id
        (rgc.ImageType.hash env ⟨.TiedToScreenBuffer, pf, .Auto, 1, [0, 0, 0]⟩))

/-- The virtual function `Type::equal` of each concrete class: the receiver
first, the argument `another` second. -/
def equal (t another : TypeDesc) : Bool :=
  match t with
  | .NullType =>
      match another with
      | .NullType => true
      | _ => false
  | .BufferType o es ec =>
      match another with
      | .BufferType o2 es2 ec2 => o == o2 && es == es2 && ec == ec2
      | _ => false
  | .ImageType ik pf et mipLevels e0 e1 e2 =>
      imageEqual ⟨ik, pf, et, mipLevels, [e0, e1, e2]⟩ another
  | .AllocatedImageType pf et mipLevels e0 e1 e2 =>
      imageEqual ⟨.Allocated, pf, et, mipLevels, [e0, e1, e2]⟩ another
  | .ScreenBufferImage id =>
      if !imageEqual ⟨.ScreenBuffer, .Auto, .Auto, 1, [0, 0, 0]⟩ another then false
      else
        match another with
        | .ScreenBufferImage id2 => id == id2
        | _ => false
  | .TiedToScreenBufferImage pf id =>
      if !imageEqual ⟨.TiedToScreenBuffer, pf, .Auto, 1, [0, 0, 0]⟩ another then false
      else
        match another with
        | .TiedToScreenBufferImage _ id2 => id == id2
        | _ => false

end TypeDesc

/-! ## Interning (TypePool::get, ConstantPool::get) -/

/-- The indices, counted from `start`, of the elements of a list that satisfy
`accept`. -/
def acceptedFrom {α : Type} (accept : α → Bool) : Nat → List α → List Nat
  | _, [] => []
  | start, x :: xs =>
      if accept x then start :: acceptedFrom accept (start + 1) xs
      else acceptedFrom accept (start + 1) xs

/-- The lookup `find` of a `std::unordered_set<T *, Hash, Equal>` whose elements,
in insertion order, are `pool`: among the stored elements in the bucket of the
candidate that `Equal` accepts (candidate first, stored element second), the
one that `env.choose` picks, since the order in which the standard library
walks a bucket is not fixed. The hash codes are compared through the bucket
only. The result is the index of the element in `pool`, which stands for its
address; there is none when no element is accepted. -/
def internFind {α : Type} (env : StdEnv) (hash : α → Nat) (equal : α → α → Bool)
    (pool : List α) (candidate : α) : Option Nat :=
  let accepted := acceptedFrom
    (fun e => env.bucket pool.length (hash e) == env.bucket pool.length (hash candidate) &&
      equal candidate e) 0 pool
  accepted[env.choose (pool.map hash) accepted % accepted.length]?

/-- The body shared by `TypePool::get` and `ConstantPool::get` once the
candidate is constructed: return the stored element that `find` gives, or
store the candidate and return it. -/
def internGet {α : Type} (env : StdEnv) (hash : α → Nat) (equal : α → α → Bool)
    (pool : List α) (candidate : α) : List α × Nat :=
  match internFind env hash equal pool candidate with
  | some found => (pool, found)
  | none => (pool ++ [candidate], pool.length)

/-- A type pool: the descriptors it owns, in the order they were stored. A
reference to a pooled type is its index in this list. -/
abbrev TypePool := List TypeDesc

/-- The function `TypePool::get<T>(args...)`: construct the candidate, then
intern it. -/
def TypePool.get (env : StdEnv) (pool : TypePool) (d : TypeDesc) :
    Except Violation (TypePool × Nat) :=
  match d.construct with
  | .error v => .error v
  | .ok newT => .ok (internGet env (TypeDesc.hash env) TypeDesc.equal pool newT)

/-- The requests `get<T>(args...)` of a list, issued to a pool one after the
other. -/
def TypePool.getAll (env : StdEnv) (pool : TypePool) (ds : List TypeDesc) :
    Except Violation TypePool :=
  ds.foldlM (fun p d => (TypePool.get env p d).map Prod.fst) pool

/-- The pool holds `NullType` at one reference at most. -/
def TypePool.NullUnique (pool : TypePool) : Prop :=
  ∀ i j : Nat, pool[i]? = some TypeDesc.NullType → pool[j]? = some TypeDesc.NullType → i = j

/-- A standard library for examples: `std::hash` of an integer is the integer
(as in libstdc++ and libc++), every hash code has a bucket of its own, `find`
returns the accepted element stored first, and `PixelFormat.inc` has sixteen
entries. -/
def StdEnv.sample : StdEnv where
  hashSize := fun x => x
  hashUnsigned := fun x => x
  pixelFormatAuto := 16
  choose := fun _ _ => 0
  bucket := fun _ h => h

/-- The set of libstdc++ while it holds thirteen elements at most: `std::hash`
of an integer is the integer, the set has thirteen buckets from its first
element on and the bucket of a hash code is its remainder by thirteen, a new
element is put first in its bucket and `find` returns the first element of the
bucket that `Equal` accepts, which is the accepted element stored last.
`PixelFormat.inc` is taken to have sixteen entries. -/
def StdEnv.libstdcxx : StdEnv where
  hashSize := fun x => x
  hashUnsigned := fun x => x
  pixelFormatAuto := 16
  choose := fun _ accepted => accepted.length - 1
  bucket := fun _ h => h % 13

/-! ## Values and actions (Value.hpp, Value.cpp, Action.hpp, Action.cpp) -/

/-- The enumeration `Action::Kind`. -/
inductive ActionKind where
  | Allocation
  | Composition
  | RealAction
  | Terminator
  deriving DecidableEq, Repr

/-- The enumeration `Allocation::Kind`. -/
inductive AllocationKind where
  | Static
  | Dynamic
  deriving DecidableEq, Repr

/-- The data members that `Action` (and `Allocation`) add to `Value`: the
operands `m_uses`, the kind `m_kind` and, for an `Allocation`, its own kind. -/
structure Action where
  m_uses : List Nat
  m_kind : ActionKind
  allocationKind : Option AllocationKind
  deriving DecidableEq, Repr

/-- The dynamic class of a `Value` object: an `Action` with its members, or a
`NullConstant`, the only class of constant. -/
inductive Derived where
  | action (a : Action)
  | nullConstant
  deriving DecidableEq, Repr

/-- A `Value` object: the reference `m_type` into the type pool, the map
`m_users` from user action to operand index (a list of entries, keys the
addresses of actions), and the part added by its dynamic class. -/
structure Value where
  m_type : Nat
  m_users : List (Nat × Nat)
  derived : Derived
  deriving DecidableEq, Repr

/-- The free store of `Value` objects: what lives at each address, `none` where
nothing does (never allocated, or destroyed). Addresses are not reused. -/
abbrev Heap := List (Option Value)

namespace Heap

/-- The object at an address, if one is alive there. -/
def read (h : Heap) (addr : Nat) : Option Value := (h[addr]?).join

/-- The object at an address, or the violation of touching a dead object. -/
def deref (h : Heap) (addr : Nat) : Except Violation Value :=
  match h.read addr with
  | some v => .ok v
  | none => .error .deadObject

/-- The action members of the object at an address, when it is an action. -/
def derefAction (h : Heap) (addr : Nat) : Except Violation (Value × Action) :=
  match h.read addr with
  | some v =>
      match v.derived with
      | .action a => .ok (v, a)
      | .nullConstant => .error .deadObject
  | none => .error .deadObject

/-- Placement of a new object at the next free address. -/
def alloc (h : Heap) (v : Value) : Heap × Nat := (h ++ [some v], h.length)

/-- The accessor `Value::users`, as the list of entries. -/
def users (h : Heap) (v : Nat) : List (Nat × Nat) :=
  match h.read v with
  | some o => o.m_users
  | none => []

/-- The accessor `Action::uses`. -/
def uses (h : Heap) (action : Nat) : List Nat :=
  match h.read action with
  | some o =>
      match o.derived with
      | .action a => a.m_uses
      | .nullConstant => []
  | none => []

/-- The accessor `Value::type`. -/
def type (h : Heap) (v : Nat) : Option Nat := (h.read v).map Value.m_type

/-- The test `Value::unused`. -/
def unused (h : Heap) (v : Nat) : Bool := (h.users v).isEmpty

/-- The test `Value::hasUser`. -/
def hasUser (h : Heap) (v action : Nat) : Bool := (h.users v).any (fun e => e.1 == action)

/-- The function `Value::addUser`. -/
def addUser (h : Heap) (v action index : Nat) : Except Violation Heap :=
  match h.read v with
  | none => .error .deadObject
  | some o =>
      if o.m_users.any (fun e => e.1 == action) then .error .userDoubleInsertion
      else .ok (h.set v (some { o with m_users := o.m_users ++ [(action, index)] }))

/-- The function `Value::removeUser`. -/
def removeUser (h : Heap) (v action : Nat) : Except Violation Heap :=
  match h.read v with
  | none => .error .deadObject
  | some o => .ok (h.set v (some { o with m_users := o.m_users.filter (fun e => e.1 != action) }))

/-- The function `Action::replaceUse`; the pointer `value` is taken non-null. -/
def replaceUse (h : Heap) (action index value : Nat) : Except Violation Heap :=
  match h.read action with
  | none => .error .deadObject
  | some o =>
      match o.derived with
      | .nullConstant => .error .deadObject
      | .action a =>
          if index < a.m_uses.length then
            .ok (h.set action (some { o with derived := .action { a with m_uses := a.m_uses.set index value } }))
          else .error .outOfRange

/-- The body of the loop of `Value::replaceAllUsesWith` for one entry of
`m_users`: `action->replaceUse(index, value)`, then
`value->addUser(action, index)`. -/
def replaceOneUse (value : Nat) (h : Heap) (entry : Nat × Nat) : Except Violation Heap :=
  match replaceUse h entry.1 entry.2 value with
  | .error v => .error v
  | .ok h1 => addUser h1 value entry.1 entry.2

/-- The function `Value::replaceAllUsesWith`, called on the value at `this`:
the loop over the entries of `m_users`, then `m_users.clear()`. -/
def replaceAllUsesWith (h : Heap) (this value : Nat) : Except Violation Heap :=
  match h.read this with
  | none => .error .deadObject
  | some o =>
      match o.m_users.foldlM (replaceOneUse value) h with
      | .error v => .error v
      | .ok h3 =>
          match h3.read this with
          | none => .error .deadObject
          | some o3 => .ok (h3.set this (some { o3 with m_users := [] }))

/-- The function `Action::m_push_use`, called on the action at `this`. -/
def m_push_use (h : Heap) (this : Nat) (v : Option Nat) : Except Violation Heap :=
  match v with
  | none => .error .nullValue
  | some v =>
      match h.derefAction this with
      | .error e => .error e
      | .ok (_, a) =>
          match addUser h v this a.m_uses.length with
          | .error e => .error e
          | .ok h1 =>
              match h1.read this with
              | none => .error .deadObject
              | some o1 =>
                  .ok (h1.set this (some { o1 with
                    derived := .action { a with m_uses := a.m_uses ++ [v] } }))

/-- The constructor `Action::Action(kind, type)` run on fresh storage: a value
without users and an action without operands. The result is the new heap and
the address of the new action. -/
def newAction (h : Heap) (kind : ActionKind) (type : Nat)
    (allocationKind : Option AllocationKind) : Heap × Nat :=
  h.alloc { m_type := type, m_users := [], derived := .action ⟨[], kind, allocationKind⟩ }

/-- The calls `m_push_use(use)` of a constructor body, in order. -/
def pushUses (h : Heap) (this : Nat) (uses : List (Option Nat)) : Except Violation Heap :=
  uses.foldlM (fun h1 v => m_push_use h1 this v) h

/-- The constructor `Allocation::Allocation(type)`: a static allocation. -/
def Allocation (h : Heap) (type : Nat) : Except Violation (Heap × Nat) :=
  .ok (h.newAction .Allocation type (some .Static))

/-- The constructor `Allocation::Allocation(type, use)`: a dynamic allocation. -/
def AllocationDynamic (h : Heap) (type : Nat) (use : Option Nat) :
    Except Violation (Heap × Nat) :=
  let (h1, this) := h.newAction .Allocation type (some .Dynamic)
  match pushUses h1 this [use] with
  | .error e => .error e
  | .ok h2 => .ok (h2, this)

/-- The constructor `Composition::Composition(type, uses)`. -/
def Composition (h : Heap) (type : Nat) (uses : List (Option Nat)) :
    Except Violation (Heap × Nat) :=
  let (h1, this) := h.newAction .Composition type none
  match pushUses h1 this uses with
  | .error e => .error e
  | .ok h2 => .ok (h2, this)

/-- The constructor `RealAction::RealAction(useDef, use)`; its type is read
through `useDef` before the body runs. -/
def RealAction (h : Heap) (useDef use : Option Nat) : Except Violation (Heap × Nat) :=
  match useDef.bind h.type with
  | none => .error .deadObject
  | some type =>
      let (h1, this) := h.newAction .RealAction type none
      match pushUses h1 this [useDef, use] with
      | .error e => .error e
      | .ok h2 => .ok (h2, this)

/-- The constructor `Terminator::Terminator(tp, use)`; its type is the
`NullType` of the pool `tp`. -/
def Terminator (env : StdEnv) (h : Heap) (tp : TypePool) (use : Option Nat) :
    Except Violation (Heap × TypePool × Nat) :=
  match TypePool.get env tp .NullType with
  | .error e => .error e
  | .ok (tp1, type) =>
      let (h1, this) := h.newAction .Terminator type none
      match pushUses h1 this [use] with
      | .error e => .error e
      | .ok h2 => .ok (h2, tp1, this)

/-- The destructor of the action at `this`: the body of `Action::~Action`
(remove itself from the users of every operand), then `Value::~Value` (the
value must be unused), then the storage is released. -/
def destroyAction (h : Heap) (this : Nat) : Except Violation Heap :=
  match h.derefAction this with
  | .error e => .error e
  | .ok (_, a) =>
      match a.m_uses.foldlM (fun h1 val => removeUser h1 val this) h with
      | .error e => .error e
      | .ok h1 =>
          if h1.unused this then .ok (h1.set this none) else .error .valueInUse

end Heap

/-- What no operation of the core changes in a live object: the type, and for
an action the kind, the allocation kind and the number of operands. -/
def Heap.shape (h : Heap) (x : Nat) :
    Option (Nat × Option (ActionKind × Option AllocationKind × Nat)) :=
  (h.read x).map fun o =>
    (o.m_type,
      match o.derived with
      | .action a => some (a.m_kind, a.allocationKind, a.m_uses.length)
      | .nullConstant => none)

/-- The object at an address is a live action. -/
def Heap.isAction (h : Heap) (x : Nat) : Bool :=
  match h.read x with
  | some o =>
      match o.derived with
      | .action _ => true
      | .nullConstant => false
  | none => false

/-- The actions recorded as users of a value: the keys of its `m_users`. -/
def Heap.userKeys (h : Heap) (v : Nat) : List Nat := (h.users v).map Prod.fst

/-- The accessor `Action::actionKind` of the action at an address. -/
def Heap.actionKind (h : Heap) (x : Nat) : Option ActionKind :=
  match h.read x with
  | some o =>
      match o.derived with
      | .action a => some a.m_kind
      | .nullConstant => none
  | none => none

/-- The accessor `RealAction::getUseDef`: `uses()[0]`. -/
def Heap.getUseDef (h : Heap) (x : Nat) : Option Nat := (h.uses x)[0]?

/-- The accessor `RealAction::getUse`: `uses()[1]`. -/
def Heap.getUse (h : Heap) (x : Nat) : Option Nat := (h.uses x)[1]?

/-- The users that the value part of the action at `this` records when
`Value::~Value` checks it: `Action::~Action` runs first and removes the action
from the user map of each of its operands, among which the action itself may
be. -/
def Heap.usersAtDestruction (h : Heap) (this : Nat) : List (Nat × Nat) :=
  if this ∈ h.uses this then (h.users this).filter (fun e => e.1 != this) else h.users this

/-- Operands fit for a new action on the heap `h`: live values, pairwise
distinct, none of which records the address the new action will get. -/
def Heap.FreshOperands (h : Heap) (vs : List Nat) : Prop :=
  vs.Nodup ∧ ∀ v ∈ vs, (h.read v).isSome ∧ h.length ∉ h.userKeys v

/-- Use-def symmetry of the action `this` just constructed on `h` with the
operands `vs`, the heap being `h1` now: the action has the next free address
and the operands `vs`, the value at operand `i` maps the action to `i` in its
user map, and the destructor of the action succeeds and leaves no operand
that records the action. -/
def Heap.UseDefSymmetric (h : Heap) (vs : List Nat) (h1 : Heap) (this : Nat) : Prop :=
  this = h.length ∧ h1.uses this = vs ∧
  (∀ i v, vs[i]? = some v → (this, i) ∈ h1.users v) ∧
  ∃ h2, h1.destroyAction this = .ok h2 ∧ h2.read this = none ∧
    ∀ v ∈ vs, this ∉ h2.userKeys v

/-! ## Constants (Constant.hpp) -/

/-- The function `NullConstant::hash`. -/
def NullConstant.hash : Nat := 0

/-- The function `NullConstant::m_equal`; it does not look at `another`. -/
def NullConstant.m_equal (_another : Nat) : Bool := true

/-- The function `Constant::hash` of the constant at an address: every constant
is a `NullConstant`. -/
def Constant.hash (_c : Nat) : Nat := NullConstant.hash

/-- The function `Constant::equal` of the constant at `c`. -/
def Constant.equal (_c another : Nat) : Bool := NullConstant.m_equal another

/-- A constant pool: the addresses of the constants it owns, in the order they
were stored. -/
abbrev ConstantPool := List Nat

/-- The function `ConstantPool::get<NullConstant>(typePool)`. The candidate is
constructed first (which interns `NullType` in `typePool`); when `find` gives a
stored constant the candidate is destroyed and the stored one returned,
otherwise the candidate is stored. The result is the address of the constant. -/
def ConstantPool.get (env : StdEnv) (h : Heap) (pool : ConstantPool) (typePool : TypePool) :
    Except Violation (Heap × ConstantPool × TypePool × Nat) :=
  match TypePool.get env typePool .NullType with
  | .error e => .error e
  | .ok (typePool1, type) =>
      let (h1, newC) := h.alloc { m_type := type, m_users := [], derived := .nullConstant }
      match internFind env Constant.hash Constant.equal pool newC with
      | some found =>
          match pool[found]? with
          | some c => .ok (h1.set newC none, pool, typePool1, c)
          | none => .error .deadObject
      | none => .ok (h1, pool ++ [newC], typePool1, newC)

/-! ## The intrusive list (IList.hpp) -/

/-- The data members of an `IListNode<T>`. -/
structure IListNode where
  m_prev : Option Nat
  m_next : Option Nat
  deriving DecidableEq, Repr

/-- The test `IListNode::m_not_connected`. -/
def IListNode.m_not_connected (n : IListNode) : Bool := n.m_prev.isNone && n.m_next.isNone

/-- The `IListNode` part of the objects of the free store, by address; `none`
where no node is alive. -/
abbrev NodeMem := List (Option IListNode)

namespace NodeMem

/-- The node at an address, if one is alive there. -/
def read (mem : NodeMem) (addr : Nat) : Option IListNode := (mem[addr]?).join

/-- The node at an address, or the violation of touching a dead object. -/
def deref (mem : NodeMem) (addr : Nat) : Except Violation IListNode :=
  match mem.read addr with
  | some n => .ok n
  | none => .error .deadObject

/-- The assignment `addr->m_prev = p`. -/
def setPrev (mem : NodeMem) (addr : Nat) (p : Option Nat) : Except Violation NodeMem :=
  match mem.read addr with
  | some n => .ok (mem.set addr (some { n with m_prev := p }))
  | none => .error .deadObject

/-- The assignment `addr->m_next = p`. -/
def setNext (mem : NodeMem) (addr : Nat) (p : Option Nat) : Except Violation NodeMem :=
  match mem.read addr with
  | some n => .ok (mem.set addr (some { n with m_next := p }))
  | none => .error .deadObject

/-- The statement `if (addr) addr->m_prev = p`. -/
def setPrevIf (mem : NodeMem) (addr : Option Nat) (p : Option Nat) : Except Violation NodeMem :=
  match addr with
  | some x => mem.setPrev x p
  | none => .ok mem

/-- The statement `if (addr) addr->m_next = p`. -/
def setNextIf (mem : NodeMem) (addr : Option Nat) (p : Option Nat) : Except Violation NodeMem :=
  match addr with
  | some x => mem.setNext x p
  | none => .ok mem

/-- The walk of an `IListIterator<T, false>` from `cur` until `nullptr`: its
`operator++` follows `m_next`. The result is the nodes met, in order. The walk
is cut after `fuel` nodes and then has no result, as when it meets a dead
node. -/
def walk (mem : NodeMem) : Nat → Option Nat → Option (List Nat)
  | _, none => some []
  | 0, some _ => none
  | fuel + 1, some x =>
      match mem.read x with
      | none => none
      | some n => (walk mem fuel n.m_next).map (fun rest => x :: rest)

/-- The walk of an `IListIterator<T, true>` from `cur` until `nullptr`: its
`operator++` follows `m_prev`. -/
def walkBack (mem : NodeMem) : Nat → Option Nat → Option (List Nat)
  | _, none => some []
  | 0, some _ => none
  | fuel + 1, some x =>
      match mem.read x with
      | none => none
      | some n => (walkBack mem fuel n.m_prev).map (fun rest => x :: rest)

end NodeMem

/-- The data members of an `IList<T>`: `m_head`, `m_tail` and the keys of
`m_container`, the registered nodes, which the list owns. -/
structure IList where
  m_head : Option Nat
  m_tail : Option Nat
  m_container : List Nat
  deriving DecidableEq, Repr

namespace IList

/-- The list as default-constructed: no head, no tail, nothing registered. -/
def init : IList := ⟨none, none, []⟩

/-- The accessor `IList::front`. -/
def front (l : IList) : Option Nat := l.m_head

/-- The accessor `IList::back`. -/
def back (l : IList) : Option Nat := l.m_tail

/-- The accessor `IList::size`. -/
def size (l : IList) : Nat := l.m_container.length

/-- The test `IList::empty`. -/
def empty (l : IList) : Bool := l.m_container.isEmpty

/-- The range `begin() .. end()`: the nodes a forward iteration visits. A walk
longer than the number of addresses repeats a node and never ends; it has no
result. -/
def forward (mem : NodeMem) (l : IList) : Option (List Nat) := mem.walk mem.length l.m_head

/-- The range `rbegin() .. rend()`: the nodes an iteration visits that starts
at `IListReverseIterator<T>{m_tail}` and stops at
`IListReverseIterator<T>{nullptr}`. The source declares
`IListReverseIterator<T>` as `IListIterator<T, false>`, whose `operator++`
follows `m_next`. -/
def backward (mem : NodeMem) (l : IList) : Option (List Nat) := mem.walk mem.length l.m_tail

/-- The checks at the head of `insertAfter` and `insertBefore`, then
`m_container.emplace(node, node)`. The result is the address of the node and
the list with the node registered. -/
def registerNode (mem : NodeMem) (l : IList) (node : Option Nat) : Except Violation (Nat × IList) :=
  match node with
  | none => .error .nullNode
  | some n =>
      match mem.read n with
      | none => .error .deadObject
      | some nd =>
          if !nd.m_not_connected then .error .nodeConnected
          else if l.m_container.contains n then .error .nodeDoubleInsertion
          else .ok (n, { l with m_container := l.m_container ++ [n] })

/-- The function `IList::insertAfter`. -/
def insertAfter (mem : NodeMem) (l : IList) (node after : Option Nat) :
    Except Violation (NodeMem × IList) := do
  let (n, l1) ← registerNode mem l node
  match after with
  | none =>
      match l1.m_head with
      | none => pure (mem, { l1 with m_head := some n, m_tail := some n })
      | some head =>
          let mem1 ← mem.setPrev head (some n)
          let mem2 ← mem1.setNext n (some head)
          pure (mem2, { l1 with m_head := some n })
  | some a =>
      if !l1.m_container.contains a then throw .afterNotRegistered
      else if some a == l1.m_tail then
        let mem1 ← mem.setNext a (some n)
        let mem2 ← mem1.setPrev n (some a)
        pure (mem2, { l1 with m_tail := some n })
      else
        let aNode ← mem.deref a
        match aNode.m_next with
        | none => throw .nullNextNode
        | some next =>
            let mem0 ← mem.setPrev next (some n)
            let mem1 ← mem0.setNext a (some n)
            let mem2 ← mem1.setPrev n (some a)
            pure (mem2, l1)

/-- The function `IList::insertBefore`. -/
def insertBefore (mem : NodeMem) (l : IList) (node before : Option Nat) :
    Except Violation (NodeMem × IList) := do
  let (n, l1) ← registerNode mem l node
  match before with
  | none =>
      match l1.m_tail with
      | none => pure (mem, { l1 with m_head := some n, m_tail := some n })
      | some tail =>
          let mem1 ← mem.setNext tail (some n)
          let mem2 ← mem1.setPrev n (some tail)
          pure (mem2, { l1 with m_tail := some n })
  | some b =>
      if !l1.m_container.contains b then throw .beforeNotRegistered
      else if some b == l1.m_head then
        let mem1 ← mem.setPrev b (some n)
        let mem2 ← mem1.setNext n (some b)
        pure (mem2, { l1 with m_head := some n })
      else
        let bNode ← mem.deref b
        match bNode.m_prev with
        | none => throw .nullPrevNode
        | some prev =>
            let mem0 ← mem.setNext prev (some n)
            let mem1 ← mem0.setPrev b (some n)
            let mem2 ← mem1.setNext n (some b)
            pure (mem2, l1)

/-- The function `IList::push_back`. -/
def push_back (mem : NodeMem) (l : IList) (node : Option Nat) :
    Except Violation (NodeMem × IList) :=
  insertAfter mem l node l.m_tail

/-- The function `IList::push_front`. -/
def push_front (mem : NodeMem) (l : IList) (node : Option Nat) :
    Except Violation (NodeMem × IList) :=
  insertBefore mem l node l.m_head

/-- The statements of `IList::erase` up to the last one: the membership check,
the unlinking of `node` and the update of `m_head` and `m_tail`. -/
def unlink (mem : NodeMem) (l : IList) (node : Nat) : Except Violation (NodeMem × IList) := do
  if !l.m_container.contains node then throw .erasedNotRegistered
  let nd ← mem.deref node
  let next := nd.m_next
  let prev := nd.m_prev
  let mem1 ← mem.setPrevIf next prev
  let mem2 ← mem1.setNextIf prev next
  let head := if some node == l.m_head then next else l.m_head
  let tail := if some node == l.m_tail then prev else l.m_tail
  pure (mem2, { l with m_head := head, m_tail := tail })

/-- The function `IList::erase`: `unlink`, then `m_container.erase(node)`, which
destroys the node that the container owns. -/
def erase (mem : NodeMem) (l : IList) (node : Nat) : Except Violation (NodeMem × IList) := do
  let (mem1, l1) ← unlink mem l node
  pure (mem1.set node none, { l1 with m_container := l1.m_container.erase node })

end IList

/-- A run of a doubly linked chain in the node memory: the nodes `xs` are
alive, each has the node before it as `m_prev` and the node after it as
`m_next`, where `before` stands before the first and `after` after the last. -/
def NodeMem.Seg (mem : NodeMem) : Option Nat → List Nat → Option Nat → Prop
  | _, [], _ => True
  | before, x :: rest, after =>
      mem.read x = some ⟨before, (rest.head?).or after⟩ ∧ NodeMem.Seg mem (some x) rest after

/-- The list `l` holds the nodes `xs`, in this order, in a consistent state:
`m_head` and `m_tail` are the first and the last of them, the nodes form a
doubly linked chain that ends in `nullptr` on both sides, no node occurs twice,
and the registered nodes are exactly these. -/
structure IList.WellFormed (mem : NodeMem) (l : IList) (xs : List Nat) : Prop where
  head : l.m_head = xs.head?
  tail : l.m_tail = xs.getLast?
  chain : mem.Seg none xs none
  nodup : xs.Nodup
  container : l.m_container.Perm xs

/-! ## The graph and its teardown (Graph.hpp, Graph.cpp) -/

/-- The free store: for every address the `IListNode` part and the `Value`
part of the object there. An `Action` has both parts at its address, a
constant only the second. -/
structure Memory where
  nodes : NodeMem
  heap : Heap
  deriving DecidableEq, Repr

/-- The data members of a `Graph`: the `IList<Action>` it derives from and the
two pools. -/
structure Graph where
  list : IList
  m_constants : ConstantPool
  m_types : TypePool
  deriving DecidableEq, Repr

namespace Graph

/-- The call `erase(action)` on a graph: `IList::erase`, whose last statement
destroys the action (`Action::~Action`, then `Value::~Value`). -/
def erase (m : Memory) (g : Graph) (action : Nat) : Except Violation (Memory × Graph) := do
  let (nodes1, l1) ← IList.unlink m.nodes g.list action
  let heap1 ← m.heap.destroyAction action
  pure (⟨nodes1.set action none, heap1⟩,
    { g with list := { l1 with m_container := l1.m_container.erase action } })

/-- The calls `erase(action)` of the second loop of the destructor, in order. -/
def eraseAll (m : Memory) (g : Graph) (actions : List Nat) : Except Violation (Memory × Graph) :=
  actions.foldlM (fun s action => erase s.1 s.2 action) (m, g)

/-- The actions that `std::copy_if` collects in `unused`: those of the forward
iteration whose `unused()` holds. Reading a dead action, or an iteration that
does not end, is reported as `deadObject`. -/
def collectUnused (m : Memory) (g : Graph) : Except Violation (List Nat) :=
  match g.list.forward m.nodes with
  | none => .error .deadObject
  | some order =>
      if order.all (fun a => (m.heap.read a).isSome) then
        .ok (order.filter (fun a => m.heap.unused a))
      else .error .deadObject

/-- One round of the loop of `Graph::~Graph`: collect the unused actions, fail
with `cyclicDependency` when there is none, erase them. The result carries the
actions erased, in order. -/
def teardownRound (m : Memory) (g : Graph) : Except Violation ((Memory × Graph) × List Nat) := do
  let unused ← collectUnused m g
  if unused.isEmpty then throw .cyclicDependency
  let s ← eraseAll m g unused
  pure (s, unused)

end Graph

/-- How a run of `Graph::~Graph` stands: the loop has ended (`completed`), an
assertion has failed (`violation`), or the rounds allowed were used up while
the list was not empty (`running`). -/
inductive TeardownStatus where
  | completed
  | violation (v : Violation)
  | running
  deriving DecidableEq, Repr

/-- A run of `Graph::~Graph`: its status, the memory and graph where it
stopped (at a violation: as they were when the failing round began), and the
actions erased by each completed round. -/
structure TeardownRun where
  status : TeardownStatus
  memory : Memory
  graph : Graph
  rounds : List (List Nat)
  deriving DecidableEq, Repr

/-- The loop of `Graph::~Graph`, for at most `fuel` rounds; `rounds` holds the
rounds already completed. -/
def Graph.teardownLoop : Nat → Memory → Graph → List (List Nat) → TeardownRun
  | fuel, m, g, rounds =>
      if g.list.empty then ⟨.completed, m, g, rounds⟩
      else
        match fuel with
        | 0 => ⟨.running, m, g, rounds⟩
        | fuel + 1 =>
            match Graph.teardownRound m g with
            | .error v => ⟨.violation v, m, g, rounds⟩
            | .ok (s, erased) => Graph.teardownLoop fuel s.1 s.2 (rounds ++ [erased])

/-- The destructor `Graph::~Graph`. Every round that does not fail erases a
registered action, so the loop cannot run more rounds than the list has
registered nodes. -/
def Graph.teardown (m : Memory) (g : Graph) : TeardownRun :=
  Graph.teardownLoop g.list.size m g []

/-! ## States of a graph under teardown -/

/-- The actions `xs` are resident in the graph: the list holds them in a
consistent state, each is a live action, and each operand of each is a live
value that records the action as a user. -/
structure Graph.Resident (m : Memory) (g : Graph) (xs : List Nat) : Prop where
  wf : IList.WellFormed m.nodes g.list xs
  actions : ∀ a ∈ xs, m.heap.isAction a = true
  operands : ∀ a ∈ xs, ∀ v ∈ m.heap.uses a, (m.heap.read v).isSome ∧ a ∈ m.heap.userKeys v

/-- Every operation is in the list: a user recorded by a resident action is a
resident action that has it as an operand. -/
def Graph.UsersResident (m : Memory) (xs : List Nat) : Prop :=
  ∀ a ∈ xs, ∀ u ∈ m.heap.userKeys a, u ∈ xs ∧ a ∈ m.heap.uses u

/-- The use-def graph of the resident actions is acyclic: some rank of the
actions is smaller at every resident operand than at its user. -/
def Graph.Acyclic (m : Memory) (xs : List Nat) : Prop :=
  ∃ rank : Nat → Nat, ∀ a ∈ xs, ∀ v ∈ m.heap.uses a, v ∈ xs → rank v < rank a

/-- The heap `h1` is the heap `h` after the actions `erased` were destroyed:
they are gone, and an object that is left has kept its type, kind and
operands, and records the users it recorded before but for the erased actions
that had it as an operand. -/
structure Heap.Stripped (h h1 : Heap) (erased : List Nat) : Prop where
  shape : ∀ x, x ∉ erased → h1.shape x = h.shape x
  uses : ∀ x, x ∉ erased → h1.uses x = h.uses x
  keys : ∀ x, x ∉ erased → ∀ k,
    k ∈ h1.userKeys x ↔ (k ∈ h.userKeys x ∧ ¬ (k ∈ erased ∧ x ∈ h.uses k))
  dead : ∀ x ∈ erased, h1.read x = none

/-- Every user that the value `a` records in the heap `h` is among `erased` and
has `a` as an operand: once these actions are destroyed, `a` is unused. -/
def Heap.freedBy (h : Heap) (erased : List Nat) (a : Nat) : Bool :=
  (h.userKeys a).all (fun k => decide (k ∈ erased) && decide (a ∈ h.uses k))

/-- The actions of the list `xs`, in list order, that are not yet erased and
are unused once the actions `erased` are destroyed. -/
def Graph.roundOf (h : Heap) (xs erased : List Nat) : List Nat :=
  xs.filter (fun a => decide (a ∉ erased) && h.freedBy erased a)

/-- The rounds `rounds` are those of a teardown of the list `xs` on the heap
`h` from the point where the actions `erased` are gone: each round erases
exactly the actions then unused, and at least one. -/
def Graph.Rounds (h : Heap) (xs : List Nat) : List Nat → List (List Nat) → Prop
  | _, [] => True
  | erased, round :: rest =>
      round = Graph.roundOf h xs erased ∧ round ≠ [] ∧
        Graph.Rounds h xs (erased ++ round) rest

/-! ## States reachable through the interface -/

/-- Use-def consistency of a heap: an entry of the user map of a value names
an action that has the value as operand at the slot of the entry, every
operand slot of an action is entered in the user map of the value it holds,
and no action is a key of a user map twice. The operand list of a dead object
is empty, so the actions and values concerned are alive. -/
structure Heap.UseDefConsistent (h : Heap) : Prop where
  users_uses : ∀ v op i, (op, i) ∈ h.users v → (h.uses op)[i]? = some v
  uses_users : ∀ op i v, (h.uses op)[i]? = some v → (op, i) ∈ h.users v
  keys : ∀ v, (h.userKeys v).Nodup

/-- The `IListNode` part of an object constructed at `addr`, the next free
address: the constructor `IListNode()` leaves both links null. Addresses
between the end of the node memory and `addr` hold no node. -/
def NodeMem.place (mem : NodeMem) (addr : Nat) : NodeMem :=
  mem ++ List.replicate (addr - mem.length) none ++ [some ⟨none, none⟩]

/-- One successful call on a graph and the free store, other than
`replaceUse`, `addUser` and `removeUser` called directly: a request to the type
pool or the constant pool, the construction of an action over live values, an
insertion into the list, `replaceAllUsesWith`, or `erase`. -/
inductive Graph.Step (env : StdEnv) : Memory × Graph → Memory × Graph → Prop
  | typeGet (m : Memory) (g : Graph) (d : TypeDesc) (tp1 : TypePool) (r : Nat) :
      TypePool.get env g.m_types d = .ok (tp1, r) →
      Graph.Step env (m, g) (m, { g with m_types := tp1 })
  | constantGet (m : Memory) (g : Graph) (h1 : Heap) (cp : ConstantPool) (tp1 : TypePool)
      (c : Nat) :
      ConstantPool.get env m.heap g.m_constants g.m_types = .ok (h1, cp, tp1, c) →
      Graph.Step env (m, g) (⟨m.nodes, h1⟩, { g with m_constants := cp, m_types := tp1 })
  | allocation (m : Memory) (g : Graph) (type : Nat) (h1 : Heap) (this : Nat) :
      m.heap.Allocation type = .ok (h1, this) →
      Graph.Step env (m, g) (⟨m.nodes.place this, h1⟩, g)
  | allocationDynamic (m : Memory) (g : Graph) (type use : Nat) (h1 : Heap) (this : Nat) :
      (m.heap.read use).isSome →
      m.heap.AllocationDynamic type (some use) = .ok (h1, this) →
      Graph.Step env (m, g) (⟨m.nodes.place this, h1⟩, g)
  | composition (m : Memory) (g : Graph) (type : Nat) (uses : List Nat) (h1 : Heap)
      (this : Nat) :
      (∀ v ∈ uses, (m.heap.read v).isSome) →
      m.heap.Composition type (uses.map some) = .ok (h1, this) →
      Graph.Step env (m, g) (⟨m.nodes.place this, h1⟩, g)
  | realAction (m : Memory) (g : Graph) (useDef use : Nat) (h1 : Heap) (this : Nat) :
      (m.heap.read use).isSome →
      m.heap.RealAction (some useDef) (some use) = .ok (h1, this) →
      Graph.Step env (m, g) (⟨m.nodes.place this, h1⟩, g)
  | terminator (m : Memory) (g : Graph) (use : Nat) (h1 : Heap) (tp1 : TypePool) (this : Nat) :
      (m.heap.read use).isSome →
      Heap.Terminator env m.heap g.m_types (some use) = .ok (h1, tp1, this) →
      Graph.Step env (m, g) (⟨m.nodes.place this, h1⟩, { g with m_types := tp1 })
  | insertAfter (m : Memory) (g : Graph) (node after : Option Nat) (nodes1 : NodeMem)
      (l1 : IList) :
      IList.insertAfter m.nodes g.list node after = .ok (nodes1, l1) →
      Graph.Step env (m, g) (⟨nodes1, m.heap⟩, { g with list := l1 })
  | insertBefore (m : Memory) (g : Graph) (node before : Option Nat) (nodes1 : NodeMem)
      (l1 : IList) :
      IList.insertBefore m.nodes g.list node before = .ok (nodes1, l1) →
      Graph.Step env (m, g) (⟨nodes1, m.heap⟩, { g with list := l1 })
  | replaceAllUsesWith (m : Memory) (g : Graph) (a b : Nat) (h1 : Heap) :
      m.heap.replaceAllUsesWith a b = .ok h1 →
      Graph.Step env (m, g) (⟨m.nodes, h1⟩, g)
  | erase (m : Memory) (g : Graph) (a : Nat) (m1 : Memory) (g1 : Graph) :
      Graph.erase m g a = .ok (m1, g1) →
      Graph.Step env (m, g) (m1, g1)

/-- The states reached from the empty free store and the empty graph by
successful calls. `push_back` and `push_front` are the calls `insertAfter` at
the tail and `insertBefore` at the head. -/
inductive Graph.Reachable (env : StdEnv) : Memory × Graph → Prop
  | init : Graph.Reachable env (⟨[], []⟩, ⟨IList.init, [], []⟩)
  | step (s s1 : Memory × Graph) :
      Graph.Reachable env s → Graph.Step env s s1 → Graph.Reachable env s1

/-! ## Example states -/

/-- Four nodes, none of them linked. -/
def fourNodes : NodeMem :=
  [some ⟨none, none⟩, some ⟨none, none⟩, some ⟨none, none⟩, some ⟨none, none⟩]

/-- The heap of the test program once its five values are constructed: the
allocation `a1` at address 0 (its type is reference 0 of the type pool), the
composition `a2 = OneUseAction(a1)` at 1, the action `a3 = TwoUseAction(a1, a2)`
at 2, the composition `a4 = OneUseAction(a1)` at 3, and the constant
`nc = NullConstant` at 4 (its type is reference 1). -/
def testHeap : Heap :=
  [some ⟨0, [(1, 0), (2, 0), (3, 0)], .action ⟨[], .Allocation, some .Static⟩⟩,
   some ⟨0, [(2, 1)], .action ⟨[0], .Composition, none⟩⟩,
   some ⟨0, [], .action ⟨[0, 1], .RealAction, none⟩⟩,
   some ⟨0, [], .action ⟨[0], .Composition, none⟩⟩,
   some ⟨1, [], .nullConstant⟩]

/-- The constructor calls of the test program, in its order, from an empty
heap and a type pool that holds `BufferType(Device, 4, 4)`: the heap, the
constant pool and the type pool they leave. -/
def testProgram (env : StdEnv) : Except Violation (Heap × ConstantPool × TypePool) := do
  let (h1, a1) ← Heap.Allocation [] 0
  let (h2, a2) ← Heap.Composition h1 0 [some a1]
  let (h3, _) ← Heap.RealAction h2 (some a1) (some a2)
  let (h4, _) ← Heap.Composition h3 0 [some a1]
  let (h5, constants, types, _) ← ConstantPool.get env h4 [] [.BufferType .Device 4 4]
  pure (h5, constants, types)

/-- The memory of the test program after its four `push_back` calls: the
nodes of `a1`, `a2`, `a3`, `a4` linked in this order (the constant at address
4 is no node) and the heap `testHeap`. -/
def testMemory : Memory :=
  ⟨[some ⟨none, some 1⟩, some ⟨some 0, some 2⟩, some ⟨some 1, some 3⟩, some ⟨some 2, none⟩, none],
    testHeap⟩

/-- The graph of the test program after its four `push_back` calls. -/
def testGraph : Graph :=
  ⟨⟨some 0, some 3, [0, 1, 2, 3]⟩, [4], [.BufferType .Device 4 4, .NullType]⟩

/-- A resource chain: the allocation at address 0, the constant `NullConstant`
at 1, the action `RealAction(allocation, constant)` at 2 and the terminator of
that action at 3; the three actions are in the list in this order. -/
def chainMemory : Memory :=
  ⟨[some ⟨none, some 2⟩, none, some ⟨some 0, some 3⟩, some ⟨some 2, none⟩],
    [some ⟨0, [(2, 0)], .action ⟨[], .Allocation, some .Static⟩⟩,
     some ⟨1, [(2, 1)], .nullConstant⟩,
     some ⟨0, [(3, 0)], .action ⟨[0, 1], .RealAction, none⟩⟩,
     some ⟨1, [], .action ⟨[2], .Terminator, none⟩⟩]⟩

/-- The graph of the resource chain. -/
def chainGraph : Graph :=
  ⟨⟨some 0, some 3, [0, 2, 3]⟩, [1], [.BufferType .Device 4 4, .NullType]⟩

/-- The construction of the resource chain through the constructors and
`push_back`, from an empty memory and a type pool that holds
`BufferType(Device, 4, 4)` at reference 0. -/
def chainProgram (env : StdEnv) : Except Violation (Memory × Graph) := do
  let (h1, a) ← Heap.Allocation [] 0
  let (h2, constants, types, nc) ← ConstantPool.get env h1 [] [.BufferType .Device 4 4]
  let (h3, r) ← Heap.RealAction h2 (some a) (some nc)
  let (h4, types1, t) ← Heap.Terminator env h3 types (some r)
  let nodes : NodeMem := [some ⟨none, none⟩, none, some ⟨none, none⟩, some ⟨none, none⟩]
  let (n1, l1) ← IList.push_back nodes IList.init (some a)
  let (n2, l2) ← IList.push_back n1 l1 (some r)
  let (n3, l3) ← IList.push_back n2 l2 (some t)
  pure (⟨n3, h4⟩, ⟨l3, constants, types1⟩)

/-- An operation that uses its own result: the allocation `a1` at address 0
without users and the composition `a2` at 1 whose operand is `a2` and which
records itself as user at slot 0; both are in the list. -/
def selfUseMemory : Memory :=
  ⟨[some ⟨none, some 1⟩, some ⟨some 0, none⟩],
    [some ⟨0, [], .action ⟨[], .Allocation, some .Static⟩⟩,
     some ⟨0, [(1, 0)], .action ⟨[1], .Composition, none⟩⟩]⟩

/-- The graph of the operation that uses its own result. -/
def selfUseGraph : Graph :=
  ⟨⟨some 0, some 1, [0, 1]⟩, [], [.BufferType .Device 4 4]⟩

/-- The construction of `selfUseMemory` and `selfUseGraph`: `a1 = Allocation`,
`a2 = Composition(a1)`, two `push_back` calls, then
`a1.replaceAllUsesWith(a2)`. -/
def selfUseProgram : Except Violation (Memory × Graph) := do
  let (h1, a1) ← Heap.Allocation [] 0
  let (h2, a2) ← Heap.Composition h1 0 [some a1]
  let nodes : NodeMem := [some ⟨none, none⟩, some ⟨none, none⟩]
  let (n1, l1) ← IList.push_back nodes IList.init (some a1)
  let (n2, l2) ← IList.push_back n1 l1 (some a2)
  let h3 ← Heap.replaceAllUsesWith h2 a1 a2
  pure (⟨n2, h3⟩, ⟨l2, [], [.BufferType .Device 4 4]⟩)

/-- Three allocations at the addresses 0, 1, 2 without any use-def edge, after
`push_back(a0)`, `push_back(a1)` and `insertAfter(a2, a0)`: all three are
registered, the head is `a0` and the tail is `a1`, and `a2`, which follows
`a0`, has no next link. -/
def middleInsertMemory : Memory :=
  ⟨[some ⟨none, some 2⟩, some ⟨some 2, none⟩, some ⟨some 0, none⟩],
    [some ⟨0, [], .action ⟨[], .Allocation, some .Static⟩⟩,
     some ⟨0, [], .action ⟨[], .Allocation, some .Static⟩⟩,
     some ⟨0, [], .action ⟨[], .Allocation, some .Static⟩⟩]⟩

/-- The graph of the three allocations. -/
def middleInsertGraph : Graph :=
  ⟨⟨some 0, some 1, [0, 1, 2]⟩, [], [.BufferType .Device 4 4]⟩

/-- The construction of `middleInsertMemory` and `middleInsertGraph`: three
calls of `Allocation(type)`, then `push_back(a0)`, `push_back(a1)` and
`insertAfter(a2, a0)`. -/
def middleInsertProgram : Except Violation (Memory × Graph) := do
  let (h1, a0) ← Heap.Allocation [] 0
  let (h2, a1) ← Heap.Allocation h1 0
  let (h3, a2) ← Heap.Allocation h2 0
  let nodes : NodeMem := [some ⟨none, none⟩, some ⟨none, none⟩, some ⟨none, none⟩]
  let (n1, l1) ← IList.push_back nodes IList.init (some a0)
  let (n2, l2) ← IList.push_back n1 l1 (some a1)
  let (n3, l3) ← IList.insertAfter n2 l2 (some a2) (some a0)
  pure (⟨n3, h3⟩, ⟨l3, [], [.BufferType .Device 4 4]⟩)

/-! # Theorems -/

/-! ## Interning: lemmas -/

theorem mem_acceptedFrom {α : Type} (p : α → Bool) (xs : List α) (s r : Nat) :
    r ∈ acceptedFrom p s xs ↔ ∃ e, s ≤ r ∧ xs[r - s]? = some e ∧ p e = true := by
  induction xs generalizing s with
  | nil => simp [acceptedFrom]
  | cons x xs ih =>
    unfold acceptedFrom
    have key : (∃ e, s ≤ r ∧ (x :: xs)[r - s]? = some e ∧ p e = true) ↔
        ((r = s ∧ p x = true) ∨ ∃ e, s + 1 ≤ r ∧ xs[r - (s + 1)]? = some e ∧ p e = true) := by
      constructor
      · rintro ⟨e, hle, hget, hp⟩
        rcases Nat.eq_or_lt_of_le hle with h | h
        · subst h
          simp at hget
          subst hget
          exact Or.inl ⟨rfl, hp⟩
        · right
          refine ⟨e, h, ?_, hp⟩
          have : r - s = (r - (s + 1)) + 1 := by omega
          rw [this] at hget
          simpa using hget
      · rintro (⟨rfl, hp⟩ | ⟨e, hle, hget, hp⟩)
        · exact ⟨x, le_refl _, by simp, hp⟩
        · refine ⟨e, by omega, ?_, hp⟩
          have : r - s = (r - (s + 1)) + 1 := by omega
          rw [this]
          simpa using hget
    rw [key]
    by_cases hx : p x = true
    · simp only [hx, if_true, List.mem_cons, ih, and_true]
    · rw [if_neg hx, ih]
      simp [hx]

theorem acceptedFrom_cons {α : Type} (p : α → Bool) (x : α) (xs : List α) (s : Nat) :
    acceptedFrom p s (x :: xs) =
      if p x then s :: acceptedFrom p (s + 1) xs else acceptedFrom p (s + 1) xs := rfl

theorem acceptedFrom_append {α : Type} (p : α → Bool) (xs ys : List α) (s : Nat) :
    acceptedFrom p s (xs ++ ys) = acceptedFrom p s xs ++ acceptedFrom p (s + xs.length) ys := by
  induction xs generalizing s with
  | nil => simp [acceptedFrom]
  | cons x xs ih =>
    have hlen : s + 1 + xs.length = s + (xs.length + 1) := by omega
    rw [List.cons_append, acceptedFrom_cons, acceptedFrom_cons, ih, hlen, List.length_cons]
    split <;> simp

theorem internFind_eq_some {α : Type} {env : StdEnv} {hash : α → Nat} {equal : α → α → Bool}
    {pool : List α} {c : α} {r : Nat} (h : internFind env hash equal pool c = some r) :
    ∃ e, pool[r]? = some e ∧
      env.bucket pool.length (hash e) = env.bucket pool.length (hash c) ∧ equal c e = true := by
  unfold internFind at h
  have hm := List.getElem?_mem h
  rw [mem_acceptedFrom] at hm
  obtain ⟨e, _, hget, hp⟩ := hm
  simp only [Bool.and_eq_true, beq_iff_eq] at hp
  exact ⟨e, by simpa using hget, hp.1, hp.2⟩

theorem internFind_eq_none {α : Type} {env : StdEnv} {hash : α → Nat} {equal : α → α → Bool}
    {pool : List α} {c : α} (h : internFind env hash equal pool c = none) :
    acceptedFrom (fun e => env.bucket pool.length (hash e) == env.bucket pool.length (hash c) &&
      equal c e) 0 pool = [] := by
  unfold internFind at h
  simp only at h
  rw [List.getElem?_eq_none_iff] at h
  by_contra hne
  have hpos := List.length_pos.mpr hne
  have := Nat.mod_lt (env.choose (pool.map hash)
    (acceptedFrom (fun e => env.bucket pool.length (hash e) ==
      env.bucket pool.length (hash c) && equal c e) 0 pool)) hpos
  omega

/-- A stored element in the bucket of the candidate that the candidate accepts
is found, or another such element is. -/
theorem internFind_isSome {α : Type} {env : StdEnv} {hash : α → Nat} {equal : α → α → Bool}
    {pool : List α} {c e : α} {i : Nat} (hi : pool[i]? = some e) (hh : hash e = hash c)
    (he : equal c e = true) : ∃ r, internFind env hash equal pool c = some r := by
  cases hf : internFind env hash equal pool c with
  | some r => exact ⟨r, rfl⟩
  | none =>
    exfalso
    have hnil := internFind_eq_none hf
    have hmem : i ∈ acceptedFrom (fun e => env.bucket pool.length (hash e) ==
        env.bucket pool.length (hash c) && equal c e) 0 pool := by
      rw [mem_acceptedFrom]
      exact ⟨e, Nat.zero_le _, by simpa using hi, by simp [hh, he]⟩
    rw [hnil] at hmem
    exact List.not_mem_nil _ hmem

theorem TypeDesc.equal_refl (d : TypeDesc) : d.equal d = true := by
  cases d <;> simp [TypeDesc.equal, TypeDesc.imageEqual, TypeDesc.asImageType, ImageType.equalFields]

theorem TypeDesc.eq_of_equal_same {d1 d2 e : TypeDesc} (hk : d1.concreteKind = d2.concreteKind)
    (h1 : d1.equal e = true) (h2 : d2.equal e = true) : d1 = d2 := by
  cases d1 <;> cases d2 <;> simp [TypeDesc.concreteKind] at hk <;> cases e <;>
    simp_all [TypeDesc.equal, TypeDesc.imageEqual, TypeDesc.asImageType, ImageType.equalFields]

theorem internGet_fst {α : Type} (env : StdEnv) (hash : α → Nat) (equal : α → α → Bool)
    (pool : List α) (c : α) :
    ∃ suffix, (internGet env hash equal pool c).1 = pool ++ suffix := by
  unfold internGet
  cases internFind env hash equal pool c with
  | some r => exact ⟨[], by simp⟩
  | none => exact ⟨[c], rfl⟩

theorem internGet_snd {α : Type} (env : StdEnv) (hash : α → Nat) (equal : α → α → Bool)
    (pool : List α) (c : α) (hrefl : equal c c = true) :
    ∃ e, (internGet env hash equal pool c).1[(internGet env hash equal pool c).2]? = some e ∧
      equal c e = true := by
  unfold internGet
  cases hf : internFind env hash equal pool c with
  | some r =>
    obtain ⟨e, he, _, heq⟩ := internFind_eq_some hf
    exact ⟨e, by simpa using he, heq⟩
  | none => exact ⟨c, by simp, hrefl⟩

theorem TypePool.get_ok (env : StdEnv) (pool : TypePool) (d : TypeDesc) (hd : d.construct = .ok d) :
    TypePool.get env pool d = .ok (internGet env (TypeDesc.hash env) TypeDesc.equal pool d) := by
  simp [TypePool.get, hd]

theorem TypePool.getAll_ok (env : StdEnv) (ds : List TypeDesc) (pool : TypePool)
    (hds : ∀ d ∈ ds, d.construct = .ok d) :
    ∃ suffix, TypePool.getAll env pool ds = .ok (pool ++ suffix) := by
  induction ds generalizing pool with
  | nil => exact ⟨[], by simp [TypePool.getAll, pure, Except.pure]⟩
  | cons d ds ih =>
    obtain ⟨s1, hs1⟩ := internGet_fst env (TypeDesc.hash env) TypeDesc.equal pool d
    obtain ⟨s2, hs2⟩ := ih (pool ++ s1) (fun x hx => hds x (List.mem_cons_of_mem _ hx))
    refine ⟨s1 ++ s2, ?_⟩
    have hd := TypePool.get_ok env pool d (hds d (List.mem_cons_self _ _))
    simp only [TypePool.getAll, List.foldlM_cons, hd, Except.map, bind, Except.bind, hs1] at hs2 ⊢
    rw [hs2, List.append_assoc]

/-- C6 (canonicalization, distinct descriptors, distinct references). Two
requests for descriptors of the same concrete class that differ in a field,
issued to a pool in any state with any requests in between, succeed and return
distinct references. `BufferType::hash` does not read the owner domain, so
buffers that differ only there have one hash, and still `BufferType(Host, 4, 4)`
and `BufferType(Device, 4, 4)` get distinct references, as do
`BufferType(Device, 4, 4)` and `BufferType(Device, 4, 8)`. -/
theorem C6_distinct_descriptors_distinct_references (env : StdEnv) :
    (∀ (pool : TypePool) (d1 d2 : TypeDesc) (ds : List TypeDesc),
      d1.concreteKind = d2.concreteKind → d1 ≠ d2 →
      d1.construct = .ok d1 → d2.construct = .ok d2 → (∀ x ∈ ds, x.construct = .ok x) →
      ∃ p1 r1 p2 p3 r2, TypePool.get env pool d1 = .ok (p1, r1) ∧
        TypePool.getAll env p1 ds = .ok p2 ∧ TypePool.get env p2 d2 = .ok (p3, r2) ∧
        r1 ≠ r2) ∧
    (∀ (o1 o2 : OwnerType) (es ec : Nat),
      (TypeDesc.BufferType o1 es ec).hash env = (TypeDesc.BufferType o2 es ec).hash env) ∧
    TypePool.get env [] (.BufferType .Host 4 4) = .ok ([.BufferType .Host 4 4], 0) ∧
    TypePool.get env [.BufferType .Host 4 4] (.BufferType .Device 4 4) =
      .ok ([.BufferType .Host 4 4, .BufferType .Device 4 4], 1) ∧
    TypePool.get env [.BufferType .Host 4 4, .BufferType .Device 4 4] (.BufferType .Device 4 8) =
      .ok ([.BufferType .Host 4 4, .BufferType .Device 4 4, .BufferType .Device 4 8], 2) := by
  refine ⟨?_, fun _ _ _ _ => rfl, ?_, ?_, ?_⟩
  · intro pool d1 d2 ds hk hne hd1 hd2 hds
    cases hres1 : internGet env (TypeDesc.hash env) TypeDesc.equal pool d1 with
    | mk p1 r1 =>
      obtain ⟨e1, he1, heq1⟩ := internGet_snd env (TypeDesc.hash env) TypeDesc.equal pool d1
        (TypeDesc.equal_refl d1)
      rw [hres1] at he1
      simp only at he1
      obtain ⟨suffix, hs⟩ := TypePool.getAll_ok env ds p1 hds
      cases hres2 : internGet env (TypeDesc.hash env) TypeDesc.equal (p1 ++ suffix) d2 with
      | mk p3 r2 =>
        obtain ⟨e2, he2, heq2⟩ := internGet_snd env (TypeDesc.hash env) TypeDesc.equal
          (p1 ++ suffix) d2 (TypeDesc.equal_refl d2)
        obtain ⟨suffix2, hs2⟩ := internGet_fst env (TypeDesc.hash env) TypeDesc.equal
          (p1 ++ suffix) d2
        rw [hres2] at he2 hs2
        simp only at he2 hs2
        refine ⟨p1, r1, p1 ++ suffix, p3, r2, ?_, hs, ?_, ?_⟩
        · rw [TypePool.get_ok env pool d1 hd1, hres1]
        · rw [TypePool.get_ok env _ d2 hd2, hres2]
        · intro hr
          subst hr
          have hlt : r1 < p1.length := by
            by_contra hlt
            rw [List.getElem?_eq_none (by omega)] at he1
            cases he1
          rw [hs2, List.append_assoc, List.getElem?_append_left hlt, he1] at he2
          cases he2
          exact hne (TypeDesc.eq_of_equal_same hk heq1 heq2)
  · simp [TypePool.get, TypeDesc.construct, internGet, internFind, acceptedFrom]
  · simp [TypePool.get, TypeDesc.construct, internGet, internFind, acceptedFrom, TypeDesc.equal]
  · simp [TypePool.get, TypeDesc.construct, internGet, internFind, acceptedFrom, TypeDesc.equal]

/-- Witness for C6: `BufferType(Host, 4, 4)`, then `NullType`, then
`BufferType(Device, 4, 4)` on the empty pool. -/
theorem C6_distinct_descriptors_distinct_references_witness :
    ∃ p1 r1 p2 p3 r2,
      TypePool.get StdEnv.sample [] (.BufferType .Host 4 4) = .ok (p1, r1) ∧
      TypePool.getAll StdEnv.sample p1 [.NullType] = .ok p2 ∧
      TypePool.get StdEnv.sample p2 (.BufferType .Device 4 4) = .ok (p3, r2) ∧ r1 ≠ r2 :=
  (C6_distinct_descriptors_distinct_references StdEnv.sample).1 []
    (.BufferType .Host 4 4) (.BufferType .Device 4 4) [.NullType] rfl (by decide) rfl rfl
    (by intro x hx; rw [List.mem_singleton] at hx; subst hx; rfl)

/-- C7, as the code has it (counterexample to the claim as stated). A plain
`ImageType(ScreenBuffer, Auto, Auto)` as receiver accepts a
`ScreenBufferImage`, a plain `ImageType(TiedToScreenBuffer, pf, Auto)` accepts
a `TiedToScreenBufferImage`, and `AllocatedImageType` and a plain
`ImageType(Allocated, ...)` accept each other, although the concrete classes
differ in each pair. -/
theorem C7_mismatched_kinds_counterexample :
    ¬ (∀ t1 t2 : TypeDesc, t1.concreteKind ≠ t2.concreteKind → t1.equal t2 = false) ∧
    (TypeDesc.ImageType .ScreenBuffer .Auto .Auto 1 0 0 0).equal (.ScreenBufferImage 7) = true ∧
    (TypeDesc.ImageType .TiedToScreenBuffer (.listed 3) .Auto 1 0 0 0).equal
      (.TiedToScreenBufferImage (.listed 3) 7) = true ∧
    (TypeDesc.AllocatedImageType (.listed 3) .T2D 1 8 8 0).equal
      (.ImageType .Allocated (.listed 3) .T2D 1 8 8 0) = true ∧
    (TypeDesc.ImageType .Allocated (.listed 3) .T2D 1 8 8 0).equal
      (.AllocatedImageType (.listed 3) .T2D 1 8 8 0) = true := by
  refine ⟨?_, by decide, by decide, by decide, by decide⟩
  intro h
  have := h (.ImageType .ScreenBuffer .Auto .Auto 1 0 0 0) (.ScreenBufferImage 7) (by decide)
  revert this
  decide

/-- C7, amended. For descriptors of different concrete classes `equal` is
false, whichever is the receiver, in every pairing but two. A plain `ImageType`
and an `AllocatedImageType`, which share `ImageType::equal`, are equal exactly
when their `ImageType` members are. A plain `ImageType` as receiver against a
`ScreenBufferImage` or `TiedToScreenBufferImage` is left out. -/
theorem C7_mismatched_kinds_amended (t1 t2 : TypeDesc)
    (hk : t1.concreteKind ≠ t2.concreteKind) :
    ((t1.concreteKind = .ImageType ∧ t2.concreteKind = .AllocatedImageType) ∨
      (t1.concreteKind = .AllocatedImageType ∧ t2.concreteKind = .ImageType) →
        (t1.equal t2 = true ↔ t1.asImageType = t2.asImageType)) ∧
    (¬ (t1.concreteKind = .ImageType ∧ t2.concreteKind = .AllocatedImageType) →
      ¬ (t1.concreteKind = .AllocatedImageType ∧ t2.concreteKind = .ImageType) →
      ¬ (t1.concreteKind = .ImageType ∧
          (t2.concreteKind = .ScreenBufferImage ∨ t2.concreteKind = .TiedToScreenBufferImage)) →
      t1.equal t2 = false) := by
  cases t1 <;> cases t2 <;>
    simp_all [TypeDesc.concreteKind, TypeDesc.equal, TypeDesc.imageEqual, TypeDesc.asImageType,
      ImageType.equalFields]
  all_goals tauto

/-- Witness for C7, amended: `NullType` against `BufferType(Device, 4, 4)`, and
an `AllocatedImageType` against the plain `ImageType` with the same members. -/
theorem C7_mismatched_kinds_amended_witness :
    TypeDesc.NullType.concreteKind ≠ (TypeDesc.BufferType .Device 4 4).concreteKind ∧
    TypeDesc.NullType.equal (.BufferType .Device 4 4) = false ∧
    ((TypeDesc.AllocatedImageType (.listed 3) .T2D 1 8 8 0).equal
        (.ImageType .Allocated (.listed 3) .T2D 1 8 8 0) = true ↔
      (TypeDesc.AllocatedImageType (.listed 3) .T2D 1 8 8 0).asImageType =
        (TypeDesc.ImageType .Allocated (.listed 3) .T2D 1 8 8 0).asImageType) :=
  ⟨by decide, (C7_mismatched_kinds_amended .NullType (.BufferType .Device 4 4) (by decide)).2
    (by decide) (by decide) (by decide),
    (C7_mismatched_kinds_amended (.AllocatedImageType (.listed 3) .T2D 1 8 8 0)
      (.ImageType .Allocated (.listed 3) .T2D 1 8 8 0) (by decide)).1 (Or.inr ⟨rfl, rfl⟩)⟩

/-- C8, as the code has it. `Composition(type, operands)` with an empty operand
sequence is constructed without any violation, on every heap and for every
type: the result is a `Composition` action with no operand. The class comment
of `Action` asks for at least one operand; the constructor does not check it. -/
theorem C8_composition_without_operands (h : Heap) (type : Nat) :
    Heap.Composition h type [] =
      .ok (h ++ [some (Value.mk type [] (.action ⟨[], .Composition, none⟩))], h.length) ∧
    Heap.uses (h ++ [some (Value.mk type [] (.action ⟨[], .Composition, none⟩))]) h.length = [] := by
  constructor
  · rfl
  · simp [Heap.uses, Heap.read]


/-- C9, as the code has it. After `push_back` of nodes 0, 1, 2, 3 on an empty
list the forward iteration is 0, 1, 2, 3. After `push_back` of nodes 0 and 1,
`insertAfter(2, 0)` succeeds and the list has size 3, but node 2 is left
without a successor: the forward iteration is 0, 2 and no longer reaches node
1, which was in the list before. `insertBefore(2, 1)` on the same list gives
the forward iteration 0, 2, 1. -/
theorem C9_insertAfter_loses_the_successors :
    (∃ mem l, (do
        let s1 ← IList.push_back fourNodes IList.init (some 0)
        let s2 ← IList.push_back s1.1 s1.2 (some 1)
        let s3 ← IList.push_back s2.1 s2.2 (some 2)
        IList.push_back s3.1 s3.2 (some 3)) = .ok (mem, l) ∧
      l.forward mem = some [0, 1, 2, 3] ∧ l.size = 4) ∧
    (∃ mem l, (do
        let s1 ← IList.push_back fourNodes IList.init (some 0)
        let s2 ← IList.push_back s1.1 s1.2 (some 1)
        IList.insertAfter s2.1 s2.2 (some 2) (some 0)) = .ok (mem, l) ∧
      l.forward mem = some [0, 2] ∧ l.size = 3 ∧ mem.read 2 = some ⟨some 0, none⟩) ∧
    (∃ mem l, (do
        let s1 ← IList.push_back fourNodes IList.init (some 0)
        let s2 ← IList.push_back s1.1 s1.2 (some 1)
        IList.insertBefore s2.1 s2.2 (some 2) (some 1)) = .ok (mem, l) ∧
      l.forward mem = some [0, 2, 1] ∧ l.size = 3) := by
  refine ⟨⟨_, _, rfl, ?_, ?_⟩, ⟨_, _, rfl, ?_, ?_, ?_⟩, ⟨_, _, rfl, ?_, ?_⟩⟩ <;> decide

/-! ## Values and actions: lemmas -/

namespace Heap

theorem read_lt {h : Heap} {a : Nat} {v : Value} (hv : h.read a = some v) : a < h.length := by
  by_contra hlt
  simp [read, List.getElem?_eq_none (Nat.le_of_not_lt hlt)] at hv

theorem read_set {h : Heap} {a : Nat} {v : Value} (hv : h.read a = some v) (x : Option Value)
    (b : Nat) : read (h.set a x) b = if b = a then x else h.read b := by
  have hlt := read_lt hv
  by_cases hb : b = a
  · subst hb
    simp [read, List.getElem?_set, hlt]
  · have hne : a ≠ b := fun h => hb h.symm
    simp [read, List.getElem?_set_ne hne, hb]

theorem read_append_ne (h : Heap) (x : Option Value) {b : Nat} (hb : b ≠ h.length) :
    read (h ++ [x]) b = h.read b := by
  rcases Nat.lt_or_gt_of_ne hb with hlt | hgt
  · simp [read, List.getElem?_append_left hlt]
  · have h1 : (h ++ [x])[b]? = none := List.getElem?_eq_none (by simp; omega)
    have h2 : h[b]? = none := List.getElem?_eq_none (by omega)
    simp [read, h1, h2]

theorem read_append_length (h : Heap) (x : Option Value) : read (h ++ [x]) h.length = x := by
  simp [read]

theorem users_set {h : Heap} {a : Nat} {v : Value} (hv : h.read a = some v) (o : Value) (b : Nat) :
    users (h.set a (some o)) b = if b = a then o.m_users else h.users b := by
  unfold users
  rw [read_set hv]
  by_cases hb : b = a <;> simp [hb]

theorem uses_set_users {h : Heap} {a : Nat} {v : Value} (hv : h.read a = some v)
    (us : List (Nat × Nat)) (b : Nat) :
    uses (h.set a (some { v with m_users := us })) b = h.uses b := by
  unfold uses
  rw [read_set hv]
  by_cases hb : b = a
  · subst hb; simp [hv]
  · simp [hb]

theorem shape_set_users {h : Heap} {a : Nat} {v : Value} (hv : h.read a = some v)
    (us : List (Nat × Nat)) (b : Nat) :
    shape (h.set a (some { v with m_users := us })) b = h.shape b := by
  unfold shape
  rw [read_set hv]
  by_cases hb : b = a
  · subst hb; simp [hv]
  · simp [hb]

theorem users_set_uses {h : Heap} {a : Nat} {v : Value} {act : Action} (hv : h.read a = some v)
    (us : List Nat) (b : Nat) :
    users (h.set a (some { v with derived := .action { act with m_uses := us } })) b =
      h.users b := by
  rw [users_set hv]
  by_cases hb : b = a
  · subst hb; simp [users, hv]
  · simp [hb]

theorem uses_set_uses {h : Heap} {a : Nat} {v : Value} {act : Action} (hv : h.read a = some v)
    (us : List Nat) (b : Nat) :
    uses (h.set a (some { v with derived := .action { act with m_uses := us } })) b =
      if b = a then us else h.uses b := by
  unfold uses
  rw [read_set hv]
  by_cases hb : b = a <;> simp [hb]

theorem shape_set_uses {h : Heap} {a : Nat} {v : Value} {act : Action} (hv : h.read a = some v)
    (hd : v.derived = .action act) (us : List Nat) (hlen : us.length = act.m_uses.length)
    (b : Nat) :
    shape (h.set a (some { v with derived := .action { act with m_uses := us } })) b =
      h.shape b := by
  unfold shape
  rw [read_set hv]
  by_cases hb : b = a
  · subst hb; simp [hv, hd, hlen]
  · simp [hb]

/-- A live object, read through its shape. -/
theorem read_of_shape {h : Heap} {x : Nat} {t : Nat}
    {k : Option (ActionKind × Option AllocationKind × Nat)} (hs : h.shape x = some (t, k)) :
    ∃ o, h.read x = some o ∧ o.m_type = t := by
  unfold shape at hs
  cases hr : h.read x with
  | none => simp [hr] at hs
  | some o =>
    rw [hr] at hs
    simp at hs
    exact ⟨o, rfl, hs.1⟩

theorem action_of_shape {h : Heap} {x : Nat} {t : Nat} {k : ActionKind}
    {ak : Option AllocationKind} {n : Nat} (hs : h.shape x = some (t, some (k, ak, n))) :
    ∃ o a, h.read x = some o ∧ o.derived = .action a ∧ a.m_uses.length = n ∧
      h.uses x = a.m_uses := by
  unfold shape at hs
  cases hr : h.read x with
  | none => simp [hr] at hs
  | some o =>
    rw [hr] at hs
    cases hd : o.derived with
    | nullConstant => simp [hd] at hs
    | action a =>
      simp [hd] at hs
      exact ⟨o, a, rfl, hd, hs.2.2.2, by simp [uses, hr, hd]⟩

end Heap
namespace Heap

theorem isSome_shape {h : Heap} {x : Nat} {o : Value} (hr : h.read x = some o) :
    ∃ s, h.shape x = some s := by
  simp [shape, hr]

theorem any_key_eq_false {us : List (Nat × Nat)} {op : Nat} :
    us.any (fun e => e.1 == op) = false ↔ op ∉ us.map Prod.fst := by
  induction us with
  | nil => simp
  | cons e es ih =>
    simp only [List.any_cons, Bool.or_eq_false_iff, ih, List.map_cons, List.mem_cons, not_or]
    constructor
    · rintro ⟨h1, h2⟩
      exact ⟨fun h => by simp [h] at h1, h2⟩
    · rintro ⟨h1, h2⟩
      exact ⟨by simpa using fun h => h1 h.symm, h2⟩

theorem userKeys_eq {h : Heap} {v : Nat} {o : Value} (hr : h.read v = some o) :
    h.userKeys v = o.m_users.map Prod.fst := by
  simp [userKeys, users, hr]

/-- The effect of `Action::replaceUse` on an action with operand `index`. -/
theorem replaceUse_spec {h : Heap} {op index : Nat} (value : Nat) {t : Nat} {k : ActionKind}
    {ak : Option AllocationKind} {n : Nat} (hop : h.shape op = some (t, some (k, ak, n)))
    (hi : index < n) :
    ∃ h1, replaceUse h op index value = .ok h1 ∧ (∀ x, h1.users x = h.users x) ∧
      (∀ x, h1.uses x = if x = op then (h.uses op).set index value else h.uses x) ∧
      (∀ x, h1.shape x = h.shape x) := by
  obtain ⟨o, a, hr, hd, hlen, hu⟩ := action_of_shape hop
  refine ⟨h.set op (some { o with derived := .action { a with m_uses := a.m_uses.set index value } }),
    ?_, ?_, ?_, ?_⟩
  · simp [replaceUse, hr, hd, hlen, hi]
  · intro x; exact users_set_uses hr _ x
  · intro x; rw [uses_set_uses hr, hu]
  · intro x; exact shape_set_uses hr hd _ (by simp) x

/-- The effect of `Value::addUser` when the action is not yet a user. -/
theorem addUser_spec {h : Heap} {v op : Nat} (index : Nat) {o : Value} (hv : h.read v = some o)
    (hnew : op ∉ h.userKeys v) :
    ∃ h1, addUser h v op index = .ok h1 ∧
      (∀ x, h1.users x = if x = v then h.users v ++ [(op, index)] else h.users x) ∧
      (∀ x, h1.uses x = h.uses x) ∧ (∀ x, h1.shape x = h.shape x) := by
  rw [userKeys_eq hv] at hnew
  refine ⟨h.set v (some { o with m_users := o.m_users ++ [(op, index)] }), ?_, ?_, ?_, ?_⟩
  · simp [addUser, hv, any_key_eq_false.mpr hnew]
  · intro x
    rw [users_set hv]
    simp [users, hv]
  · intro x; exact uses_set_users hv _ x
  · intro x; exact shape_set_users hv _ x

/-- A second registration of the same action is the violation of `addUser`. -/
theorem addUser_double {h : Heap} {v op : Nat} (index : Nat) {o : Value} (hv : h.read v = some o)
    (hold : op ∈ h.userKeys v) : addUser h v op index = .error .userDoubleInsertion := by
  rw [userKeys_eq hv] at hold
  have : o.m_users.any (fun e => e.1 == op) = true := by
    cases hc : o.m_users.any (fun e => e.1 == op) with
    | true => rfl
    | false => exact absurd hold (any_key_eq_false.mp hc)
  simp [addUser, hv, this]

/-- The effect of `Value::removeUser`. -/
theorem removeUser_spec {h : Heap} {v : Nat} (op : Nat) {o : Value} (hv : h.read v = some o) :
    ∃ h1, removeUser h v op = .ok h1 ∧
      (∀ x, h1.users x = if x = v then (h.users v).filter (fun e => e.1 != op) else h.users x) ∧
      (∀ x, h1.uses x = h.uses x) ∧ (∀ x, h1.shape x = h.shape x) := by
  refine ⟨h.set v (some { o with m_users := o.m_users.filter (fun e => e.1 != op) }), ?_, ?_, ?_, ?_⟩
  · simp [removeUser, hv]
  · intro x
    rw [users_set hv]
    simp [users, hv]
  · intro x; exact uses_set_users hv _ x
  · intro x; exact shape_set_users hv _ x

/-- The loop of `replaceAllUsesWith` over entries with distinct actions, each a
live action with the recorded operand index, none of them a user of `value`. -/
theorem replaceLoop_spec (value : Nat) (es : List (Nat × Nat)) (h : Heap)
    (hv : ∃ s, h.shape value = some s)
    (hes : ∀ e ∈ es, ∃ t k ak n, h.shape e.1 = some (t, some (k, ak, n)) ∧ e.2 < n)
    (hnd : (es.map Prod.fst).Nodup)
    (hdisj : ∀ e ∈ es, e.1 ∉ h.userKeys value) :
    ∃ h1, es.foldlM (replaceOneUse value) h = .ok h1 ∧
      (∀ x, h1.users x = if x = value then h.users value ++ es else h.users x) ∧
      (∀ e ∈ es, (h1.uses e.1)[e.2]? = some value) ∧
      (∀ x, x ∉ es.map Prod.fst → h1.uses x = h.uses x) ∧
      (∀ x i, (∀ e ∈ es, e ≠ (x, i)) → (h1.uses x)[i]? = (h.uses x)[i]?) ∧
      (∀ x, h1.shape x = h.shape x) := by
  induction es generalizing h with
  | nil =>
    refine ⟨h, rfl, ?_, ?_, ?_, ?_, ?_⟩
    · intro x; by_cases hx : x = value <;> simp [hx]
    all_goals simp
  | cons e es ih =>
    obtain ⟨s, hs⟩ := hv
    obtain ⟨t, k, ak, n, hshape, hlt⟩ := hes e (List.mem_cons_self _ _)
    obtain ⟨h1, hr1, hus1, huses1, hsh1⟩ := replaceUse_spec value hshape hlt
    obtain ⟨ov, hov, _⟩ := read_of_shape (hs ▸ (hsh1 value) : h1.shape value = some (s.1, s.2))
    have hnew : e.1 ∉ h1.userKeys value := by
      have := hdisj e (List.mem_cons_self _ _)
      simpa [userKeys, hus1] using this
    obtain ⟨h2, hr2, hus2, huses2, hsh2⟩ := addUser_spec e.2 hov hnew
    have hstep : replaceOneUse value h e = .ok h2 := by
      simp [replaceOneUse, hr1, hr2]
    rw [List.map_cons, List.nodup_cons] at hnd
    obtain ⟨h3, hr3, hus3, hget3, hframe3, hslot3, hsh3⟩ := ih h2
      ⟨s, by rw [hsh2, hsh1, hs]⟩
      (fun e2 he2 => by
        obtain ⟨t2, k2, ak2, n2, hs2, hlt2⟩ := hes e2 (List.mem_cons_of_mem _ he2)
        exact ⟨t2, k2, ak2, n2, by rw [hsh2, hsh1, hs2], hlt2⟩)
      hnd.2
      (fun e2 he2 => by
        have hd2 := hdisj e2 (List.mem_cons_of_mem _ he2)
        have hne : e2.1 ≠ e.1 := fun hc => hnd.1 (hc ▸ List.mem_map_of_mem Prod.fst he2)
        simp only [userKeys, hus2, hus1, if_true, List.map_append, List.map_cons, List.map_nil,
          List.mem_append, List.mem_singleton, not_or]
        exact ⟨hd2, hne⟩)
    refine ⟨h3, ?_, ?_, ?_, ?_, ?_, ?_⟩
    · rw [List.foldlM_cons, hstep]
      exact hr3
    · intro x
      rw [hus3, hus2, hus1]
      by_cases hx : x = value
      · subst hx
        simp [hus2, hus1]
      · simp [hx, hus2, hus1]
    · intro e2 he2
      rcases List.mem_cons.mp he2 with rfl | he2
      · rw [hframe3 _ hnd.1, huses2, huses1]
        obtain ⟨o, a, _, _, hlen, hu⟩ := action_of_shape hshape
        simp [List.getElem?_set, hu, hlen, hlt]
      · exact hget3 e2 he2
    · intro x hx
      simp only [List.map_cons, List.mem_cons, not_or] at hx
      rw [hframe3 x hx.2, huses2, huses1, if_neg hx.1]
    · intro x i hxi
      rw [hslot3 x i (fun e2 he2 => hxi e2 (List.mem_cons_of_mem _ he2)), huses2, huses1]
      by_cases hx : x = e.1
      · have hi : e.2 ≠ i := fun hc => hxi e (List.mem_cons_self _ _) (by rw [hx, ← hc])
        simp [hx, List.getElem?_set_ne hi]
      · simp [hx]
    · intro x
      rw [hsh3, hsh2, hsh1]

end Heap
/-- C2, as the code has it (counterexample to the claim as stated). In the heap
of the test program, where `a3 = RealAction(a1, a2)` uses `a1` at operand 0 and
`a2` at operand 1, the user set of `a2` is `{(a3, 1)}` and the call
`a2.replaceAllUsesWith(a1)` is a contract violation: `a1.addUser(a3, 1)` finds
`a3` registered already. So it is not the case that for every value `b` the
call ends with `b` holding the entries of `a`. -/
theorem C2_replaceAllUsesWith_counterexample :
    testProgram StdEnv.sample = .ok (testHeap, [4], [.BufferType .Device 4 4, .NullType]) ∧
    testHeap.users 1 = [(2, 1)] ∧ testHeap.uses 2 = [0, 1] ∧
    testHeap.replaceAllUsesWith 1 0 = .error .userDoubleInsertion ∧
    ¬ (∀ (h : Heap) (a b : Nat), (h.read a).isSome → (h.read b).isSome →
        ∃ h1, h.replaceAllUsesWith a b = .ok h1 ∧ ∀ e ∈ h.users a, e ∈ h1.users b) := by
  refine ⟨by decide, by decide, by decide, by decide, ?_⟩
  intro hall
  obtain ⟨h1, hr, _⟩ := hall testHeap 1 0 (by decide) (by decide)
  rw [show testHeap.replaceAllUsesWith 1 0 = .error .userDoubleInsertion from by decide] at hr
  cases hr

/-- C2, amended. Let `a` and `b` be live values such that every entry
`(op, s)` of the user map of `a` names a live action `op` with an operand `s`,
and no action is a user of both `a` and `b`. Then `a.replaceAllUsesWith(b)`
succeeds; afterwards operand `s` of `op` is `b` for every such entry, the user
map of `b` is its former one followed by the entries of `a`, and `a` is
unused. -/
theorem C2_replaceAllUsesWith_amended (h : Heap) (a b : Nat) (oa ob : Value)
    (ha : h.read a = some oa) (hb : h.read b = some ob)
    (hnd : (h.userKeys a).Nodup)
    (hops : ∀ e ∈ h.users a, ∃ o act, h.read e.1 = some o ∧ o.derived = .action act ∧
      e.2 < act.m_uses.length)
    (hdisj : ∀ op ∈ h.userKeys a, op ∉ h.userKeys b) :
    ∃ h1, h.replaceAllUsesWith a b = .ok h1 ∧
      (∀ e ∈ h.users a, (h1.uses e.1)[e.2]? = some b) ∧
      (∀ e ∈ h.users a, e ∈ h1.users b) ∧
      (a ≠ b → h1.users b = h.users b ++ h.users a) ∧
      h1.users a = [] ∧ h1.unused a = true := by
  have husers : h.users a = oa.m_users := by simp [Heap.users, ha]
  obtain ⟨sb, hsb⟩ := Heap.isSome_shape hb
  obtain ⟨h2, hr2, hus2, hget2, _, _, hsh2⟩ := Heap.replaceLoop_spec b (h.users a) h ⟨sb, hsb⟩
    (fun e he => by
      obtain ⟨o, act, hro, hd, hlt⟩ := hops e he
      exact ⟨o.m_type, act.m_kind, act.allocationKind, act.m_uses.length,
        by simp [Heap.shape, hro, hd], hlt⟩)
    hnd
    (fun e he => hdisj e.1 (List.mem_map_of_mem Prod.fst he))
  obtain ⟨sa, hsa⟩ := Heap.isSome_shape ha
  obtain ⟨o2, ho2, _⟩ := Heap.read_of_shape (hsa ▸ hsh2 a : h2.shape a = some (sa.1, sa.2))
  refine ⟨h2.set a (some { o2 with m_users := [] }), ?_, ?_, ?_, ?_, ?_, ?_⟩
  · simp only [Heap.replaceAllUsesWith, ha]
    rw [← husers, hr2]
    simp only [ho2]
  · intro e he
    rw [Heap.uses_set_users ho2]
    exact hget2 e he
  · intro e he
    have hab : b ≠ a := by
      rintro rfl
      exact hdisj e.1 (List.mem_map_of_mem Prod.fst he) (List.mem_map_of_mem Prod.fst he)
    rw [Heap.users_set ho2, if_neg hab, hus2, if_pos rfl]
    exact List.mem_append_right _ he
  · intro hab
    rw [Heap.users_set ho2, if_neg (fun hc => hab hc.symm), hus2, if_pos rfl]
  · rw [Heap.users_set ho2, if_pos rfl]
  · simp [Heap.unused, Heap.users_set ho2]

/-- Witness for C2, amended: the call `a2->replaceAllUsesWith(nc)` of the test
program. -/
theorem C2_replaceAllUsesWith_amended_witness :
    ∃ h1, testHeap.replaceAllUsesWith 1 4 = .ok h1 ∧
      (∀ e ∈ testHeap.users 1, (h1.uses e.1)[e.2]? = some 4) ∧
      (∀ e ∈ testHeap.users 1, e ∈ h1.users 4) ∧
      ((1 : Nat) ≠ 4 → h1.users 4 = testHeap.users 4 ++ testHeap.users 1) ∧
      h1.users 1 = [] ∧ h1.unused 1 = true :=
  C2_replaceAllUsesWith_amended testHeap 1 4 _ _ rfl rfl (by decide)
    (by
      intro e he
      rw [show testHeap.users 1 = [(2, 1)] from by decide, List.mem_singleton] at he
      subst he
      exact ⟨_, _, rfl, rfl, by decide⟩)
    (by decide)
namespace Heap

theorem shape_set {h : Heap} {a : Nat} {v : Value} (hv : h.read a = some v) (o : Value) (b : Nat) :
    shape (h.set a (some o)) b =
      if b = a then
        some (o.m_type,
          match o.derived with
          | .action act => some (act.m_kind, act.allocationKind, act.m_uses.length)
          | .nullConstant => none)
      else h.shape b := by
  unfold shape
  rw [read_set hv]
  by_cases hb : b = a <;> simp [hb]

theorem uses_set {h : Heap} {a : Nat} {v : Value} (hv : h.read a = some v) (o : Value) (b : Nat) :
    uses (h.set a (some o)) b =
      if b = a then
        (match o.derived with
          | .action act => act.m_uses
          | .nullConstant => [])
      else h.uses b := by
  unfold uses
  rw [read_set hv]
  by_cases hb : b = a <;> simp [hb]

theorem users_set_none {h : Heap} {a : Nat} {v : Value} (hv : h.read a = some v) (b : Nat) :
    users (h.set a none) b = if b = a then [] else h.users b := by
  unfold users
  rw [read_set hv]
  by_cases hb : b = a <;> simp [hb]

/-- The effect of `Action::m_push_use` with a live operand that does not yet
record the action. -/
theorem m_push_use_spec {h : Heap} {this v : Nat} {t : Nat} {k : ActionKind}
    {ak : Option AllocationKind} {n : Nat} (hthis : h.shape this = some (t, some (k, ak, n)))
    {ov : Value} (hv : h.read v = some ov) (hnew : this ∉ h.userKeys v) :
    ∃ h1, m_push_use h this (some v) = .ok h1 ∧
      (∀ x, h1.users x = if x = v then h.users v ++ [(this, n)] else h.users x) ∧
      (∀ x, h1.uses x = if x = this then h.uses this ++ [v] else h.uses x) ∧
      (∀ x, h1.shape x = if x = this then some (t, some (k, ak, n + 1)) else h.shape x) := by
  obtain ⟨o, a, hr, hd, hlen, hu⟩ := action_of_shape hthis
  obtain ⟨h1, hr1, hus1, huses1, hsh1⟩ := addUser_spec a.m_uses.length hv hnew
  obtain ⟨o1, a1, hr1this, hd1, hlen1, hu1⟩ :=
    action_of_shape (hthis ▸ hsh1 this : h1.shape this = some (t, some (k, ak, n)))
  have ht : o1.m_type = t := by
    have := hsh1 this
    rw [hthis] at this
    simp [shape, hr1this] at this
    exact this.1
  have hk : a.m_kind = k ∧ a.allocationKind = ak := by
    have := hthis
    simp [shape, hr, hd] at this
    exact ⟨this.2.1, this.2.2.1⟩
  refine ⟨h1.set this (some { o1 with derived := .action { a with m_uses := a.m_uses ++ [v] } }),
    ?_, ?_, ?_, ?_⟩
  · simp [m_push_use, derefAction, hr, hd, hr1, hr1this]
  · intro x
    rw [users_set hr1this, ← hlen]
    by_cases hx : x = this
    · subst hx
      rw [if_pos rfl, ← hus1]
      simp [users, hr1this]
    · rw [if_neg hx, hus1]
  · intro x
    rw [uses_set hr1this]
    by_cases hx : x = this
    · simp [hx, hu]
    · simp [hx, huses1]
  · intro x
    rw [shape_set hr1this]
    by_cases hx : x = this
    · simp [hx, ht, hk, hlen]
    · simp [hx, hsh1]

/-- The calls `m_push_use` of a constructor body on live, pairwise distinct
operands that do not record the action yet. -/
theorem pushUses_spec (this : Nat) (vs : List Nat) (h : Heap) {t : Nat} {k : ActionKind}
    {ak : Option AllocationKind} {n : Nat} (hthis : h.shape this = some (t, some (k, ak, n)))
    (hnd : vs.Nodup) (hlive : ∀ v ∈ vs, (h.read v).isSome ∧ v ≠ this)
    (hnew : ∀ v ∈ vs, this ∉ h.userKeys v) :
    ∃ h1, pushUses h this (vs.map some) = .ok h1 ∧
      (∀ i v, vs[i]? = some v → h1.users v = h.users v ++ [(this, n + i)]) ∧
      (∀ x, x ∉ vs → h1.users x = h.users x) ∧
      h1.uses this = h.uses this ++ vs ∧
      (∀ x, x ≠ this → h1.uses x = h.uses x) ∧
      (∀ x, x ≠ this → h1.shape x = h.shape x) ∧
      h1.shape this = some (t, some (k, ak, n + vs.length)) := by
  induction vs generalizing h n with
  | nil =>
    refine ⟨h, rfl, ?_, ?_, ?_, ?_, ?_, ?_⟩ <;> simp [hthis]
  | cons v vs ih =>
    obtain ⟨hvlive, hvne⟩ := hlive v (List.mem_cons_self _ _)
    obtain ⟨ov, hov⟩ := Option.isSome_iff_exists.mp hvlive
    obtain ⟨h1, hr1, hus1, huses1, hsh1⟩ :=
      m_push_use_spec hthis hov (hnew v (List.mem_cons_self _ _))
    rw [List.nodup_cons] at hnd
    have hlive2 : ∀ w ∈ vs, (h1.read w).isSome ∧ w ≠ this := by
      intro w hw
      obtain ⟨hwl, hwne⟩ := hlive w (List.mem_cons_of_mem _ hw)
      obtain ⟨ow, how⟩ := Option.isSome_iff_exists.mp hwl
      obtain ⟨s, hs⟩ := isSome_shape how
      have := hsh1 w
      rw [if_neg hwne, hs] at this
      obtain ⟨o2, ho2, _⟩ := read_of_shape (this : h1.shape w = some (s.1, s.2))
      exact ⟨by simp [ho2], hwne⟩
    have hnew2 : ∀ w ∈ vs, this ∉ h1.userKeys w := by
      intro w hw
      have hwv : w ≠ v := fun hc => hnd.1 (hc ▸ hw)
      simp only [userKeys, hus1, if_neg hwv]
      exact hnew w (List.mem_cons_of_mem _ hw)
    have hthis2 : h1.shape this = some (t, some (k, ak, n + 1)) := by
      rw [hsh1, if_pos rfl]
    obtain ⟨h2, hr2, hus2, hframe2, huses2, hother2, hsh2, hshthis2⟩ :=
      ih h1 hthis2 hnd.2 hlive2 hnew2
    refine ⟨h2, ?_, ?_, ?_, ?_, ?_, ?_, ?_⟩
    · simp only [pushUses, List.map_cons, List.foldlM_cons, hr1, bind, Except.bind] at hr2 ⊢
      exact hr2
    · intro i w hw
      cases i with
      | zero =>
        simp only [List.getElem?_cons_zero, Option.some.injEq] at hw
        subst hw
        rw [hframe2 _ hnd.1, hus1, if_pos rfl]
        rfl
      | succ i =>
        simp only [List.getElem?_cons_succ] at hw
        have hwmem : w ∈ vs := List.getElem?_mem hw
        have hwv : w ≠ v := fun hc => hnd.1 (hc ▸ hwmem)
        rw [hus2 i w hw, hus1, if_neg hwv]
        congr 3
        omega
    · intro x hx
      simp only [List.mem_cons, not_or] at hx
      rw [hframe2 x hx.2, hus1, if_neg hx.1]
    · rw [huses2, huses1, if_pos rfl, List.append_assoc]
      rfl
    · intro x hx
      rw [hother2 x hx, huses1, if_neg hx]
    · intro x hx
      rw [hsh2 x hx, hsh1, if_neg hx]
    · rw [hshthis2, List.length_cons]
      have : n + 1 + vs.length = n + (vs.length + 1) := by omega
      rw [this]

end Heap
namespace Heap

theorem users_append_ne (h : Heap) (o : Option Value) {x : Nat} (hx : x ≠ h.length) :
    users (h ++ [o]) x = h.users x := by
  simp [users, read_append_ne h o hx]

theorem uses_append_ne (h : Heap) (o : Option Value) {x : Nat} (hx : x ≠ h.length) :
    uses (h ++ [o]) x = h.uses x := by
  simp [uses, read_append_ne h o hx]

theorem shape_append_ne (h : Heap) (o : Option Value) {x : Nat} (hx : x ≠ h.length) :
    shape (h ++ [o]) x = h.shape x := by
  simp [shape, read_append_ne h o hx]

theorem live_of_shape_eq {h h1 : Heap} {x : Nat} (hs : h1.shape x = h.shape x)
    (hl : (h.read x).isSome) : (h1.read x).isSome := by
  obtain ⟨o, ho⟩ := Option.isSome_iff_exists.mp hl
  obtain ⟨s, hsx⟩ := isSome_shape ho
  rw [hsx] at hs
  obtain ⟨o1, ho1, _⟩ := read_of_shape (hs : h1.shape x = some (s.1, s.2))
  simp [ho1]

/-- The loop of `Action::~Action`: every operand forgets the action. -/
theorem removeLoop_spec (this : Nat) (us : List Nat) (h : Heap)
    (hlive : ∀ v ∈ us, (h.read v).isSome) :
    ∃ h1, us.foldlM (fun h1 val => removeUser h1 val this) h = .ok h1 ∧
      (∀ x, h1.users x =
        if x ∈ us then (h.users x).filter (fun e => e.1 != this) else h.users x) ∧
      (∀ x, h1.uses x = h.uses x) ∧ (∀ x, h1.shape x = h.shape x) := by
  induction us generalizing h with
  | nil => exact ⟨h, rfl, by simp, by simp, by simp⟩
  | cons v us ih =>
    obtain ⟨ov, hov⟩ := Option.isSome_iff_exists.mp (hlive v (List.mem_cons_self _ _))
    obtain ⟨h1, hr1, hus1, huses1, hsh1⟩ := removeUser_spec this hov
    obtain ⟨h2, hr2, hus2, huses2, hsh2⟩ := ih h1
      (fun w hw => live_of_shape_eq (hsh1 w) (hlive w (List.mem_cons_of_mem _ hw)))
    refine ⟨h2, ?_, ?_, ?_, ?_⟩
    · rw [List.foldlM_cons, hr1]
      exact hr2
    · intro x
      rw [hus2, hus1]
      by_cases hxv : x = v
      · subst hxv
        by_cases hxus : x ∈ us <;> simp [hxus, List.filter_filter]
      · by_cases hxus : x ∈ us <;> simp [hxus, hxv]
    · intro x; rw [huses2, huses1]
    · intro x; rw [hsh2, hsh1]

/-- The destructor of a live, unused action whose operands are alive: it
succeeds, the action is gone, and every operand has forgotten it. -/
theorem destroyAction_spec {h : Heap} {this : Nat} {t : Nat} {k : ActionKind}
    {ak : Option AllocationKind} {n : Nat} (hthis : h.shape this = some (t, some (k, ak, n)))
    (hlive : ∀ v ∈ h.uses this, (h.read v).isSome) (hunused : h.users this = []) :
    ∃ h2, destroyAction h this = .ok h2 ∧ h2.read this = none ∧
      (∀ x, x ≠ this → h2.users x =
        if x ∈ h.uses this then (h.users x).filter (fun e => e.1 != this) else h.users x) ∧
      (∀ x, x ≠ this → h2.uses x = h.uses x) ∧ (∀ x, x ≠ this → h2.shape x = h.shape x) ∧
      (∀ x, this ∉ h2.userKeys x ∨ x ∉ h.uses this) := by
  obtain ⟨o, a, hr, hd, hlen, hu⟩ := action_of_shape hthis
  obtain ⟨h1, hr1, hus1, huses1, hsh1⟩ := removeLoop_spec this (h.uses this) h hlive
  obtain ⟨o1, ho1, _⟩ :=
    read_of_shape (hthis ▸ hsh1 this : h1.shape this = some (t, some (k, ak, n)))
  have hun1 : h1.unused this = true := by
    simp [unused, hus1, hunused]
  refine ⟨h1.set this none, ?_, ?_, ?_, ?_, ?_, ?_⟩
  · simp only [destroyAction, derefAction, hr, hd]
    rw [← hu, hr1]
    simp [hun1]
  · rw [read_set ho1, if_pos rfl]
  · intro x hx
    rw [users_set_none ho1, if_neg hx, hus1]
  · intro x hx
    simp only [uses, read_set ho1, if_neg hx]
    have := huses1 x
    simpa [uses] using this
  · intro x hx
    simp only [shape, read_set ho1, if_neg hx]
    have := hsh1 x
    simpa [shape] using this
  · intro x
    by_cases hx : x ∈ h.uses this
    · left
      by_cases hxt : x = this
      · subst hxt
        simp [userKeys, users_set_none ho1]
      · simp only [userKeys, users_set_none ho1, if_neg hxt, hus1, if_pos hx, List.mem_map,
          List.mem_filter, not_exists, not_and]
        rintro e ⟨_, hne⟩ heq
        simp [heq] at hne
    · exact Or.inr hx

end Heap
/-- The body of every constructor: fresh storage, then the operands pushed in
order. -/
theorem Heap.construct_spec (h : Heap) (kind : ActionKind) (type : Nat)
    (ak : Option AllocationKind) (vs : List Nat) (hfresh : h.FreshOperands vs) :
    ∃ h1, Heap.pushUses (h.newAction kind type ak).1 h.length (vs.map some) = .ok h1 ∧
      h.UseDefSymmetric vs h1 h.length := by
  obtain ⟨hnd, hops⟩ := hfresh
  have hne : ∀ v ∈ vs, v ≠ h.length := by
    intro v hv
    obtain ⟨o, ho⟩ := Option.isSome_iff_exists.mp (hops v hv).1
    exact Nat.ne_of_lt (Heap.read_lt ho)
  have hshape0 : Heap.shape (h.newAction kind type ak).1 h.length =
      some (type, some (kind, ak, 0)) := by
    simp [Heap.newAction, Heap.alloc, Heap.shape, Heap.read_append_length]
  obtain ⟨h1, hr1, hus1, hframe1, huses1, _, hsh1, hshthis1⟩ :=
    Heap.pushUses_spec h.length vs (h.newAction kind type ak).1 hshape0 hnd
      (fun v hv => ⟨by
        simp only [Heap.newAction, Heap.alloc, Heap.read_append_ne h _ (hne v hv)]
        exact (hops v hv).1, hne v hv⟩)
      (fun v hv => by
        simp only [Heap.newAction, Heap.alloc, Heap.userKeys, Heap.users_append_ne h _ (hne v hv)]
        exact (hops v hv).2)
  have huses : h1.uses h.length = vs := by
    rw [huses1]
    simp [Heap.newAction, Heap.alloc, Heap.uses, Heap.read_append_length]
  have hunused : h1.users h.length = [] := by
    rw [hframe1 _ (fun hc => hne _ hc rfl)]
    simp [Heap.newAction, Heap.alloc, Heap.users, Heap.read_append_length]
  obtain ⟨h2, hr2, hdead2, _, _, _, hkeys2⟩ := Heap.destroyAction_spec hshthis1
    (fun v hv => by
      rw [huses] at hv
      refine Heap.live_of_shape_eq (hsh1 v (hne v hv)) ?_
      simp only [Heap.newAction, Heap.alloc, Heap.read_append_ne h _ (hne v hv)]
      exact (hops v hv).1)
    hunused
  refine ⟨h1, hr1, rfl, huses, ?_, h2, hr2, hdead2, ?_⟩
  · intro i v hv
    rw [hus1 i v hv, Nat.zero_add]
    exact List.mem_append_right _ (List.mem_singleton_self _)
  · intro v hv
    rcases hkeys2 v with hk | hk
    · exact hk
    · exact absurd (huses ▸ hv) hk

/-- C3, as the code has it (counterexample to the claim as stated). On a heap
that holds one static allocation `v`, the constructor `RealAction(v, v)` is a
contract violation: the second `m_push_use(v)` finds the new action registered
as a user of `v` already. -/
theorem C3_same_value_twice_counterexample :
    Heap.Allocation [] 0 = .ok ([some ⟨0, [], .action ⟨[], .Allocation, some .Static⟩⟩], 0) ∧
    Heap.RealAction [some ⟨0, [], .action ⟨[], .Allocation, some .Static⟩⟩] (some 0) (some 0) =
      .error .userDoubleInsertion ∧
    Heap.Composition [some ⟨0, [], .action ⟨[], .Allocation, some .Static⟩⟩] 0 [some 0, some 0] =
      .error .userDoubleInsertion := by
  refine ⟨by decide, by decide, by decide⟩

/-- C3, amended. Let the operands be live values, pairwise distinct, none of
which records the address of the action to be constructed. Then each of the
constructors (static `Allocation`, dynamic `Allocation`, `Composition`,
`RealAction`, `Terminator`) succeeds; right after it the value at operand `i`
maps the new action to `i` in its user map; and the destructor of the action
succeeds and leaves no operand that records the action. -/
theorem C3_use_def_symmetry_amended (env : StdEnv) (h : Heap) (vs : List Nat)
    (hfresh : h.FreshOperands vs) :
    (∀ type, vs = [] →
      ∃ h1 this, h.Allocation type = .ok (h1, this) ∧ h.UseDefSymmetric vs h1 this) ∧
    (∀ type v, vs = [v] →
      ∃ h1 this, h.AllocationDynamic type (some v) = .ok (h1, this) ∧
        h.UseDefSymmetric vs h1 this) ∧
    (∀ type, ∃ h1 this, h.Composition type (vs.map some) = .ok (h1, this) ∧
      h.UseDefSymmetric vs h1 this) ∧
    (∀ useDef use, vs = [useDef, use] →
      ∃ h1 this, h.RealAction (some useDef) (some use) = .ok (h1, this) ∧
        h.UseDefSymmetric vs h1 this) ∧
    (∀ tp v, vs = [v] →
      ∃ h1 tp1 this, Heap.Terminator env h tp (some v) = .ok (h1, tp1, this) ∧
        h.UseDefSymmetric vs h1 this) := by
  refine ⟨?_, ?_, ?_, ?_, ?_⟩
  · intro type hvs
    obtain ⟨h1, hr, hsym⟩ := Heap.construct_spec h .Allocation type (some .Static) vs hfresh
    subst hvs
    simp only [Heap.pushUses, List.map_nil, List.foldlM_nil, pure, Except.pure] at hr
    cases hr
    exact ⟨_, _, rfl, hsym⟩
  · intro type v hvs
    obtain ⟨h1, hr, hsym⟩ := Heap.construct_spec h .Allocation type (some .Dynamic) vs hfresh
    subst hvs
    refine ⟨h1, h.length, ?_, hsym⟩
    simp only [List.map_cons, List.map_nil] at hr
    simp only [Heap.AllocationDynamic]
    simp only [Heap.newAction, Heap.alloc] at hr ⊢
    rw [hr]
  · intro type
    obtain ⟨h1, hr, hsym⟩ := Heap.construct_spec h .Composition type none vs hfresh
    refine ⟨h1, h.length, ?_, hsym⟩
    simp only [Heap.Composition]
    simp only [Heap.newAction, Heap.alloc] at hr ⊢
    rw [hr]
  · intro useDef use hvs
    subst hvs
    obtain ⟨o, ho⟩ := Option.isSome_iff_exists.mp (hfresh.2 useDef (List.mem_cons_self _ _)).1
    obtain ⟨h1, hr, hsym⟩ := Heap.construct_spec h .RealAction o.m_type none _ hfresh
    refine ⟨h1, h.length, ?_, hsym⟩
    simp only [List.map_cons, List.map_nil] at hr
    simp only [Heap.RealAction, Option.bind, Heap.type, ho, Option.map]
    simp only [Heap.newAction, Heap.alloc] at hr ⊢
    rw [hr]
  · intro tp v hvs
    subst hvs
    cases hres : internGet env (TypeDesc.hash env) TypeDesc.equal tp .NullType with
    | mk tp1 type =>
      obtain ⟨h1, hr, hsym⟩ := Heap.construct_spec h .Terminator type none _ hfresh
      refine ⟨h1, tp1, h.length, ?_, hsym⟩
      simp only [List.map_cons, List.map_nil] at hr
      simp only [Heap.Terminator, TypePool.get_ok env tp .NullType rfl, hres]
      simp only [Heap.newAction, Heap.alloc] at hr ⊢
      rw [hr]

/-- Witness for C3, amended: on the heap of the test program, an action over
the operands `a2` and `a4`. -/
theorem C3_use_def_symmetry_amended_witness :
    testHeap.FreshOperands [1, 3] ∧
    (∃ h1 this, testHeap.RealAction (some 1) (some 3) = .ok (h1, this) ∧
      testHeap.UseDefSymmetric [1, 3] h1 this) ∧
    (∃ h1 this, testHeap.Composition 0 [some 1, some 3] = .ok (h1, this) ∧
      testHeap.UseDefSymmetric [1, 3] h1 this) :=
  have hfresh : testHeap.FreshOperands [1, 3] := by
    refine ⟨by decide, ?_⟩
    intro v hv
    simp only [List.mem_cons, List.mem_singleton, List.not_mem_nil, or_false] at hv
    rcases hv with rfl | rfl <;> decide
  ⟨hfresh,
    (C3_use_def_symmetry_amended StdEnv.sample testHeap [1, 3] hfresh).2.2.2.1 1 3 rfl,
    (C3_use_def_symmetry_amended StdEnv.sample testHeap [1, 3] hfresh).2.2.1 0⟩
/-! ## The intrusive list: lemmas -/

namespace NodeMem

theorem nodeRead_lt {mem : NodeMem} {a : Nat} {n : IListNode} (h : mem.read a = some n) :
    a < mem.length := by
  by_contra hlt
  simp [read, List.getElem?_eq_none (Nat.le_of_not_lt hlt)] at h

theorem nodeRead_set {mem : NodeMem} {a : Nat} {n : IListNode} (h : mem.read a = some n)
    (x : Option IListNode) (b : Nat) :
    read (mem.set a x) b = if b = a then x else mem.read b := by
  have hlt := nodeRead_lt h
  by_cases hb : b = a
  · subst hb
    simp [read, List.getElem?_set, hlt]
  · have hne : a ≠ b := fun h => hb h.symm
    simp [read, List.getElem?_set_ne hne, hb]

theorem nodeRead_set_ne (mem : NodeMem) {a b : Nat} (x : Option IListNode) (hb : b ≠ a) :
    read (mem.set a x) b = mem.read b := by
  have hne : a ≠ b := fun h => hb h.symm
  simp [read, List.getElem?_set_ne hne]

theorem seg_cons (mem : NodeMem) (p q : Option Nat) (x : Nat) (rest : List Nat) :
    mem.Seg p (x :: rest) q ↔
      mem.read x = some ⟨p, (rest.head?).or q⟩ ∧ mem.Seg (some x) rest q := Iff.rfl

theorem getLast?_or_cons (x : Nat) (a : List Nat) (p : Option Nat) :
    ((x :: a).getLast?).or p = (a.getLast?).or (some x) := by
  cases a with
  | nil => simp
  | cons y ys =>
    rw [List.getLast?_cons_cons]
    cases hl : (y :: ys).getLast? with
    | none => simp at hl
    | some z => simp

theorem seg_append (mem : NodeMem) (p q : Option Nat) (a b : List Nat) :
    mem.Seg p (a ++ b) q ↔ mem.Seg p a ((b.head?).or q) ∧ mem.Seg ((a.getLast?).or p) b q := by
  induction a generalizing p with
  | nil => simp [Seg]
  | cons x a ih =>
    have h1 : ((a ++ b).head?).or q = (a.head?).or ((b.head?).or q) := by
      cases a <;> simp
    rw [List.cons_append, seg_cons, seg_cons, ih, h1, getLast?_or_cons]
    tauto

theorem seg_mem_live {mem : NodeMem} {p q : Option Nat} {xs : List Nat} (h : mem.Seg p xs q) :
    ∀ x ∈ xs, ∃ n, mem.read x = some n := by
  induction xs generalizing p with
  | nil => simp
  | cons y ys ih =>
    intro x hx
    rcases List.mem_cons.mp hx with rfl | hx
    · exact ⟨_, h.1⟩
    · exact ih h.2 x hx

theorem seg_frame {mem : NodeMem} {p q : Option Nat} {xs : List Nat} (h : mem.Seg p xs q)
    {a : Nat} (v : Option IListNode) (ha : a ∉ xs) : Seg (mem.set a v) p xs q := by
  induction xs generalizing p with
  | nil => trivial
  | cons y ys ih =>
    simp only [List.mem_cons, not_or] at ha
    refine ⟨?_, ih h.2 ha.2⟩
    rw [nodeRead_set_ne mem v (fun hc => ha.1 hc.symm)]
    exact h.1

theorem seg_set_next {mem : NodeMem} {p q : Option Nat} {xs : List Nat} (h : mem.Seg p xs q)
    (hnd : xs.Nodup) {y : Nat} (hy : xs.getLast? = some y) (q2 : Option Nat) :
    ∃ mem1, mem.setNext y q2 = .ok mem1 ∧ mem1.Seg p xs q2 ∧ mem1.length = mem.length ∧
      ∀ b, b ≠ y → mem1.read b = mem.read b := by
  induction xs generalizing p with
  | nil => simp at hy
  | cons x rest ih =>
    rw [List.nodup_cons] at hnd
    cases rest with
    | nil =>
      simp only [List.getLast?_singleton, Option.some.injEq] at hy
      subst hy
      have hr := h.1
      refine ⟨mem.set x (some ⟨p, q2⟩), ?_, ?_, by simp, ?_⟩
      · simp [setNext, hr]
      · exact ⟨by rw [nodeRead_set hr, if_pos rfl]; rfl, trivial⟩
      · intro b hb
        exact nodeRead_set_ne mem _ hb
    | cons z zs =>
      rw [List.getLast?_cons_cons] at hy
      obtain ⟨mem1, hm1, hseg1, hlen1, hfr1⟩ := ih h.2 hnd.2 hy
      have hxy : x ≠ y := fun hc => hnd.1 (hc ▸ List.mem_of_getLast?_eq_some hy)
      refine ⟨mem1, hm1, ⟨?_, hseg1⟩, hlen1, hfr1⟩
      rw [hfr1 x hxy]
      exact h.1

theorem seg_set_prev {mem : NodeMem} {p q : Option Nat} {xs : List Nat} (h : mem.Seg p xs q)
    (hnd : xs.Nodup) {x : Nat} (hx : xs.head? = some x) (p2 : Option Nat) :
    ∃ mem1, mem.setPrev x p2 = .ok mem1 ∧ mem1.Seg p2 xs q ∧ mem1.length = mem.length ∧
      ∀ b, b ≠ x → mem1.read b = mem.read b := by
  cases xs with
  | nil => simp at hx
  | cons y rest =>
    simp only [List.head?_cons, Option.some.injEq] at hx
    subst hx
    rw [List.nodup_cons] at hnd
    have hr := h.1
    refine ⟨mem.set y (some ⟨p2, (rest.head?).or q⟩), ?_, ⟨?_, ?_⟩, by simp, ?_⟩
    · simp [setPrev, hr]
    · rw [nodeRead_set hr, if_pos rfl]
    · exact seg_frame h.2 _ hnd.1
    · intro b hb
      exact nodeRead_set_ne mem _ hb

theorem walk_seg {mem : NodeMem} {p : Option Nat} {xs : List Nat} (h : mem.Seg p xs none)
    (fuel : Nat) (hf : xs.length ≤ fuel) : mem.walk fuel xs.head? = some xs := by
  induction xs generalizing p fuel with
  | nil => cases fuel <;> rfl
  | cons x rest ih =>
    cases fuel with
    | zero => simp at hf
    | succ f =>
      have hrest := ih h.2 f (by simpa using hf)
      simp only [List.head?_cons, walk, h.1, Option.or_none, hrest, Option.map_some']

theorem length_le_of_nodup_lt {xs : List Nat} {n : Nat} (hnd : xs.Nodup)
    (hlt : ∀ x ∈ xs, x < n) : xs.length ≤ n := by
  have hsub : xs.toFinset ⊆ Finset.range n := by
    intro x hx
    simp only [List.mem_toFinset] at hx
    simpa using hlt x hx
  have := Finset.card_le_card hsub
  rwa [List.toFinset_card_of_nodup hnd, Finset.card_range] at this

end NodeMem

theorem IList.forward_of_wellFormed {mem : NodeMem} {l : IList} {xs : List Nat}
    (wf : IList.WellFormed mem l xs) : l.forward mem = some xs := by
  unfold IList.forward
  rw [wf.head]
  refine NodeMem.walk_seg wf.chain _ (NodeMem.length_le_of_nodup_lt wf.nodup ?_)
  intro x hx
  obtain ⟨n, hn⟩ := NodeMem.seg_mem_live wf.chain x hx
  exact NodeMem.nodeRead_lt hn
theorem NodeMem.seg_congr {mem mem1 : NodeMem} {p q : Option Nat} {xs : List Nat}
    (h : mem.Seg p xs q) (hsame : ∀ b ∈ xs, mem1.read b = mem.read b) : mem1.Seg p xs q := by
  induction xs generalizing p with
  | nil => trivial
  | cons y ys ih =>
    refine ⟨?_, ih h.2 (fun b hb => hsame b (List.mem_cons_of_mem _ hb))⟩
    rw [hsame y (List.mem_cons_self _ _)]
    exact h.1

theorem NodeMem.seg_setPrevIf {mem : NodeMem} {p q : Option Nat} {xs : List Nat}
    (h : mem.Seg p xs q) (hnd : xs.Nodup) (p2 : Option Nat) :
    ∃ mem1, mem.setPrevIf xs.head? p2 = .ok mem1 ∧ mem1.Seg p2 xs q ∧
      mem1.length = mem.length ∧ ∀ b, b ∉ xs → mem1.read b = mem.read b := by
  cases hx : xs.head? with
  | none =>
    have : xs = [] := by cases xs <;> simp_all
    subst this
    exact ⟨mem, rfl, trivial, rfl, fun _ _ => rfl⟩
  | some x =>
    obtain ⟨mem1, hm, hseg, hlen, hfr⟩ := NodeMem.seg_set_prev h hnd hx p2
    refine ⟨mem1, hm, hseg, hlen, fun b hb => hfr b ?_⟩
    rintro rfl
    exact hb (List.mem_of_mem_head? hx)

theorem NodeMem.seg_setNextIf {mem : NodeMem} {p q : Option Nat} {xs : List Nat}
    (h : mem.Seg p xs q) (hnd : xs.Nodup) (q2 : Option Nat) :
    ∃ mem1, mem.setNextIf xs.getLast? q2 = .ok mem1 ∧ mem1.Seg p xs q2 ∧
      mem1.length = mem.length ∧ ∀ b, b ∉ xs → mem1.read b = mem.read b := by
  cases hy : xs.getLast? with
  | none =>
    have : xs = [] := by simpa using hy
    subst this
    exact ⟨mem, rfl, trivial, rfl, fun _ _ => rfl⟩
  | some y =>
    obtain ⟨mem1, hm, hseg, hlen, hfr⟩ := NodeMem.seg_set_next h hnd hy q2
    refine ⟨mem1, hm, hseg, hlen, fun b hb => hfr b ?_⟩
    rintro rfl
    exact hb (List.mem_of_getLast?_eq_some hy)

/-- The unlinking statements of `erase` on a consistent list that holds `n`
between the nodes `pre` and the nodes `post`. -/
theorem IList.unlink_split {mem : NodeMem} {l : IList} {pre post : List Nat} {n : Nat}
    (wf : IList.WellFormed mem l (pre ++ n :: post)) :
    ∃ mem1 l1, IList.unlink mem l n = .ok (mem1, l1) ∧ mem1.length = mem.length ∧
      l1.m_container = l.m_container ∧ l1.m_head = (pre ++ post).head? ∧
      l1.m_tail = (pre ++ post).getLast? ∧ mem1.Seg none (pre ++ post) none ∧
      (∀ b, b ∉ pre ++ post → mem1.read b = mem.read b) ∧
      mem.read n = some ⟨pre.getLast?, post.head?⟩ := by
  have hcont : l.m_container.contains n = true := by
    simp [wf.container.mem_iff]
  have hnd := wf.nodup
  rw [List.nodup_append] at hnd
  obtain ⟨hndpre, hndnpost, hdisj⟩ := hnd
  rw [List.nodup_cons] at hndnpost
  have hnpre : n ∉ pre := fun hc => hdisj hc (List.mem_cons_self _ _)
  have hchain := wf.chain
  rw [NodeMem.seg_append, NodeMem.seg_cons] at hchain
  simp only [Option.or_none, List.head?_cons] at hchain
  obtain ⟨hpre, hn, hpost⟩ := hchain
  obtain ⟨mem1, hm1, hseg1, hlen1, hfr1⟩ := NodeMem.seg_setPrevIf hpost hndnpost.2 pre.getLast?
  have hpre1 : mem1.Seg none pre (some n) :=
    NodeMem.seg_congr hpre (fun b hb => hfr1 b (fun hc => hdisj hb (List.mem_cons_of_mem _ hc)))
  obtain ⟨mem2, hm2, hseg2, hlen2, hfr2⟩ := NodeMem.seg_setNextIf hpre1 hndpre post.head?
  have hpost2 : mem2.Seg pre.getLast? post none :=
    NodeMem.seg_congr hseg1 (fun b hb => hfr2 b (fun hc => hdisj hc (List.mem_cons_of_mem _ hb)))
  refine ⟨mem2,
    { l with
      m_head := if some n == l.m_head then post.head? else l.m_head,
      m_tail := if some n == l.m_tail then pre.getLast? else l.m_tail },
    ?_, by rw [hlen2, hlen1], rfl, ?_, ?_, ?_, ?_, hn⟩
  · simp only [IList.unlink, hcont, NodeMem.deref, hn, bind, Except.bind, pure, Except.pure, hm1,
      hm2]
    rfl
  · show (if (some n == l.m_head) = true then post.head? else l.m_head) = (pre ++ post).head?
    rw [wf.head]
    cases pre with
    | nil => simp
    | cons p0 ps =>
      have : n ≠ p0 := fun hc => hnpre (hc ▸ List.mem_cons_self _ _)
      simp [this]
  · show (if (some n == l.m_tail) = true then pre.getLast? else l.m_tail) = (pre ++ post).getLast?
    rw [wf.tail]
    cases post with
    | nil => simp
    | cons q0 qs =>
      have hl : (pre ++ n :: q0 :: qs).getLast? = (q0 :: qs).getLast? := by
        rw [List.getLast?_append, List.getLast?_cons_cons]
        cases h : (q0 :: qs).getLast? with
        | none => simp at h
        | some z => simp
      have hl2 : (pre ++ q0 :: qs).getLast? = (q0 :: qs).getLast? := by
        rw [List.getLast?_append]
        cases h : (q0 :: qs).getLast? with
        | none => simp at h
        | some z => simp
      rw [hl, hl2]
      have hne : some n ≠ (q0 :: qs).getLast? := by
        intro hc
        exact hndnpost.1 (List.mem_of_getLast?_eq_some hc.symm)
      simp [hne]
  · rw [NodeMem.seg_append]
    simp only [Option.or_none]
    exact ⟨hseg2, hpost2⟩
  · intro b hb
    simp only [List.mem_append, not_or] at hb
    rw [hfr2 b hb.1, hfr1 b hb.2]
/-- The list after `erase(n)`: the unlinking statements followed by the
destruction of the node leave a consistent list of the other nodes. -/
theorem IList.unlink_wellFormed {mem : NodeMem} {l : IList} {xs : List Nat} {n : Nat}
    (wf : IList.WellFormed mem l xs) (hn : n ∈ xs) :
    ∃ mem1 l1, IList.unlink mem l n = .ok (mem1, l1) ∧
      IList.WellFormed (mem1.set n none) { l1 with m_container := l1.m_container.erase n }
        (xs.erase n) ∧
      l1.m_container = l.m_container ∧
      NodeMem.read (mem1.set n none) n = none ∧
      (∀ b, b ∉ xs → NodeMem.read (mem1.set n none) b = mem.read b) ∧
      ∃ pre post, xs = pre ++ n :: post ∧ xs.erase n = pre ++ post ∧
        mem.read n = some ⟨pre.getLast?, post.head?⟩ := by
  obtain ⟨pre, post, hxs⟩ := List.append_of_mem hn
  subst hxs
  have hnd := wf.nodup
  have hnpre : n ∉ pre := by
    rw [List.nodup_append] at hnd
    exact fun hc => hnd.2.2 hc (List.mem_cons_self _ _)
  have hnpost : n ∉ post := by
    rw [List.nodup_append, List.nodup_cons] at hnd
    exact hnd.2.1.1
  have herase : (pre ++ n :: post).erase n = pre ++ post := by
    rw [List.erase_append_right _ hnpre, List.erase_cons_head]
  have hnot : n ∉ pre ++ post := by
    simp [hnpre, hnpost]
  obtain ⟨mem1, l1, hun, hlen, hcont, hhead, htail, hseg, hfr, hread⟩ := IList.unlink_split wf
  have hnlive : ∃ nd, mem1.read n = some nd := by
    rw [hfr n hnot]
    exact ⟨_, hread⟩
  obtain ⟨nd, hnd1⟩ := hnlive
  refine ⟨mem1, l1, hun, ⟨?_, ?_, ?_, ?_, ?_⟩, hcont, ?_, ?_, pre, post, rfl, herase, hread⟩
  · rw [herase]; exact hhead
  · rw [herase]; exact htail
  · rw [herase]; exact NodeMem.seg_frame hseg none hnot
  · exact hnd.erase n
  · show (l1.m_container.erase n).Perm ((pre ++ n :: post).erase n)
    rw [hcont]
    exact wf.container.erase n
  · rw [NodeMem.nodeRead_set hnd1, if_pos rfl]
  · intro b hb
    have hbn : b ≠ n := fun hc => hb (hc ▸ hn)
    rw [NodeMem.nodeRead_set_ne _ _ hbn]
    exact hfr b (fun hc => hb (by
      rcases List.mem_append.mp hc with h | h
      · exact List.mem_append_left _ h
      · exact List.mem_append_right _ (List.mem_cons_of_mem _ h)))

theorem Heap.isAction_iff {h : Heap} {x : Nat} :
    h.isAction x = true ↔ ∃ t k ak n, h.shape x = some (t, some (k, ak, n)) := by
  unfold Heap.isAction Heap.shape
  cases hr : h.read x with
  | none => simp
  | some o =>
    cases hd : o.derived with
    | nullConstant => simp [hd]
    | action a => simp [hd]



theorem Heap.read_none_of_shape {h : Heap} {x : Nat} (hs : h.shape x = none) : h.read x = none := by
  cases hr : h.read x with
  | none => rfl
  | some o => simp [Heap.shape, hr] at hs

theorem Heap.shape_none_of_read {h : Heap} {x : Nat} (hr : h.read x = none) : h.shape x = none := by
  simp [Heap.shape, hr]

theorem Heap.uses_of_dead {h : Heap} {x : Nat} (hd : h.read x = none) : h.uses x = [] := by
  simp [Heap.uses, hd]

theorem Heap.stripped_refl (h : Heap) : Heap.Stripped h h [] :=
  ⟨fun _ _ => rfl, fun _ _ => rfl, fun _ _ _ => by simp,
    fun _ hx => absurd hx (List.not_mem_nil _)⟩

theorem Heap.Stripped.keys_sub {h h1 : Heap} {e : List Nat} (s : Heap.Stripped h h1 e) {x : Nat}
    (hx : x ∉ e) {k : Nat} (hk : k ∈ h1.userKeys x) : k ∈ h.userKeys x :=
  ((s.keys x hx k).mp hk).1

theorem Heap.Stripped.keys_keep {h h1 : Heap} {e : List Nat} (s : Heap.Stripped h h1 e) {x : Nat}
    (hx : x ∉ e) {k : Nat} (hk : k ∈ h.userKeys x) (hke : k ∉ e) : k ∈ h1.userKeys x :=
  (s.keys x hx k).mpr ⟨hk, fun hc => hke hc.1⟩

theorem Heap.stripped_trans {h h1 h2 : Heap} {e1 e2 : List Nat} (s1 : Heap.Stripped h h1 e1)
    (s2 : Heap.Stripped h1 h2 e2) : Heap.Stripped h h2 (e1 ++ e2) := by
  have hsplit : ∀ x, x ∉ e1 ++ e2 → x ∉ e1 ∧ x ∉ e2 := by
    intro x hx
    simpa [not_or] using hx
  refine ⟨?_, ?_, ?_, ?_⟩
  · intro x hx
    rw [s2.shape x (hsplit x hx).2, s1.shape x (hsplit x hx).1]
  · intro x hx
    rw [s2.uses x (hsplit x hx).2, s1.uses x (hsplit x hx).1]
  · intro x hx k
    rw [s2.keys x (hsplit x hx).2 k, s1.keys x (hsplit x hx).1 k]
    by_cases hk1 : k ∈ e1
    · have hu : h1.uses k = [] := Heap.uses_of_dead (s1.dead k hk1)
      simp [hk1, hu]
    · rw [s1.uses k hk1]
      simp [hk1]
  · intro x hx
    by_cases hx2 : x ∈ e2
    · exact s2.dead x hx2
    · have hx1 : x ∈ e1 := by
        rcases List.mem_append.mp hx with h | h
        · exact h
        · exact absurd h hx2
      apply Heap.read_none_of_shape
      rw [s2.shape x hx2]
      exact Heap.shape_none_of_read (s1.dead x hx1)

/-- The destructor of an unused action, as a relation between the heaps. -/
theorem Heap.destroyAction_stripped {h : Heap} {this : Nat} {t : Nat} {k : ActionKind}
    {ak : Option AllocationKind} {n : Nat} (hthis : h.shape this = some (t, some (k, ak, n)))
    (hlive : ∀ v ∈ h.uses this, (h.read v).isSome) (hunused : h.users this = []) :
    ∃ h2, h.destroyAction this = .ok h2 ∧ Heap.Stripped h h2 [this] := by
  obtain ⟨h2, hr, hdead, hus, huses, hsh, _⟩ := Heap.destroyAction_spec hthis hlive hunused
  refine ⟨h2, hr, ⟨?_, ?_, ?_, ?_⟩⟩
  · intro x hx
    exact hsh x (by simpa using hx)
  · intro x hx
    exact huses x (by simpa using hx)
  · intro x hx k
    have hxt : x ≠ this := by simpa using hx
    simp only [Heap.userKeys, hus x hxt, List.mem_singleton]
    by_cases hmem : x ∈ h.uses this
    · rw [if_pos hmem]
      constructor
      · intro hk
        obtain ⟨e, he, rfl⟩ := List.mem_map.mp hk
        have hf := List.mem_filter.mp he
        refine ⟨List.mem_map_of_mem _ hf.1, ?_⟩
        rintro ⟨hc, _⟩
        simp [hc] at hf
      · rintro ⟨hk, hnot⟩
        obtain ⟨e, he, rfl⟩ := List.mem_map.mp hk
        refine List.mem_map_of_mem _ (List.mem_filter.mpr ⟨he, ?_⟩)
        have : e.1 ≠ this := fun hc => hnot ⟨hc, hc ▸ hmem⟩
        simpa using this
    · rw [if_neg hmem]
      constructor
      · intro hk
        exact ⟨hk, fun hc => hmem (hc.1 ▸ hc.2)⟩
      · exact fun hk => hk.1
  · intro x hx
    have hxt : x = this := by simpa using hx
    rw [hxt]
    exact hdead

theorem Heap.users_nil_of_keys {h : Heap} {x : Nat} (hk : h.userKeys x = []) : h.users x = [] := by
  simpa [Heap.userKeys] using hk

theorem Heap.stripped_unused {h h1 : Heap} {e : List Nat} (s : Heap.Stripped h h1 e) {x : Nat}
    (hx : x ∉ e) (hu : h.users x = []) : h1.users x = [] := by
  apply Heap.users_nil_of_keys
  apply List.eq_nil_iff_forall_not_mem.mpr
  intro k hk
  have := s.keys_sub hx hk
  simp [Heap.userKeys, hu] at this

/-- The call `erase(u)` of an unused resident action. -/
theorem Graph.erase_resident {m : Memory} {g : Graph} {xs : List Nat} {u : Nat}
    (res : Graph.Resident m g xs) (hu : u ∈ xs) (hunused : m.heap.users u = []) :
    ∃ m1 g1, Graph.erase m g u = .ok (m1, g1) ∧ Graph.Resident m1 g1 (xs.erase u) ∧
      Heap.Stripped m.heap m1.heap [u] ∧ m1.nodes.read u = none ∧
      (∀ b, b ∉ xs → m1.nodes.read b = m.nodes.read b) := by
  obtain ⟨nodes1, l1, hun, wf1, _, hdead, hfr, _⟩ := IList.unlink_wellFormed res.wf hu
  obtain ⟨t, k, ak, n, hshape⟩ := Heap.isAction_iff.mp (res.actions u hu)
  obtain ⟨h2, hr2, hst⟩ := Heap.destroyAction_stripped hshape
    (fun v hv => (res.operands u hu v hv).1) hunused
  have hnd := res.wf.nodup
  have hne : ∀ a ∈ xs.erase u, a ≠ u := by
    intro a ha hc
    subst hc
    exact (List.Nodup.not_mem_erase hnd) ha
  refine ⟨⟨nodes1.set u none, h2⟩, { g with list := { l1 with m_container := l1.m_container.erase u } },
    ?_, ⟨wf1, ?_, ?_⟩, hst, hdead, hfr⟩
  · simp [Graph.erase, hun, hr2, bind, Except.bind, pure, Except.pure]
  · intro a ha
    obtain ⟨t2, k2, ak2, n2, hs2⟩ :=
      Heap.isAction_iff.mp (res.actions a (List.mem_of_mem_erase ha))
    exact Heap.isAction_iff.mpr ⟨t2, k2, ak2, n2, by
      show h2.shape a = _
      rw [hst.shape a (by simpa using hne a ha), hs2]⟩
  · intro a ha v hv
    have hau : a ≠ u := hne a ha
    have hax : a ∈ xs := List.mem_of_mem_erase ha
    have hv0 : v ∈ m.heap.uses a := by
      have := hst.uses a (by simpa using hau)
      rw [← this]
      exact hv
    obtain ⟨hvlive, hakey⟩ := res.operands a hax v hv0
    have hvu : v ≠ u := by
      rintro rfl
      simp [Heap.userKeys, hunused] at hakey
    refine ⟨Heap.live_of_shape_eq (hst.shape v (by simpa using hvu)) hvlive, ?_⟩
    exact hst.keys_keep (by simpa using hvu) hakey (by simpa using hau)
theorem filter_not_mem_cons (xs us : List Nat) (u : Nat) (hnd : xs.Nodup) :
    (xs.erase u).filter (fun x => decide (x ∉ us)) = xs.filter (fun x => decide (x ∉ u :: us)) := by
  rw [hnd.erase_eq_filter, List.filter_filter]
  apply List.filter_congr
  intro x _
  by_cases h1 : x ∈ us <;> by_cases h2 : x = u <;> simp [h1, h2]

/-- The calls `erase` of one round on unused resident actions. -/
theorem Graph.eraseAll_resident (us : List Nat) {m : Memory} {g : Graph} {xs : List Nat}
    (res : Graph.Resident m g xs) (hsub : ∀ u ∈ us, u ∈ xs) (hnd : us.Nodup)
    (hun : ∀ u ∈ us, m.heap.users u = []) :
    ∃ m1 g1, Graph.eraseAll m g us = .ok (m1, g1) ∧
      Graph.Resident m1 g1 (xs.filter (fun x => decide (x ∉ us))) ∧
      Heap.Stripped m.heap m1.heap us ∧ (∀ u ∈ us, m1.nodes.read u = none) ∧
      (∀ b, b ∉ xs → m1.nodes.read b = m.nodes.read b) := by
  induction us generalizing m g xs with
  | nil =>
    refine ⟨m, g, rfl, ?_, Heap.stripped_refl _, by simp, fun _ _ => rfl⟩
    simpa using res
  | cons u us ih =>
    rw [List.nodup_cons] at hnd
    obtain ⟨m1, g1, he1, res1, hst1, hdead1, hfr1⟩ :=
      Graph.erase_resident res (hsub u (List.mem_cons_self _ _)) (hun u (List.mem_cons_self _ _))
    have hsub1 : ∀ w ∈ us, w ∈ xs.erase u := by
      intro w hw
      have hwu : w ≠ u := fun hc => hnd.1 (hc ▸ hw)
      exact (List.mem_erase_of_ne hwu).mpr (hsub w (List.mem_cons_of_mem _ hw))
    have hun1 : ∀ w ∈ us, m1.heap.users w = [] := by
      intro w hw
      have hwu : w ≠ u := fun hc => hnd.1 (hc ▸ hw)
      exact Heap.stripped_unused hst1 (by simpa using hwu) (hun w (List.mem_cons_of_mem _ hw))
    obtain ⟨m2, g2, he2, res2, hst2, hdead2, hfr2⟩ := ih res1 hsub1 hnd.2 hun1
    refine ⟨m2, g2, ?_, ?_, ?_, ?_, ?_⟩
    · simp only [Graph.eraseAll, List.foldlM_cons, he1, bind, Except.bind] at he2 ⊢
      exact he2
    · rw [← filter_not_mem_cons xs us u res.wf.nodup]
      exact res2
    · exact Heap.stripped_trans hst1 hst2
    · intro w hw
      rcases List.mem_cons.mp hw with rfl | hw
      · rw [hfr2 w (List.Nodup.not_mem_erase res.wf.nodup)]
        exact hdead1
      · exact hdead2 w hw
    · intro b hb
      rw [hfr2 b (fun hc => hb (List.mem_of_mem_erase hc)), hfr1 b hb]

theorem Graph.collectUnused_resident {m : Memory} {g : Graph} {xs : List Nat}
    (res : Graph.Resident m g xs) :
    Graph.collectUnused m g = .ok (xs.filter (fun a => m.heap.unused a)) := by
  have hall : xs.all (fun a => (m.heap.read a).isSome) = true := by
    rw [List.all_eq_true]
    intro a ha
    obtain ⟨t, k, ak, n, hs⟩ := Heap.isAction_iff.mp (res.actions a ha)
    obtain ⟨o, ho, _⟩ := Heap.read_of_shape hs
    simp [ho]
  simp [Graph.collectUnused, IList.forward_of_wellFormed res.wf, hall]

theorem Heap.unused_iff {h : Heap} {x : Nat} : h.unused x = true ↔ h.users x = [] := by
  simp [Heap.unused]

theorem Graph.isEmpty_resident {m : Memory} {g : Graph} {xs : List Nat}
    (res : Graph.Resident m g xs) : g.list.empty = true ↔ xs = [] := by
  simp only [IList.empty, List.isEmpty_iff]
  constructor
  · intro h
    have := res.wf.container
    rw [h] at this
    exact this.symm.eq_nil
  · intro h
    have := res.wf.container
    rw [h] at this
    exact this.eq_nil

/-- One round of the destructor on a graph of resident actions: it fails with
`cyclicDependency` when every resident action is used, and otherwise erases
the unused ones. -/
theorem Graph.teardownRound_resident {m : Memory} {g : Graph} {xs : List Nat}
    (res : Graph.Resident m g xs) :
    (xs.filter (fun a => m.heap.unused a) = [] ∧
      Graph.teardownRound m g = .error .cyclicDependency) ∨
    (xs.filter (fun a => m.heap.unused a) ≠ [] ∧
      ∃ m1 g1, Graph.teardownRound m g =
          .ok ((m1, g1), xs.filter (fun a => m.heap.unused a)) ∧
        Graph.Resident m1 g1
          (xs.filter (fun x => decide (x ∉ xs.filter (fun a => m.heap.unused a)))) ∧
        Heap.Stripped m.heap m1.heap (xs.filter (fun a => m.heap.unused a)) ∧
        (∀ u ∈ xs.filter (fun a => m.heap.unused a), m1.nodes.read u = none) ∧
        (∀ b, b ∉ xs → m1.nodes.read b = m.nodes.read b)) := by
  by_cases hU : xs.filter (fun a => m.heap.unused a) = []
  · left
    refine ⟨hU, ?_⟩
    simp [Graph.teardownRound, Graph.collectUnused_resident res, hU, bind, Except.bind, throw,
      throwThe, MonadExceptOf.throw]
  · right
    refine ⟨hU, ?_⟩
    obtain ⟨m1, g1, he, res1, hst, hdead, hfr⟩ := Graph.eraseAll_resident
      (xs.filter (fun a => m.heap.unused a)) res
      (fun u hu => (List.mem_filter.mp hu).1) (res.wf.nodup.filter _)
      (fun u hu => Heap.unused_iff.mp (List.mem_filter.mp hu).2)
    refine ⟨m1, g1, ?_, res1, hst, hdead, hfr⟩
    have hne : (xs.filter (fun a => m.heap.unused a)).isEmpty = false := by
      cases hf : xs.filter (fun a => m.heap.unused a) with
      | nil => exact absurd hf hU
      | cons _ _ => rfl
    simp [Graph.teardownRound, Graph.collectUnused_resident res, hne, he, bind, Except.bind, pure,
      Except.pure]
/-- In a heap stripped of the actions `erased`, an action that is left is
unused exactly when the erased actions were all its users. -/
theorem Heap.stripped_unused_iff {h h1 : Heap} {e : List Nat} (s : Heap.Stripped h h1 e)
    {a : Nat} (ha : a ∉ e) : h1.unused a = h.freedBy e a := by
  rw [Bool.eq_iff_iff, Heap.unused_iff]
  simp only [Heap.freedBy, List.all_eq_true, Bool.and_eq_true, decide_eq_true_eq]
  constructor
  · intro hu k hk
    by_contra hc
    have : k ∈ h1.userKeys a := (s.keys a ha k).mpr ⟨hk, hc⟩
    simp [Heap.userKeys, hu] at this
  · intro hall
    apply Heap.users_nil_of_keys
    apply List.eq_nil_iff_forall_not_mem.mpr
    intro k hk
    obtain ⟨hk0, hnot⟩ := (s.keys a ha k).mp hk
    exact hnot (hall k hk0)

theorem Graph.filter_unused_eq {h h1 : Heap} {e : List Nat} (s : Heap.Stripped h h1 e)
    (xs : List Nat) :
    (xs.filter (fun x => decide (x ∉ e))).filter (fun a => h1.unused a) =
      Graph.roundOf h xs e := by
  rw [List.filter_filter, Graph.roundOf]
  apply List.filter_congr
  intro a _
  by_cases ha : a ∈ e
  · simp [ha]
  · simp [ha, Heap.stripped_unused_iff s ha]

theorem Graph.filter_filter_not_mem (xs e r : List Nat) :
    (xs.filter (fun x => decide (x ∉ e))).filter (fun x => decide (x ∉ r)) =
      xs.filter (fun x => decide (x ∉ e ++ r)) := by
  rw [List.filter_filter]
  apply List.filter_congr
  intro a _
  by_cases h1 : a ∈ e <;> by_cases h2 : a ∈ r <;> simp [h1, h2]

/-- The loop of the destructor on a graph of resident actions, from any round
on: it stops after rounds that each erase exactly the unused actions, either
with the list empty or, when every action left is used, with the violation
`cyclicDependency`; the state it reports is that after the rounds logged. -/
theorem Graph.teardownLoop_resident (h0 : Heap) (xs0 : List Nat) (fuel : Nat) :
    ∀ (m : Memory) (g : Graph) (e : List Nat) (rounds : List (List Nat)),
      Graph.Resident m g (xs0.filter (fun x => decide (x ∉ e))) →
      Heap.Stripped h0 m.heap e →
      (xs0.filter (fun x => decide (x ∉ e))).length ≤ fuel →
      ∃ es, (Graph.teardownLoop fuel m g rounds).rounds = rounds ++ es ∧
        Graph.Rounds h0 xs0 e es ∧
        Graph.Resident (Graph.teardownLoop fuel m g rounds).memory
          (Graph.teardownLoop fuel m g rounds).graph
          (xs0.filter (fun x => decide (x ∉ e ++ es.flatten))) ∧
        Heap.Stripped h0 (Graph.teardownLoop fuel m g rounds).memory.heap (e ++ es.flatten) ∧
        (((Graph.teardownLoop fuel m g rounds).status = .completed ∧
            xs0.filter (fun x => decide (x ∉ e ++ es.flatten)) = []) ∨
          ((Graph.teardownLoop fuel m g rounds).status = .violation .cyclicDependency ∧
            xs0.filter (fun x => decide (x ∉ e ++ es.flatten)) ≠ [] ∧
            Graph.roundOf h0 xs0 (e ++ es.flatten) = [])) ∧
        (∀ u ∈ es.flatten, (Graph.teardownLoop fuel m g rounds).memory.nodes.read u = none) ∧
        (∀ b, b ∉ xs0.filter (fun x => decide (x ∉ e)) →
          (Graph.teardownLoop fuel m g rounds).memory.nodes.read b = m.nodes.read b) := by
  have hdone : ∀ (fuel : Nat) (m : Memory) (g : Graph) (e : List Nat) (rounds : List (List Nat)),
      Graph.Resident m g (xs0.filter (fun x => decide (x ∉ e))) →
      Heap.Stripped h0 m.heap e → xs0.filter (fun x => decide (x ∉ e)) = [] →
      ∃ es, (Graph.teardownLoop fuel m g rounds).rounds = rounds ++ es ∧
        Graph.Rounds h0 xs0 e es ∧
        Graph.Resident (Graph.teardownLoop fuel m g rounds).memory
          (Graph.teardownLoop fuel m g rounds).graph
          (xs0.filter (fun x => decide (x ∉ e ++ es.flatten))) ∧
        Heap.Stripped h0 (Graph.teardownLoop fuel m g rounds).memory.heap (e ++ es.flatten) ∧
        (((Graph.teardownLoop fuel m g rounds).status = .completed ∧
            xs0.filter (fun x => decide (x ∉ e ++ es.flatten)) = []) ∨
          ((Graph.teardownLoop fuel m g rounds).status = .violation .cyclicDependency ∧
            xs0.filter (fun x => decide (x ∉ e ++ es.flatten)) ≠ [] ∧
            Graph.roundOf h0 xs0 (e ++ es.flatten) = [])) ∧
        (∀ u ∈ es.flatten, (Graph.teardownLoop fuel m g rounds).memory.nodes.read u = none) ∧
        (∀ b, b ∉ xs0.filter (fun x => decide (x ∉ e)) →
          (Graph.teardownLoop fuel m g rounds).memory.nodes.read b = m.nodes.read b) := by
    intro fuel m g e rounds res hst hnil
    have hemp : g.list.empty = true := (Graph.isEmpty_resident res).mpr hnil
    have hloop : Graph.teardownLoop fuel m g rounds = ⟨.completed, m, g, rounds⟩ := by
      cases fuel <;> simp [Graph.teardownLoop, hemp]
    rw [hloop]
    refine ⟨[], by simp, trivial, ?_, ?_, Or.inl ⟨rfl, ?_⟩, by simp, fun _ _ => rfl⟩
    · simpa using res
    · simpa using hst
    · simpa using hnil
  induction fuel with
  | zero =>
    intro m g e rounds res hst hlen
    exact hdone 0 m g e rounds res hst (List.length_eq_zero.mp (by omega))
  | succ fuel ih =>
    intro m g e rounds res hst hlen
    by_cases hnil : xs0.filter (fun x => decide (x ∉ e)) = []
    · exact hdone (fuel + 1) m g e rounds res hst hnil
    · have hemp : g.list.empty = false := by
        cases hc : g.list.empty with
        | false => rfl
        | true => exact absurd ((Graph.isEmpty_resident res).mp hc) hnil
      have hU := Graph.filter_unused_eq hst xs0
      rcases Graph.teardownRound_resident res with
        ⟨hempty, herr⟩ | ⟨hne, m1, g1, hok, res1, hst1, hdead1, hfr1⟩
      · rw [hU] at hempty
        have hloop : Graph.teardownLoop (fuel + 1) m g rounds =
            ⟨.violation .cyclicDependency, m, g, rounds⟩ := by
          simp [Graph.teardownLoop, hemp, herr]
        rw [hloop]
        refine ⟨[], by simp, trivial, ?_, ?_, Or.inr ⟨rfl, ?_, ?_⟩, by simp, fun _ _ => rfl⟩
        · simpa using res
        · simpa using hst
        · simpa using hnil
        · simpa using hempty
      · rw [hU] at hne hok res1 hst1 hdead1
        rw [Graph.filter_filter_not_mem] at res1
        have hlen1 : (xs0.filter (fun x => decide (x ∉ e ++ Graph.roundOf h0 xs0 e))).length ≤
            fuel := by
          rw [← Graph.filter_filter_not_mem]
          have hsub : Graph.roundOf h0 xs0 e ⊆ xs0.filter (fun x => decide (x ∉ e)) := by
            intro a ha
            rw [← hU] at ha
            exact (List.mem_filter.mp ha).1
          obtain ⟨a, ha⟩ := List.exists_mem_of_ne_nil _ hne
          have hlt : ((xs0.filter (fun x => decide (x ∉ e))).filter
              (fun x => decide (x ∉ Graph.roundOf h0 xs0 e))).length <
              (xs0.filter (fun x => decide (x ∉ e))).length := by
            apply List.length_filter_lt_length_iff_exists.mpr
            exact ⟨a, hsub ha, by simpa using ha⟩
          omega
        obtain ⟨es, hrounds, hR, hres, hstf, hstatus, hdead, hfr⟩ :=
          ih m1 g1 (e ++ Graph.roundOf h0 xs0 e) (rounds ++ [Graph.roundOf h0 xs0 e]) res1
            (Heap.stripped_trans hst hst1) hlen1
        have hloop : Graph.teardownLoop (fuel + 1) m g rounds =
            Graph.teardownLoop fuel m1 g1 (rounds ++ [Graph.roundOf h0 xs0 e]) := by
          simp [Graph.teardownLoop, hemp, hok]
        rw [hloop]
        refine ⟨Graph.roundOf h0 xs0 e :: es, ?_, ⟨rfl, hne, hR⟩, ?_, ?_, ?_, ?_, ?_⟩
        · rw [hrounds, List.append_assoc]
          rfl
        · rw [List.flatten_cons, ← List.append_assoc]
          exact hres
        · rw [List.flatten_cons, ← List.append_assoc]
          exact hstf
        · rw [List.flatten_cons, ← List.append_assoc]
          exact hstatus
        · intro u hu
          rw [List.flatten_cons] at hu
          rcases List.mem_append.mp hu with hu | hu
          · have hux : u ∉ xs0.filter (fun x => decide (x ∉ e ++ Graph.roundOf h0 xs0 e)) := by
              simp [hu]
            rw [hfr u hux]
            exact hdead1 u hu
          · exact hdead u hu
        · intro b hb
          have hb1 : b ∉ xs0.filter (fun x => decide (x ∉ e ++ Graph.roundOf h0 xs0 e)) := by
            intro hc
            apply hb
            rw [List.mem_filter] at hc ⊢
            refine ⟨hc.1, ?_⟩
            have := hc.2
            simp only [List.mem_append, not_or, decide_eq_true_eq] at this ⊢
            exact this.1
          rw [hfr b hb1, hfr1 b hb]
theorem Graph.mem_roundOf {h : Heap} {xs e : List Nat} {a : Nat} :
    a ∈ Graph.roundOf h xs e ↔ a ∈ xs ∧ a ∉ e ∧ h.freedBy e a = true := by
  simp [Graph.roundOf, List.mem_filter]

theorem Graph.rounds_nodup {h : Heap} {xs : List Nat} (hnd : xs.Nodup) (es : List (List Nat)) :
    ∀ e, Graph.Rounds h xs e es →
      es.flatten.Nodup ∧ (∀ a ∈ es.flatten, a ∈ xs ∧ a ∉ e) ∧ ∀ r ∈ es, r ≠ [] := by
  induction es with
  | nil => intro e _; simp
  | cons r rest ih =>
    intro e hr
    obtain ⟨h1, h2, h3⟩ := hr
    obtain ⟨ihnd, ihmem, ihne⟩ := ih (e ++ r) h3
    have hrnd : r.Nodup := by
      rw [h1]
      exact hnd.filter _
    have hrmem : ∀ a ∈ r, a ∈ xs ∧ a ∉ e := by
      intro a ha
      rw [h1] at ha
      have := Graph.mem_roundOf.mp ha
      exact ⟨this.1, this.2.1⟩
    refine ⟨?_, ?_, ?_⟩
    · rw [List.flatten_cons, List.nodup_append]
      refine ⟨hrnd, ihnd, ?_⟩
      intro a ha1 ha2
      exact (ihmem a ha2).2 (List.mem_append_right _ ha1)
    · intro a ha
      rw [List.flatten_cons] at ha
      rcases List.mem_append.mp ha with ha | ha
      · exact hrmem a ha
      · exact ⟨(ihmem a ha).1, fun hc => (ihmem a ha).2 (List.mem_append_left _ hc)⟩
    · intro r2 hr2
      rcases List.mem_cons.mp hr2 with rfl | hr2
      · exact h2
      · exact ihne r2 hr2

theorem Graph.length_le_flatten (es : List (List Nat)) (hne : ∀ r ∈ es, r ≠ []) :
    es.length ≤ es.flatten.length := by
  induction es with
  | nil => simp
  | cons r rest ih =>
    have h1 := ih (fun r2 hr2 => hne r2 (List.mem_cons_of_mem _ hr2))
    have h2 : 0 < r.length := List.length_pos.mpr (hne r (List.mem_cons_self _ _))
    simp only [List.length_cons, List.flatten_cons, List.length_append]
    omega

/-- An acyclic graph whose users are all resident has an unused action among
any actions that are left. -/
theorem Graph.exists_freed {m : Memory} {xs : List Nat} (hall : Graph.UsersResident m xs)
    (hacyc : Graph.Acyclic m xs) (e : List Nat)
    (hleft : xs.filter (fun x => decide (x ∉ e)) ≠ []) : Graph.roundOf m.heap xs e ≠ [] := by
  obtain ⟨rank, hrank⟩ := hacyc
  obtain ⟨a0, ha0⟩ := List.exists_mem_of_ne_nil _ hleft
  have hne : (xs.filter (fun x => decide (x ∉ e))).toFinset.Nonempty :=
    ⟨a0, List.mem_toFinset.mpr ha0⟩
  obtain ⟨a, ha, hmax⟩ := Finset.exists_max_image _ rank hne
  rw [List.mem_toFinset, List.mem_filter] at ha
  have hae : a ∉ e := by simpa using ha.2
  have hmem : a ∈ Graph.roundOf m.heap xs e := by
    rw [Graph.mem_roundOf]
    refine ⟨ha.1, hae, ?_⟩
    simp only [Heap.freedBy, List.all_eq_true, Bool.and_eq_true, decide_eq_true_eq]
    intro k hk
    obtain ⟨hkx, hak⟩ := hall a ha.1 k hk
    refine ⟨?_, hak⟩
    by_contra hke
    have hkleft : k ∈ (xs.filter (fun x => decide (x ∉ e))).toFinset := by
      rw [List.mem_toFinset, List.mem_filter]
      exact ⟨hkx, by simpa using hke⟩
    have h1 := hmax k hkleft
    have h2 := hrank k hkx a hak ha.1
    omega
  exact List.ne_nil_of_mem hmem
/-- The destructor on a graph of resident actions, from the start. -/
theorem Graph.teardown_resident {m : Memory} {g : Graph} {xs : List Nat}
    (res : Graph.Resident m g xs) :
    Graph.Rounds m.heap xs [] (Graph.teardown m g).rounds ∧
    Graph.Resident (Graph.teardown m g).memory (Graph.teardown m g).graph
      (xs.filter (fun x => decide (x ∉ (Graph.teardown m g).rounds.flatten))) ∧
    Heap.Stripped m.heap (Graph.teardown m g).memory.heap (Graph.teardown m g).rounds.flatten ∧
    (((Graph.teardown m g).status = .completed ∧
        xs.filter (fun x => decide (x ∉ (Graph.teardown m g).rounds.flatten)) = []) ∨
      ((Graph.teardown m g).status = .violation .cyclicDependency ∧
        xs.filter (fun x => decide (x ∉ (Graph.teardown m g).rounds.flatten)) ≠ [] ∧
        Graph.roundOf m.heap xs (Graph.teardown m g).rounds.flatten = [])) ∧
    (∀ u ∈ (Graph.teardown m g).rounds.flatten, (Graph.teardown m g).memory.nodes.read u = none) ∧
    (∀ b, b ∉ xs → (Graph.teardown m g).memory.nodes.read b = m.nodes.read b) := by
  have hfilter : xs.filter (fun x => decide (x ∉ ([] : List Nat))) = xs := by simp
  have hsize : g.list.size = xs.length := res.wf.container.length_eq
  obtain ⟨es, hrounds, hR, hres, hst, hstatus, hdead, hfr⟩ :=
    Graph.teardownLoop_resident m.heap xs g.list.size m g [] []
      (by rw [hfilter]; exact res) (Heap.stripped_refl _) (by rw [hfilter, hsize])
  simp only [List.nil_append] at hrounds hres hst hstatus
  rw [hfilter] at hfr
  unfold Graph.teardown
  rw [hrounds]
  exact ⟨hR, hres, hst, hstatus, hdead, hfr⟩

/-- The destructor on a consistent list. Let the list of a graph hold the
actions `xs` in a consistent state, each a live action whose operands are
alive and record it; let every user recorded by one of them be one of them (all
operations are in the list) and let their use-def graph be acyclic. Then
`Graph::~Graph` completes without any violation; the list is empty at the
end; the rounds are at most as many as the actions and each erases at least
one; the actions erased, over all rounds, are the actions `xs`, each exactly
once; every one of them is destroyed, and no other object is. -/
theorem Graph.teardown_completes (m : Memory) (g : Graph) (xs : List Nat)
    (res : Graph.Resident m g xs) (hall : Graph.UsersResident m xs)
    (hacyc : Graph.Acyclic m xs) :
    (Graph.teardown m g).status = .completed ∧
    (Graph.teardown m g).graph.list = IList.init ∧
    (Graph.teardown m g).rounds.length ≤ xs.length ∧
    (∀ round ∈ (Graph.teardown m g).rounds, round ≠ []) ∧
    (Graph.teardown m g).rounds.flatten.Perm xs ∧
    (∀ a ∈ xs, (Graph.teardown m g).memory.heap.read a = none ∧
      (Graph.teardown m g).memory.nodes.read a = none) ∧
    (∀ x, x ∉ xs → (Graph.teardown m g).memory.heap.shape x = m.heap.shape x ∧
      (Graph.teardown m g).memory.nodes.read x = m.nodes.read x) := by
  obtain ⟨hR, hres, hst, hstatus, hdead, hfr⟩ := Graph.teardown_resident res
  obtain ⟨hnd, hmem, hne⟩ := Graph.rounds_nodup res.wf.nodup _ [] hR
  have hdone : (Graph.teardown m g).status = .completed ∧
      xs.filter (fun x => decide (x ∉ (Graph.teardown m g).rounds.flatten)) = [] := by
    rcases hstatus with hc | ⟨_, hleft, hround⟩
    · exact hc
    · exact absurd hround (Graph.exists_freed hall hacyc _ hleft)
  have hcover : ∀ a ∈ xs, a ∈ (Graph.teardown m g).rounds.flatten := by
    intro a ha
    by_contra hc
    have : a ∈ xs.filter (fun x => decide (x ∉ (Graph.teardown m g).rounds.flatten)) :=
      List.mem_filter.mpr ⟨ha, by simpa using hc⟩
    rw [hdone.2] at this
    exact List.not_mem_nil _ this
  have hperm : (Graph.teardown m g).rounds.flatten.Perm xs :=
    (List.perm_ext_iff_of_nodup hnd res.wf.nodup).mpr
      (fun a => ⟨fun ha => (hmem a ha).1, hcover a⟩)
  refine ⟨hdone.1, ?_, ?_, hne, hperm, ?_, ?_⟩
  · rw [hdone.2] at hres
    have hwf := hres.wf
    have hc : (Graph.teardown m g).graph.list.m_container = [] := hwf.container.eq_nil
    have hh := hwf.head
    have ht := hwf.tail
    simp only [List.head?_nil, List.getLast?_nil] at hh ht
    cases hl : (Graph.teardown m g).graph.list with
    | mk head tail container =>
      rw [hl] at hc hh ht
      simp only at hc hh ht
      rw [hc, hh, ht]
      rfl
  · have := Graph.length_le_flatten _ hne
    rw [hperm.length_eq] at this
    exact this
  · intro a ha
    exact ⟨hst.dead a (hcover a ha), hdead a (hcover a ha)⟩
  · intro x hx
    exact ⟨hst.shape x (fun hc => hx ((hmem x hc).1)), hfr x hx⟩

theorem IList.unlink_container {mem : NodeMem} {l : IList} {n : Nat} {mem1 : NodeMem} {l1 : IList}
    (h : IList.unlink mem l n = .ok (mem1, l1)) : n ∈ l.m_container ∧ l1.m_container = l.m_container := by
  unfold IList.unlink at h
  by_cases hc : l.m_container.contains n = true
  · refine ⟨by simpa using hc, ?_⟩
    simp only [hc, Bool.not_true, Bool.false_eq_true, if_false, bind, Except.bind, pure,
      Except.pure] at h
    cases h1 : mem.deref n with
    | error e => simp [h1] at h
    | ok nd =>
      simp only [h1] at h
      cases h2 : mem.setPrevIf nd.m_next nd.m_prev with
      | error e => simp [h2] at h
      | ok mem2 =>
        simp only [h2] at h
        cases h3 : mem2.setNextIf nd.m_prev nd.m_next with
        | error e => simp [h3] at h
        | ok mem3 =>
          simp only [h3, Except.ok.injEq, Prod.mk.injEq] at h
          rw [← h.2]
  · have hn : n ∉ l.m_container := by simpa using hc
    simp [hn, bind, Except.bind, throw, throwThe, MonadExceptOf.throw] at h

theorem Graph.erase_size {m : Memory} {g : Graph} {a : Nat} {m1 : Memory} {g1 : Graph}
    (h : Graph.erase m g a = .ok (m1, g1)) : g1.list.size + 1 = g.list.size := by
  unfold Graph.erase at h
  simp only [bind, Except.bind, pure, Except.pure] at h
  cases h1 : IList.unlink m.nodes g.list a with
  | error e => simp [h1] at h
  | ok s =>
    obtain ⟨nodes1, l1⟩ := s
    obtain ⟨hmem, hcont⟩ := IList.unlink_container h1
    simp only [h1] at h
    cases h2 : m.heap.destroyAction a with
    | error e => simp [h2] at h
    | ok heap1 =>
      simp only [h2, Except.ok.injEq, Prod.mk.injEq] at h
      rw [← h.2]
      simp only [IList.size, hcont]
      rw [List.length_erase_of_mem hmem]
      have := List.length_pos_of_mem hmem
      omega

theorem Graph.eraseAll_size (us : List Nat) :
    ∀ {m : Memory} {g : Graph} {m1 : Memory} {g1 : Graph},
      Graph.eraseAll m g us = .ok (m1, g1) → g1.list.size + us.length = g.list.size := by
  induction us with
  | nil =>
    intro m g m1 g1 h
    simp only [Graph.eraseAll, List.foldlM_nil, pure, Except.pure, Except.ok.injEq,
      Prod.mk.injEq] at h
    rw [h.2]
    rfl
  | cons u us ih =>
    intro m g m1 g1 h
    simp only [Graph.eraseAll, List.foldlM_cons, bind, Except.bind] at h
    cases h1 : Graph.erase m g u with
    | error e => simp [h1] at h
    | ok s =>
      obtain ⟨m2, g2⟩ := s
      simp only [h1] at h
      have hs1 := Graph.erase_size h1
      have hs2 := ih h
      simp only [List.length_cons]
      omega

theorem Graph.teardownRound_size {m : Memory} {g : Graph} {m1 : Memory} {g1 : Graph}
    {erased : List Nat} (h : Graph.teardownRound m g = .ok ((m1, g1), erased)) :
    g1.list.size < g.list.size := by
  unfold Graph.teardownRound at h
  simp only [bind, Except.bind, pure, Except.pure] at h
  cases h1 : Graph.collectUnused m g with
  | error e => simp [h1] at h
  | ok unused =>
    simp only [h1] at h
    cases unused with
    | nil => simp [throw, throwThe, MonadExceptOf.throw] at h
    | cons u us =>
      simp only [List.isEmpty_cons, Bool.false_eq_true, if_false] at h
      cases h2 : Graph.eraseAll m g (u :: us) with
      | error e => simp [h2] at h
      | ok s =>
        simp only [h2, Except.ok.injEq, Prod.mk.injEq] at h
        have hs := Graph.eraseAll_size (u :: us) h2
        rw [h.1] at hs
        simp only [List.length_cons] at hs
        omega

/-- The destructor never stops for lack of rounds, whatever the state of the
graph: the rounds allowed by `Graph.teardown` are enough. -/
theorem Graph.teardown_not_running (m : Memory) (g : Graph) :
    (Graph.teardown m g).status ≠ .running := by
  have hloop : ∀ (fuel : Nat) (m : Memory) (g : Graph) (rounds : List (List Nat)),
      g.list.size ≤ fuel → (Graph.teardownLoop fuel m g rounds).status ≠ .running := by
    intro fuel
    induction fuel with
    | zero =>
      intro m g rounds hsize
      have : g.list.empty = true := by
        simp only [IList.size] at hsize
        simp [IList.empty, List.length_eq_zero.mp (Nat.le_zero.mp hsize)]
      simp [Graph.teardownLoop, this]
    | succ fuel ih =>
      intro m g rounds hsize
      unfold Graph.teardownLoop
      by_cases hemp : g.list.empty = true
      · simp [hemp]
      · simp only [hemp, Bool.false_eq_true, if_false]
        cases hr : Graph.teardownRound m g with
        | error e => simp
        | ok s =>
          obtain ⟨⟨m1, g1⟩, erased⟩ := s
          have := Graph.teardownRound_size hr
          exact ih m1 g1 _ (by omega)
  exact hloop _ m g [] (le_refl _)
/-! ## The list: insertion checks, reverse range, reachable states -/

/-- C11. A node that is the only element of another list passes every
insertion: with node 0 the sole element of a first list, `push_back` and
`push_front` of node 0 into an empty second list and `insertAfter` and
`insertBefore` of node 0 next to node 1 of a second list all succeed, and node
0 is then registered in both lists. The other cases of the claim are
violations: node 0 pushed again into the list that holds only it, a node that
has a neighbour in this or in another list, and an anchor that is not
registered in the list. -/
theorem C11_sole_element_of_another_list_is_inserted :
    (∃ memA other, IList.push_back fourNodes IList.init (some 0) = .ok (memA, other) ∧
      other.m_container = [0] ∧ other.forward memA = some [0] ∧
      (∃ mem l, IList.push_back memA IList.init (some 0) = .ok (mem, l) ∧
        l.m_container = [0]) ∧
      (∃ mem l, IList.push_front memA IList.init (some 0) = .ok (mem, l) ∧
        l.m_container = [0]) ∧
      (∃ memB lB, IList.push_back memA IList.init (some 1) = .ok (memB, lB) ∧
        (∃ mem l, IList.insertAfter memB lB (some 0) (some 1) = .ok (mem, l) ∧
          l.m_container = [1, 0]) ∧
        (∃ mem l, IList.insertBefore memB lB (some 0) (some 1) = .ok (mem, l) ∧
          l.m_container = [1, 0]) ∧
        (∃ mem l, IList.push_back memB lB (some 0) = .ok (mem, l) ∧
          l.m_container = [1, 0]) ∧
        (∃ mem l, IList.push_front memB lB (some 0) = .ok (mem, l) ∧
          l.m_container = [1, 0])) ∧
      IList.push_back memA other (some 0) = .error .nodeDoubleInsertion ∧
      IList.push_front memA other (some 0) = .error .nodeDoubleInsertion ∧
      IList.insertAfter memA other (some 1) (some 2) = .error .afterNotRegistered ∧
      IList.insertBefore memA other (some 1) (some 2) = .error .beforeNotRegistered) ∧
    (∃ memC two, (do
        let s1 ← IList.push_back fourNodes IList.init (some 0)
        IList.push_back s1.1 s1.2 (some 1)) = .ok (memC, two) ∧
      IList.push_back memC two (some 0) = .error .nodeConnected ∧
      IList.insertBefore memC two (some 1) (some 0) = .error .nodeConnected ∧
      IList.push_back memC IList.init (some 0) = .error .nodeConnected ∧
      IList.push_front memC IList.init (some 1) = .error .nodeConnected) := by
  refine ⟨⟨_, _, rfl, ?_, ?_, ⟨_, _, rfl, ?_⟩, ⟨_, _, rfl, ?_⟩,
    ⟨_, _, rfl, ⟨_, _, rfl, ?_⟩, ⟨_, _, rfl, ?_⟩, ⟨_, _, rfl, ?_⟩, ⟨_, _, rfl, ?_⟩⟩,
    ?_, ?_, ?_, ?_⟩, ⟨_, _, rfl, ?_, ?_, ?_, ?_⟩⟩ <;> decide

/-- C12. The range `rbegin() .. rend()` of the list 0, 1, 2 built by three
`push_back` calls holds the tail alone: the iteration starts at node 2 and its
`operator++` follows `m_next`, which is null there. The forward range is
0, 1, 2, and the walk along `m_prev` from the tail, which an
`IListIterator<T, true>` makes, is 2, 1, 0. -/
theorem C12_reverse_range_holds_the_tail_alone :
    ∃ mem l, (do
        let s1 ← IList.push_back fourNodes IList.init (some 0)
        let s2 ← IList.push_back s1.1 s1.2 (some 1)
        IList.push_back s2.1 s2.2 (some 2)) = .ok (mem, l) ∧
      l.forward mem = some [0, 1, 2] ∧
      l.backward mem = some [2] ∧
      mem.walkBack mem.length l.m_tail = some [2, 1, 0] := by
  refine ⟨_, _, rfl, ?_, ?_, ?_⟩ <;> decide

/-- C20. Two states reached from the empty list by successful insertions are
not well formed. After `push_back(0)`, `push_back(1)`, `insertAfter(2, 0)` the
nodes 0, 1, 2 are registered and `size()` is 3, but the forward traversal is
0, 2: it misses node 1 and ends at node 2 while the tail is node 1, and node 2
has no next link. After `push_back(0)`, `push_back(1)`, `insertBefore(2, 1)` the
forward traversal is 0, 2, 1 but node 2 has no prev link although node 0
precedes it. -/
theorem C20_insertion_in_the_middle_breaks_the_links :
    (∃ mem l, (do
        let s1 ← IList.push_back fourNodes IList.init (some 0)
        let s2 ← IList.push_back s1.1 s1.2 (some 1)
        IList.insertAfter s2.1 s2.2 (some 2) (some 0)) = .ok (mem, l) ∧
      l.m_container = [0, 1, 2] ∧ l.size = 3 ∧ l.forward mem = some [0, 2] ∧
      l.back = some 1 ∧ mem.read 2 = some ⟨some 0, none⟩ ∧
      mem.read 1 = some ⟨some 2, none⟩) ∧
    (∃ mem l, (do
        let s1 ← IList.push_back fourNodes IList.init (some 0)
        let s2 ← IList.push_back s1.1 s1.2 (some 1)
        IList.insertBefore s2.1 s2.2 (some 2) (some 1)) = .ok (mem, l) ∧
      l.m_container = [0, 1, 2] ∧ l.size = 3 ∧ l.forward mem = some [0, 2, 1] ∧
      l.front = some 0 ∧ mem.read 2 = some ⟨none, some 1⟩ ∧
      mem.read 0 = some ⟨none, some 2⟩) := by
  refine ⟨⟨_, _, rfl, ?_, ?_, ?_, ?_, ?_, ?_⟩, ⟨_, _, rfl, ?_, ?_, ?_, ?_, ?_, ?_⟩⟩ <;> decide
/-! ## The primitive operations on the use-def bookkeeping -/

/-- C16. For every live operation `op` with the operands `a.m_uses`, every
value `v` and every index `i`: if `i` is below the number of operands,
`replaceUse` succeeds, the operands of `op` afterwards are the former ones with
`v` at slot `i`, so slot `i` holds `v` and every other slot is unchanged, the
user set of every value is unchanged, and so is every object other than `op`;
if `i` is not below the number of operands the call fails with the range
error and yields no new state. -/
theorem C16_replaceUse_overwrites_one_slot (h : Heap) (op : Nat) (o : Value) (a : Action)
    (v i : Nat) (hop : h.read op = some o) (hact : o.derived = .action a) :
    (i < a.m_uses.length →
      ∃ h1, h.replaceUse op i v = .ok h1 ∧
        h1.uses op = a.m_uses.set i v ∧ (h1.uses op)[i]? = some v ∧
        (∀ j, j ≠ i → (h1.uses op)[j]? = (h.uses op)[j]?) ∧
        (∀ x, h1.users x = h.users x) ∧
        (∀ x, x ≠ op → h1.read x = h.read x) ∧
        (∀ x, h1.shape x = h.shape x)) ∧
    (¬ i < a.m_uses.length → h.replaceUse op i v = .error .outOfRange) := by
  have huses : h.uses op = a.m_uses := by simp [Heap.uses, hop, hact]
  constructor
  · intro hi
    refine ⟨h.set op (some { o with derived := .action { a with m_uses := a.m_uses.set i v } }),
      by simp [Heap.replaceUse, hop, hact, hi], ?_, ?_, ?_, ?_, ?_, ?_⟩
    · rw [Heap.uses_set hop]; simp
    · rw [Heap.uses_set hop]; simp [List.getElem?_set, hi]
    · intro j hj
      rw [Heap.uses_set hop, huses]
      simp [List.getElem?_set_ne (Ne.symm hj)]
    · intro x
      rw [Heap.users_set hop]
      by_cases hx : x = op
      · subst hx; simp [Heap.users, hop]
      · simp [hx]
    · intro x hx
      rw [Heap.read_set hop]; simp [hx]
    · intro x
      rw [Heap.shape_set hop]
      by_cases hx : x = op
      · subst hx; simp [Heap.shape, hop, hact]
      · simp [hx]
  · intro hi
    simp [Heap.replaceUse, hop, hact, hi]

/-- Witness for C16: on the heap of the test program, `a3.replaceUse(1, a1)`
succeeds and leaves the operands `a1`, `a1` and every user set as it was, and
`a3.replaceUse(2, a1)` is the range error. -/
theorem C16_replaceUse_overwrites_one_slot_witness :
    (∃ h1, testHeap.replaceUse 2 1 0 = .ok h1 ∧ h1.uses 2 = [0, 0] ∧
      (∀ x, h1.users x = testHeap.users x)) ∧
    testHeap.replaceUse 2 2 0 = .error .outOfRange := by
  have hop : testHeap.read 2 = some ⟨0, [], .action ⟨[0, 1], .RealAction, none⟩⟩ := by decide
  have key := C16_replaceUse_overwrites_one_slot testHeap 2 _ _ 0 1 hop rfl
  have key2 := C16_replaceUse_overwrites_one_slot testHeap 2 _ _ 0 2 hop rfl
  obtain ⟨h1, hr, hu, _, _, hus, _, _⟩ := key.1 (by decide)
  exact ⟨⟨h1, hr, hu, hus⟩, key2.2 (by decide)⟩

/-- C17. For every live value `v`, operation `op` and slot `s`: `addUser`
fails, with the double-insertion violation, exactly when `op` is already a key
of the user map of `v`, whatever slot it is mapped to; otherwise it succeeds,
the user set of `v` is the former one extended with the entry of `op` and `s`,
the type and the derived part of `v` are unchanged, and every other object is
unchanged. -/
theorem C17_addUser_rejects_a_recorded_user (h : Heap) (v op s : Nat) (o : Value)
    (hv : h.read v = some o) :
    (h.addUser v op s = .error .userDoubleInsertion ↔ op ∈ h.userKeys v) ∧
    ((∃ e, h.addUser v op s = .error e) ↔ ∃ i, (op, i) ∈ h.users v) ∧
    (op ∉ h.userKeys v →
      ∃ h1, h.addUser v op s = .ok h1 ∧
        h1.users v = h.users v ++ [(op, s)] ∧
        h1.read v = some { o with m_users := o.m_users ++ [(op, s)] } ∧
        (∀ x, x ≠ v → h1.read x = h.read x) ∧
        (∀ x, h1.uses x = h.uses x) ∧ (∀ x, h1.shape x = h.shape x) ∧
        h1.length = h.length) := by
  have hkeys : h.userKeys v = o.m_users.map Prod.fst := Heap.userKeys_eq hv
  have husers : h.users v = o.m_users := by simp [Heap.users, hv]
  by_cases hold : op ∈ h.userKeys v
  · have herr := Heap.addUser_double s hv hold
    refine ⟨by simp [herr, hold], ?_, fun hn => absurd hold hn⟩
    constructor
    · intro _
      rw [hkeys, List.mem_map] at hold
      obtain ⟨e, he, hfst⟩ := hold
      exact ⟨e.2, by rw [husers, ← hfst]; exact he⟩
    · intro _
      exact ⟨_, herr⟩
  · have hany : o.m_users.any (fun e => e.1 == op) = false := by
      rw [Heap.any_key_eq_false, ← hkeys]; exact hold
    have hok : h.addUser v op s =
        .ok (h.set v (some { o with m_users := o.m_users ++ [(op, s)] })) := by
      simp [Heap.addUser, hv, hany]
    refine ⟨by simp [hok, hold], ?_, fun _ => ⟨_, hok, ?_, ?_, ?_, ?_, ?_, ?_⟩⟩
    · constructor
      · rintro ⟨e, he⟩
        rw [hok] at he
        cases he
      · rintro ⟨i, hi⟩
        exact absurd (List.mem_map_of_mem Prod.fst hi) (by simpa [Heap.userKeys] using hold)
    · rw [Heap.users_set hv]; simp [husers]
    · rw [Heap.read_set hv]; simp
    · intro x hx
      rw [Heap.read_set hv]; simp [hx]
    · intro x
      exact Heap.uses_set_users hv _ x
    · intro x
      exact Heap.shape_set_users hv _ x
    · simp

/-- Witness for C17: on the heap of the test program, `a1.addUser(a3, 5)` is
rejected, since `a3` is a user of `a1` at slot 0, and `a2.addUser(a1, 5)`
extends the user set of `a2` by the one entry. -/
theorem C17_addUser_rejects_a_recorded_user_witness :
    testHeap.addUser 0 2 5 = .error .userDoubleInsertion ∧
    ∃ h1, testHeap.addUser 1 0 5 = .ok h1 ∧ h1.users 1 = testHeap.users 1 ++ [(0, 5)] := by
  have hv0 : testHeap.read 0 =
      some ⟨0, [(1, 0), (2, 0), (3, 0)], .action ⟨[], .Allocation, some .Static⟩⟩ := by decide
  have hv1 : testHeap.read 1 = some ⟨0, [(2, 1)], .action ⟨[0], .Composition, none⟩⟩ := by
    decide
  have key0 := C17_addUser_rejects_a_recorded_user testHeap 0 2 5 _ hv0
  have key1 := C17_addUser_rejects_a_recorded_user testHeap 1 0 5 _ hv1
  obtain ⟨h1, hr, hu, _⟩ := key1.2.2 (by decide)
  exact ⟨key0.1.mpr (by decide), h1, hr, hu⟩
/-! ## What the success of a call implies -/

namespace Heap

theorem addUser_inv {h h1 : Heap} {v op i : Nat} (hok : addUser h v op i = .ok h1) :
    ∃ o, h.read v = some o ∧ op ∉ h.userKeys v := by
  unfold addUser at hok
  cases hr : h.read v with
  | none => simp [hr] at hok
  | some o =>
    by_cases hany : o.m_users.any (fun e => e.1 == op) = true
    · simp [hr, hany] at hok
    · refine ⟨o, rfl, ?_⟩
      rw [userKeys_eq hr, ← any_key_eq_false]
      exact (Bool.not_eq_true _).mp hany

theorem replaceUse_inv {h h1 : Heap} {op i v : Nat} (hok : replaceUse h op i v = .ok h1) :
    ∃ t k ak n, h.shape op = some (t, some (k, ak, n)) ∧ i < n := by
  unfold replaceUse at hok
  cases hr : h.read op with
  | none => simp [hr] at hok
  | some o =>
    cases hd : o.derived with
    | nullConstant => simp [hr, hd] at hok
    | action a =>
      by_cases hi : i < a.m_uses.length
      · exact ⟨o.m_type, a.m_kind, a.allocationKind, a.m_uses.length,
          by simp [shape, hr, hd], hi⟩
      · simp [hr, hd, hi] at hok

theorem m_push_use_inv {h h1 : Heap} {this : Nat} {u : Option Nat}
    (hok : m_push_use h this u = .ok h1) :
    ∃ v t k ak n ov, u = some v ∧ h.shape this = some (t, some (k, ak, n)) ∧
      h.read v = some ov ∧ this ∉ h.userKeys v := by
  cases u with
  | none => simp [m_push_use] at hok
  | some v =>
    unfold m_push_use at hok
    cases hr : h.read this with
    | none => simp [derefAction, hr] at hok
    | some o =>
      cases hd : o.derived with
      | nullConstant => simp [derefAction, hr, hd] at hok
      | action a =>
        simp only [derefAction, hr, hd] at hok
        cases ha : addUser h v this a.m_uses.length with
        | error e => simp [ha] at hok
        | ok h2 =>
          obtain ⟨ov, hov, hnew⟩ := addUser_inv ha
          exact ⟨v, o.m_type, a.m_kind, a.allocationKind, a.m_uses.length, ov, rfl,
            by simp [shape, hr, hd], hov, hnew⟩

/-- A constructor body that ran through had non-null, live, pairwise distinct
operands, none of which recorded the action before. -/
theorem pushUses_inv (this : Nat) (us : List (Option Nat)) (h h1 : Heap)
    (hok : pushUses h this us = .ok h1) :
    ∃ vs : List Nat, us = vs.map some ∧ vs.Nodup ∧
      ∀ v ∈ vs, (h.read v).isSome ∧ this ∉ h.userKeys v := by
  induction us generalizing h with
  | nil => exact ⟨[], rfl, List.nodup_nil, by simp⟩
  | cons u rest ih =>
    have hstep : pushUses h this (u :: rest) =
        (m_push_use h this u >>= fun h2 => pushUses h2 this rest) := by
      simp [pushUses]
    rw [hstep] at hok
    cases hp : m_push_use h this u with
    | error e =>
      rw [hp] at hok
      cases hok
    | ok h2 =>
      rw [hp] at hok
      have hok : pushUses h2 this rest = .ok h1 := hok
      obtain ⟨v, t, k, ak, n, ov, hu, hthis, hov, hnew⟩ := m_push_use_inv hp
      subst hu
      obtain ⟨h2', hr2, hus2, huses2, hsh2⟩ := m_push_use_spec hthis hov hnew
      rw [hp] at hr2
      cases hr2
      obtain ⟨vs, hvs, hnd, hall⟩ := ih h2 hok
      have hv_notin : v ∉ vs := by
        intro hmem
        apply (hall v hmem).2
        simp [userKeys, hus2]
      refine ⟨v :: vs, by simp [hvs], List.nodup_cons.mpr ⟨hv_notin, hnd⟩, ?_⟩
      intro w hw
      rcases List.mem_cons.mp hw with rfl | hw
      · exact ⟨by simp [hov], hnew⟩
      · have hwv : w ≠ v := fun hc => hv_notin (hc ▸ hw)
        obtain ⟨hl, hk⟩ := hall w hw
        constructor
        · obtain ⟨ow, how⟩ := Option.isSome_iff_exists.mp hl
          obtain ⟨s, hs⟩ := isSome_shape how
          by_cases hwt : w = this
          · subst hwt
            obtain ⟨o, _, hro, _⟩ := action_of_shape hthis
            simp [hro]
          · have := hsh2 w
            rw [if_neg hwt, hs] at this
            obtain ⟨o2, ho2, _⟩ := read_of_shape (this.symm : h.shape w = some (s.1, s.2))
            simp [ho2]
        · simpa [userKeys, hus2, hwv] using hk

end Heap
/-! ## The constructors: the new action in full -/

namespace Heap

theorem read_length (h : Heap) : h.read h.length = none := by
  simp [read]

theorem actionKind_of_shape {h : Heap} {x t : Nat} {k : ActionKind}
    {ak : Option AllocationKind} {n : Nat} (hs : h.shape x = some (t, some (k, ak, n))) :
    h.actionKind x = some k ∧ h.type x = some t := by
  cases hr : h.read x with
  | none => simp [shape, hr] at hs
  | some o =>
    cases hd : o.derived with
    | nullConstant => simp [shape, hr, hd] at hs
    | action a =>
      simp only [shape, hr, hd, Option.map_some', Option.some.injEq, Prod.mk.injEq] at hs
      simp [actionKind, type, hr, hd, hs.1, hs.2.1]

theorem type_of_shape_eq {h h1 : Heap} {x : Nat} (hs : h1.shape x = h.shape x) :
    h1.type x = h.type x := by
  have : ∀ g : Heap, g.type x = (g.shape x).map Prod.fst := by
    intro g
    cases hr : g.read x <;> simp [type, shape, hr]
  rw [this, this, hs]

/-- The state a constructor body leaves: the heap `h` extended by the new
action at the next free address, with the operands `vs` pushed. -/
theorem construct_full (h : Heap) (kind : ActionKind) (type : Nat)
    (ak : Option AllocationKind) (vs : List Nat) (hfresh : h.FreshOperands vs) :
    ∃ h1, pushUses (h.newAction kind type ak).1 h.length (vs.map some) = .ok h1 ∧
      h1.uses h.length = vs ∧ h1.users h.length = [] ∧
      h1.shape h.length = some (type, some (kind, ak, vs.length)) ∧
      (∀ x, x ≠ h.length → h1.uses x = h.uses x) ∧
      (∀ x, x ≠ h.length → h1.shape x = h.shape x) ∧
      (∀ i v, vs[i]? = some v → h1.users v = h.users v ++ [(h.length, i)]) ∧
      (∀ x, x ≠ h.length → x ∉ vs → h1.users x = h.users x) := by
  obtain ⟨hnd, hops⟩ := hfresh
  have hne : ∀ v ∈ vs, v ≠ h.length := by
    intro v hv
    obtain ⟨o, ho⟩ := Option.isSome_iff_exists.mp (hops v hv).1
    exact Nat.ne_of_lt (read_lt ho)
  have hshape0 : shape (h.newAction kind type ak).1 h.length =
      some (type, some (kind, ak, 0)) := by
    simp [newAction, alloc, shape, read_append_length]
  obtain ⟨h1, hr1, hus1, hframe1, huses1, hother1, hsh1, hshthis1⟩ :=
    pushUses_spec h.length vs (h.newAction kind type ak).1 hshape0 hnd
      (fun v hv => ⟨by
        simp only [newAction, alloc, read_append_ne h _ (hne v hv)]
        exact (hops v hv).1, hne v hv⟩)
      (fun v hv => by
        simp only [newAction, alloc, userKeys, users_append_ne h _ (hne v hv)]
        exact (hops v hv).2)
  refine ⟨h1, hr1, ?_, ?_, ?_, ?_, ?_, ?_, ?_⟩
  · rw [huses1]
    simp [newAction, alloc, uses, read_append_length]
  · rw [hframe1 _ (fun hc => hne _ hc rfl)]
    simp [newAction, alloc, users, read_append_length]
  · simpa using hshthis1
  · intro x hx
    rw [hother1 x hx]
    exact uses_append_ne h _ hx
  · intro x hx
    rw [hsh1 x hx]
    exact shape_append_ne h _ hx
  · intro i v hv
    rw [hus1 i v hv, Nat.zero_add]
    congr 1
    exact users_append_ne h _ (hne v (List.getElem?_mem hv))
  · intro x hx hxv
    rw [hframe1 x hxv]
    exact users_append_ne h _ hx

/-- A constructor body that ran through on the heap `h`, with operands that
are not the address under construction, had operands fit for a new action,
provided no value of `h` records that address. -/
theorem construct_inv (h : Heap) (kind : ActionKind) (type : Nat)
    (ak : Option AllocationKind) (us : List (Option Nat)) (h1 : Heap)
    (hok : pushUses (h.newAction kind type ak).1 h.length us = .ok h1)
    (hlive : ∀ v, some v ∈ us → v ≠ h.length) :
    ∃ vs, us = vs.map some ∧ h.FreshOperands vs := by
  obtain ⟨vs, hvs, hnd, hall⟩ := pushUses_inv _ _ _ _ hok
  refine ⟨vs, hvs, hnd, ?_⟩
  intro v hv
  have hne : v ≠ h.length := hlive v (by rw [hvs]; exact List.mem_map_of_mem _ hv)
  obtain ⟨hl, hk⟩ := hall v hv
  constructor
  · simpa [newAction, alloc, read_append_ne h _ hne] using hl
  · simpa [newAction, alloc, userKeys, users_append_ne h _ hne] using hk

end Heap
/-! ## RealAction and Terminator -/

/-- C13. For every heap and every pair of values `useDef` and `use`: if the
two are live, distinct and do not record the address of the new action, the
constructor `RealAction(useDef, use)` succeeds; and whenever it succeeds on a
live `use`, the new action has the kind `RealAction`, exactly the two operands
`useDef` and `use` in this order, the type reference that `useDef` has (before
and after the construction), `getUseDef()` is `useDef` and `getUse()` is
`use`. -/
theorem C13_realAction_type_and_accessors (h : Heap) (useDef use : Nat) :
    (h.FreshOperands [useDef, use] →
      ∃ h1 this, h.RealAction (some useDef) (some use) = .ok (h1, this)) ∧
    (∀ h1 this, (h.read use).isSome →
      h.RealAction (some useDef) (some use) = .ok (h1, this) →
      h1.actionKind this = some .RealAction ∧
      h1.uses this = [useDef, use] ∧ (h1.uses this).length = 2 ∧
      (∃ t, h.type useDef = some t ∧ h1.type useDef = some t ∧ h1.type this = some t) ∧
      h1.getUseDef this = some useDef ∧ h1.getUse this = some use) := by
  constructor
  · intro hfresh
    obtain ⟨o, ho⟩ := Option.isSome_iff_exists.mp (hfresh.2 useDef (List.mem_cons_self _ _)).1
    obtain ⟨h1, hr, _⟩ := Heap.construct_full h .RealAction o.m_type none _ hfresh
    refine ⟨h1, h.length, ?_⟩
    simp only [List.map_cons, List.map_nil] at hr
    simp only [Heap.RealAction, Option.bind, Heap.type, ho, Option.map]
    simp only [Heap.newAction, Heap.alloc] at hr ⊢
    rw [hr]
  · intro h1 this hlive hok
    cases ht : h.type useDef with
    | none => simp [Heap.RealAction, ht] at hok
    | some t =>
      have hud : (h.read useDef).isSome := by
        cases hr : h.read useDef <;> simp [Heap.type, hr] at ht ⊢
      simp only [Heap.RealAction, Option.bind, ht] at hok
      cases hp : Heap.pushUses (h.newAction .RealAction t none).1 (h.newAction .RealAction t none).2
          [some useDef, some use] with
      | error e => simp [hp] at hok
      | ok h2 =>
        simp only [hp, Except.ok.injEq, Prod.mk.injEq] at hok
        obtain ⟨rfl, rfl⟩ := hok
        have hp2 : Heap.pushUses (h.newAction .RealAction t none).1 h.length
            [some useDef, some use] = .ok h2 := hp
        obtain ⟨vs, hvs, hfresh⟩ := Heap.construct_inv h _ _ _ _ _ hp2 (by
          intro v hv
          simp only [List.mem_cons, Option.some.injEq, List.mem_singleton, List.not_mem_nil,
            or_false] at hv
          have hl : (h.read v).isSome := by rcases hv with rfl | rfl <;> assumption
          obtain ⟨o, ho⟩ := Option.isSome_iff_exists.mp hl
          exact Nat.ne_of_lt (Heap.read_lt ho))
        have hvs2 : vs = [useDef, use] := by
          have : vs.map some = [useDef, use].map some := by rw [← hvs]; rfl
          exact List.map_injective_iff.mpr (Option.some_injective _) this
        subst hvs2
        obtain ⟨h3, hr3, huses, _, hshape, _, hshother, _, _⟩ :=
          Heap.construct_full h .RealAction t none _ hfresh
        have heq : Except.ok h2 = (Except.ok h3 : Except Violation Heap) := hp2.symm.trans hr3
        cases heq
        have hthis : (h.newAction .RealAction t none).2 = h.length := rfl
        rw [hthis]
        have hne : useDef ≠ h.length := by
          obtain ⟨o, ho⟩ := Option.isSome_iff_exists.mp hud
          exact Nat.ne_of_lt (Heap.read_lt ho)
        obtain ⟨hkind, htype⟩ := Heap.actionKind_of_shape hshape
        refine ⟨hkind, huses, by rw [huses]; rfl, ⟨t, rfl, ?_, htype⟩, ?_, ?_⟩
        · rw [Heap.type_of_shape_eq (hshother useDef hne), ht]
        · simp [Heap.getUseDef, huses]
        · simp [Heap.getUse, huses]

/-- Witness for C13: the third constructor call of the test program, the
action `a3 = RealAction(a1, a2)` on the heap that holds `a1` and `a2`. -/
theorem C13_realAction_type_and_accessors_witness :
    ∃ h1 this,
      Heap.RealAction [some ⟨0, [(1, 0)], .action ⟨[], .Allocation, some .Static⟩⟩,
        some ⟨0, [], .action ⟨[0], .Composition, none⟩⟩] (some 0) (some 1) = .ok (h1, this) ∧
      h1.uses this = [0, 1] ∧ h1.type this = h1.type 0 := by
  have key := C13_realAction_type_and_accessors
    [some ⟨0, [(1, 0)], .action ⟨[], .Allocation, some .Static⟩⟩,
      some ⟨0, [], .action ⟨[0], .Composition, none⟩⟩] 0 1
  obtain ⟨h1, this, hok⟩ := key.1 (by
    refine ⟨by decide, ?_⟩
    intro v hv
    simp only [List.mem_cons, List.mem_singleton, List.not_mem_nil, or_false] at hv
    rcases hv with rfl | rfl <;> decide)
  obtain ⟨_, huses, _, ⟨t, _, ht1, ht2⟩, _, _⟩ := key.2 h1 this (by decide) hok
  exact ⟨h1, this, hok, huses, by rw [ht1, ht2]⟩
/-! ## The reference of NullType in a pool -/

theorem TypeDesc.equal_null_right {d : TypeDesc} (hd : d ≠ .NullType) :
    d.equal .NullType = false := by
  cases d <;> simp [TypeDesc.equal, TypeDesc.imageEqual, TypeDesc.asImageType] at hd ⊢

theorem TypeDesc.eq_null_of_equal {e : TypeDesc} (h : TypeDesc.equal .NullType e = true) :
    e = .NullType := by
  cases e <;> simp [TypeDesc.equal] at h ⊢

theorem TypeDesc.construct_eq {d newT : TypeDesc} (h : d.construct = .ok newT) : newT = d := by
  cases d <;> simp only [TypeDesc.construct] at h
  case BufferType o es ec =>
    split at h
    · cases h
    · cases h; rfl
  all_goals (cases h; rfl)

theorem TypePool.nullUnique_nil : TypePool.NullUnique [] := by
  intro i j hi
  simp at hi

theorem TypePool.nullUnique_append {pool : TypePool} {d : TypeDesc} (hu : pool.NullUnique)
    (hd : d = .NullType → ∀ i : Nat, pool[i]? ≠ some TypeDesc.NullType) :
    TypePool.NullUnique (pool ++ [d]) := by
  have key : ∀ i, (pool ++ [d])[i]? = some .NullType →
      pool[i]? = some .NullType ∨ (i = pool.length ∧ d = .NullType) := by
    intro i hi
    rcases Nat.lt_or_ge i pool.length with hlt | hge
    · left
      rwa [List.getElem?_append_left hlt] at hi
    · right
      rw [List.getElem?_append_right hge] at hi
      have h0 : i - pool.length = 0 := by
        by_contra hne
        rw [List.getElem?_eq_none (by simp; omega)] at hi
        cases hi
      rw [h0] at hi
      simp only [List.getElem?_cons_zero, Option.some.injEq] at hi
      exact ⟨by omega, hi⟩
  intro i j hi hj
  rcases key i hi with hi1 | ⟨hi1, hdn⟩ <;> rcases key j hj with hj1 | ⟨hj1, hdn2⟩
  · exact hu i j hi1 hj1
  · exact absurd hi1 (hd hdn2 i)
  · exact absurd hj1 (hd hdn j)
  · omega

/-- A request to the pool: the reference it returns holds a descriptor that
the request accepts, the pool grows at its end only, and it keeps holding
`NullType` at one reference at most. -/
theorem TypePool.get_spec {env : StdEnv} {pool pool1 : TypePool} {d : TypeDesc} {r : Nat}
    (h : TypePool.get env pool d = .ok (pool1, r)) :
    (∃ e, pool1[r]? = some e ∧ d.equal e = true) ∧ (∃ suffix, pool1 = pool ++ suffix) ∧
      (pool.NullUnique → pool1.NullUnique) := by
  unfold TypePool.get at h
  cases hc : d.construct with
  | error v => simp [hc] at h
  | ok newT =>
    have hnew := TypeDesc.construct_eq hc
    subst hnew
    simp only [hc, Except.ok.injEq] at h
    unfold internGet at h
    cases hf : internFind env (TypeDesc.hash env) TypeDesc.equal pool newT with
    | some found =>
      simp only [hf, Prod.mk.injEq] at h
      obtain ⟨rfl, rfl⟩ := h
      obtain ⟨e, he, _, heq⟩ := internFind_eq_some hf
      exact ⟨⟨e, he, heq⟩, ⟨[], by simp⟩, id⟩
    | none =>
      simp only [hf, Prod.mk.injEq] at h
      obtain ⟨rfl, rfl⟩ := h
      refine ⟨⟨newT, by simp, TypeDesc.equal_refl newT⟩, ⟨[newT], rfl⟩, ?_⟩
      intro hu
      apply TypePool.nullUnique_append hu
      intro hd i hi
      subst hd
      have hsome : ∃ r, internFind env (TypeDesc.hash env) TypeDesc.equal pool .NullType =
          some r := internFind_isSome hi rfl rfl
      obtain ⟨r, hr⟩ := hsome
      rw [hf] at hr
      cases hr

theorem TypePool.getAll_spec {env : StdEnv} (ds : List TypeDesc) {pool pool1 : TypePool}
    (h : TypePool.getAll env pool ds = .ok pool1) :
    (∃ suffix, pool1 = pool ++ suffix) ∧ (pool.NullUnique → pool1.NullUnique) := by
  induction ds generalizing pool with
  | nil =>
    simp only [TypePool.getAll, List.foldlM_nil, pure, Except.pure, Except.ok.injEq] at h
    subst h
    exact ⟨⟨[], by simp⟩, id⟩
  | cons d ds ih =>
    have hstep : TypePool.getAll env pool (d :: ds) =
        ((TypePool.get env pool d).map Prod.fst >>= fun p => TypePool.getAll env p ds) := by
      simp [TypePool.getAll]
    rw [hstep] at h
    cases hg : TypePool.get env pool d with
    | error v =>
      rw [hg] at h
      cases h
    | ok res =>
      obtain ⟨p1, r⟩ := res
      rw [hg] at h
      have h2 : TypePool.getAll env p1 ds = .ok pool1 := h
      obtain ⟨_, ⟨s1, hs1⟩, hu1⟩ := TypePool.get_spec hg
      obtain ⟨⟨s2, hs2⟩, hu2⟩ := ih h2
      exact ⟨⟨s1 ++ s2, by rw [hs2, hs1, List.append_assoc]⟩, fun hu => hu2 (hu1 hu)⟩

/-- Once a pool that holds `NullType` at one reference at most holds it at
`r`, a request for `NullType` returns `r` and stores nothing. -/
theorem TypePool.get_null_stable {env : StdEnv} {pool : TypePool} {r : Nat}
    (hu : pool.NullUnique) (hr : pool[r]? = some .NullType) :
    TypePool.get env pool .NullType = .ok (pool, r) := by
  rw [TypePool.get_ok env pool .NullType rfl]
  unfold internGet
  cases hf : internFind env (TypeDesc.hash env) TypeDesc.equal pool .NullType with
  | some found =>
    obtain ⟨e, he, _, heq⟩ := internFind_eq_some hf
    have := TypeDesc.eq_null_of_equal heq
    subst this
    rw [hu found r he hr]
  | none =>
    have hsome : ∃ r2, internFind env (TypeDesc.hash env) TypeDesc.equal pool .NullType =
        some r2 := internFind_isSome hr rfl rfl
    obtain ⟨r2, hr2⟩ := hsome
    rw [hf] at hr2
    cases hr2
/-- A constructor body that ran through on live operands: the operands were
fit for a new action, and the state is the one `construct_full` describes. -/
theorem Heap.construct_of_ok (h : Heap) (kind : ActionKind) (type : Nat)
    (ak : Option AllocationKind) (us : List (Option Nat)) (h1 : Heap)
    (hok : Heap.pushUses (h.newAction kind type ak).1 h.length us = .ok h1)
    (hlive : ∀ v, some v ∈ us → (h.read v).isSome) :
    ∃ vs, us = vs.map some ∧ h.FreshOperands vs ∧
      h1.uses h.length = vs ∧ h1.users h.length = [] ∧
      h1.shape h.length = some (type, some (kind, ak, vs.length)) ∧
      (∀ x, x ≠ h.length → h1.uses x = h.uses x) ∧
      (∀ x, x ≠ h.length → h1.shape x = h.shape x) ∧
      (∀ i v, vs[i]? = some v → h1.users v = h.users v ++ [(h.length, i)]) ∧
      (∀ x, x ≠ h.length → x ∉ vs → h1.users x = h.users x) := by
  obtain ⟨vs, hvs, hfresh⟩ := Heap.construct_inv h kind type ak us h1 hok (by
    intro v hv
    obtain ⟨o, ho⟩ := Option.isSome_iff_exists.mp (hlive v hv)
    exact Nat.ne_of_lt (Heap.read_lt ho))
  obtain ⟨h2, hr2, hrest⟩ := Heap.construct_full h kind type ak vs hfresh
  rw [← hvs, hok] at hr2
  cases hr2
  exact ⟨vs, hvs, hfresh, hrest⟩

/-- C14. Pools filled by requests hold `NullType` at one reference at most.
For every such pool `tp`, every heap and every live value `v` that does not
record the address of the new action, `Terminator(tp, v)` succeeds, has the
kind `Terminator` and exactly the operand `v`, and its type is a reference
`nullRef` with these properties in every state `tp2` that the pool reaches by
further requests: `nullRef` is the one reference that holds `NullType`; a
request for `NullType` returns it; every `Terminator` built on the pool has it
as type; the `NullConstant` built on the pool has it as type; and a request
for any other type returns a reference that differs from it and holds a type
other than `NullType`. -/
theorem C14_terminator_type_is_the_null_type (env : StdEnv) :
    (∀ ds tp, TypePool.getAll env [] ds = .ok tp → tp.NullUnique) ∧
    ∀ (tp : TypePool) (h : Heap) (v : Nat), tp.NullUnique → h.FreshOperands [v] →
      ∃ h1 tp1 this nullRef, Heap.Terminator env h tp (some v) = .ok (h1, tp1, this) ∧
        h1.actionKind this = some .Terminator ∧ h1.uses this = [v] ∧
        h1.type this = some nullRef ∧
        ∀ ds tp2, TypePool.getAll env tp1 ds = .ok tp2 →
          (∀ r : Nat, tp2[r]? = some TypeDesc.NullType ↔ r = nullRef) ∧
          TypePool.get env tp2 .NullType = .ok (tp2, nullRef) ∧
          (∀ (g : Heap) (w : Nat) g1 tp3 other, (g.read w).isSome →
            Heap.Terminator env g tp2 (some w) = .ok (g1, tp3, other) →
            tp3 = tp2 ∧ g1.uses other = [w] ∧ g1.type other = some nullRef) ∧
          (∀ (g : Heap) g1 cp tp3 c, ConstantPool.get env g [] tp2 = .ok (g1, cp, tp3, c) →
            tp3 = tp2 ∧ g1.type c = some nullRef) ∧
          (∀ d tp3 r, d ≠ TypeDesc.NullType → TypePool.get env tp2 d = .ok (tp3, r) →
            r ≠ nullRef ∧ ∃ e, tp3[r]? = some e ∧ e ≠ TypeDesc.NullType) := by
  constructor
  · intro ds tp hds
    exact (TypePool.getAll_spec ds hds).2 TypePool.nullUnique_nil
  intro tp h v hu hfresh
  cases hres : internGet env (TypeDesc.hash env) TypeDesc.equal tp .NullType with
  | mk tp1 nullRef =>
    have hget : TypePool.get env tp .NullType = .ok (tp1, nullRef) := by
      rw [TypePool.get_ok env tp .NullType rfl, hres]
    obtain ⟨⟨e, he, heq⟩, _, hu1⟩ := TypePool.get_spec hget
    have hen := TypeDesc.eq_null_of_equal heq
    subst hen
    obtain ⟨h1, hr, huses, _, hshape, _⟩ :=
      Heap.construct_full h .Terminator nullRef none _ hfresh
    obtain ⟨hkind, htype⟩ := Heap.actionKind_of_shape hshape
    refine ⟨h1, tp1, h.length, nullRef, ?_, hkind, huses, htype, ?_⟩
    · simp only [List.map_cons, List.map_nil] at hr
      simp only [Heap.Terminator, hget]
      simp only [Heap.newAction, Heap.alloc] at hr ⊢
      rw [hr]
    intro ds tp2 hds
    obtain ⟨⟨suffix, hsuf⟩, hu2⟩ := TypePool.getAll_spec ds hds
    have hu2 := hu2 (hu1 hu)
    have hlt : nullRef < tp1.length := by
      by_contra hge
      rw [List.getElem?_eq_none (Nat.le_of_not_lt hge)] at he
      cases he
    have he2 : tp2[nullRef]? = some TypeDesc.NullType := by
      rw [hsuf, List.getElem?_append_left hlt]
      exact he
    have hstable : TypePool.get env tp2 .NullType = .ok (tp2, nullRef) :=
      TypePool.get_null_stable hu2 he2
    refine ⟨fun r => ⟨fun hr2 => hu2 r nullRef hr2 he2, fun hr2 => hr2 ▸ he2⟩, hstable, ?_, ?_, ?_⟩
    · intro g w g1 tp3 other hw hok
      simp only [Heap.Terminator, hstable] at hok
      cases hp : Heap.pushUses (g.newAction .Terminator nullRef none).1
          (g.newAction .Terminator nullRef none).2 [some w] with
      | error e => simp [hp] at hok
      | ok g2 =>
        simp only [hp, Except.ok.injEq, Prod.mk.injEq] at hok
        obtain ⟨rfl, rfl, rfl⟩ := hok
        obtain ⟨vs, hvs, _, huses2, _, hshape2, _⟩ :=
          Heap.construct_of_ok g .Terminator nullRef none [some w] g2 hp (by
            intro x hx
            simp only [List.mem_singleton, Option.some.injEq] at hx
            subst hx
            exact hw)
        have hvs2 : vs = [w] := by
          have : vs.map some = [w].map some := by rw [← hvs]; rfl
          exact List.map_injective_iff.mpr (Option.some_injective _) this
        subst hvs2
        exact ⟨rfl, huses2, (Heap.actionKind_of_shape hshape2).2⟩
    · intro g g1 cp tp3 c hok
      simp only [ConstantPool.get, hstable, Heap.alloc, internFind, acceptedFrom,
        List.length_nil, Nat.mod_zero, List.getElem?_nil, List.nil_append, Except.ok.injEq,
        Prod.mk.injEq] at hok
      obtain ⟨rfl, _, rfl, rfl⟩ := hok
      exact ⟨rfl, by simp [Heap.type, Heap.read_append_length]⟩
    · intro d tp3 r hd hok
      obtain ⟨⟨e, he3, heq3⟩, ⟨suffix3, hsuf3⟩, _⟩ := TypePool.get_spec hok
      have hne : e ≠ TypeDesc.NullType := by
        intro hc
        subst hc
        rw [TypeDesc.equal_null_right hd] at heq3
        cases heq3
      refine ⟨?_, e, he3, hne⟩
      intro hc
      subst hc
      have hlt2 : r < tp2.length := by
        by_contra hge
        rw [List.getElem?_eq_none (Nat.le_of_not_lt hge)] at he2
        cases he2
      rw [hsuf3, List.getElem?_append_left hlt2, he2] at he3
      exact hne (Option.some.inj he3).symm

/-- Witness for C14: on the pool and the heap of the test program after its
first constructor call, a terminator of `a1` and the null constant have the
type at reference 1, while `a1` has the `BufferType` at reference 0. -/
theorem C14_terminator_type_is_the_null_type_witness :
    ∃ h1 tp1 this nullRef,
      Heap.Terminator StdEnv.sample [some ⟨0, [], .action ⟨[], .Allocation, some .Static⟩⟩]
        [.BufferType .Device 4 4] (some 0) = .ok (h1, tp1, this) ∧
      h1.type this = some nullRef ∧ h1.type 0 = some 0 ∧ nullRef ≠ 0 := by
  have hu : TypePool.NullUnique [.BufferType .Device 4 4] := by
    intro i j hi
    cases i with
    | zero => simp at hi
    | succ i => simp at hi
  obtain ⟨h1, tp1, this, nullRef, hok, _, _, htype, hrest⟩ :=
    (C14_terminator_type_is_the_null_type StdEnv.sample).2 [.BufferType .Device 4 4]
      [some ⟨0, [], .action ⟨[], .Allocation, some .Static⟩⟩] 0 hu (by
        refine ⟨by decide, ?_⟩
        intro v hv
        simp only [List.mem_singleton] at hv
        subst hv
        decide)
  refine ⟨h1, tp1, this, nullRef, hok, htype, ?_, ?_⟩
  · have h2 : Heap.Terminator StdEnv.sample
        [some ⟨0, [], .action ⟨[], .Allocation, some .Static⟩⟩]
        [.BufferType .Device 4 4] (some 0) =
        .ok ([some ⟨0, [(1, 0)], .action ⟨[], .Allocation, some .Static⟩⟩,
          some ⟨1, [], .action ⟨[0], .Terminator, none⟩⟩],
          [.BufferType .Device 4 4, .NullType], 1) := by decide
    rw [h2] at hok
    cases hok
    decide
  · have h2 : Heap.Terminator StdEnv.sample
        [some ⟨0, [], .action ⟨[], .Allocation, some .Static⟩⟩]
        [.BufferType .Device 4 4] (some 0) =
        .ok ([some ⟨0, [(1, 0)], .action ⟨[], .Allocation, some .Static⟩⟩,
          some ⟨1, [], .action ⟨[0], .Terminator, none⟩⟩],
          [.BufferType .Device 4 4, .NullType], 1) := by decide
    rw [h2] at hok
    cases hok
    rw [show Heap.type [some ⟨0, [(1, 0)], .action ⟨[], .Allocation, some .Static⟩⟩,
          some ⟨1, [], .action ⟨[0], .Terminator, none⟩⟩] 1 = some 1 from by decide] at htype
    cases htype
    decide
/-! ## Destruction of an action -/

/-- The destructor of a live action with live operands fails exactly when the
action still records a user after it has removed itself from its operands. -/
theorem Heap.destroyAction_cases {h : Heap} {this : Nat} {t : Nat} {k : ActionKind}
    {ak : Option AllocationKind} {n : Nat} (hthis : h.shape this = some (t, some (k, ak, n)))
    (hlive : ∀ v ∈ h.uses this, (h.read v).isSome) :
    (h.usersAtDestruction this ≠ [] → h.destroyAction this = .error .valueInUse) ∧
    (h.usersAtDestruction this = [] →
      ∃ h2, h.destroyAction this = .ok h2 ∧ h2.read this = none ∧
        (∀ x, x ≠ this → h2.users x =
          if x ∈ h.uses this then (h.users x).filter (fun e => e.1 != this) else h.users x) ∧
        (∀ x, x ≠ this → h2.uses x = h.uses x) ∧
        (∀ x, x ≠ this → h2.shape x = h.shape x) ∧
        h2.users this = [] ∧ h2.uses this = [] ∧
        (∀ x, x ∈ h.uses this → this ∉ h2.userKeys x)) := by
  obtain ⟨o, a, hr, hd, hlen, hu⟩ := Heap.action_of_shape hthis
  obtain ⟨h1, hr1, hus1, huses1, hsh1⟩ := Heap.removeLoop_spec this (h.uses this) h hlive
  obtain ⟨o1, ho1, _⟩ :=
    Heap.read_of_shape (hthis ▸ hsh1 this : h1.shape this = some (t, some (k, ak, n)))
  have hrest : h1.users this = h.usersAtDestruction this := by
    rw [hus1]
    rfl
  constructor
  · intro hne
    have hun1 : h1.unused this = false := by
      simp only [Heap.unused, hrest]
      cases hc : h.usersAtDestruction this with
      | nil => exact absurd hc hne
      | cons e es => rfl
    simp only [Heap.destroyAction, Heap.derefAction, hr, hd]
    rw [← hu, hr1]
    simp [hun1]
  · intro hnil
    have hun1 : h1.unused this = true := by
      simp [Heap.unused, hrest, hnil]
    refine ⟨h1.set this none, ?_, ?_, ?_, ?_, ?_, ?_, ?_, ?_⟩
    · simp only [Heap.destroyAction, Heap.derefAction, hr, hd]
      rw [← hu, hr1]
      simp [hun1]
    · rw [Heap.read_set ho1, if_pos rfl]
    · intro x hx
      rw [Heap.users_set_none ho1, if_neg hx, hus1]
    · intro x hx
      simp only [Heap.uses, Heap.read_set ho1, if_neg hx]
      have := huses1 x
      simpa [Heap.uses] using this
    · intro x hx
      simp only [Heap.shape, Heap.read_set ho1, if_neg hx]
      have := hsh1 x
      simpa [Heap.shape] using this
    · rw [Heap.users_set_none ho1, if_pos rfl]
    · simp [Heap.uses, Heap.read_set ho1]
    · intro x hx
      by_cases hxt : x = this
      · subst hxt
        simp [Heap.userKeys, Heap.users_set_none ho1]
      · simp only [Heap.userKeys, Heap.users_set_none ho1, if_neg hxt, hus1, if_pos hx,
          List.mem_map, List.mem_filter, not_exists, not_and]
        rintro e ⟨_, hne⟩ heq
        simp [heq] at hne
/-- C15, counterexample. The operations `a1 = Allocation`,
`a2 = Composition(a1)`, two `push_back` calls and `a1.replaceAllUsesWith(a2)`
leave `a2` with itself as operand and as its only user. The user set of `a2`
is not empty, yet `erase(a2)` succeeds: the destructor of the action removes
`a2` from the user set of its operand `a2` before the check. -/
theorem C15_own_operand_counterexample :
    selfUseProgram = .ok (selfUseMemory, selfUseGraph) ∧
    selfUseMemory.heap.users 1 = [(1, 0)] ∧ selfUseMemory.heap.uses 1 = [1] ∧
    selfUseGraph.list.forward selfUseMemory.nodes = some [0, 1] ∧
    (∃ m1 g1, Graph.erase selfUseMemory selfUseGraph 1 = .ok (m1, g1) ∧
      m1.heap.read 1 = none ∧ g1.list.m_container = [0]) ∧
    ∃ h1, selfUseMemory.heap.destroyAction 1 = .ok h1 := by
  refine ⟨by decide, by decide, by decide, by decide, ⟨_, _, rfl, ?_, ?_⟩, ⟨_, rfl⟩⟩ <;> decide

/-- C15, amended. For every operation `op` resident in a graph, let the users
at destruction be the user set of `op` without `op` itself when `op` is among
its own operands, and the user set of `op` otherwise (so for an operation that
is not its own operand: the user set of `op`). If the users at destruction are
not empty, `erase(op)` and the destructor are the violation `valueInUse`. If
they are empty, `erase(op)` succeeds whatever the operands of `op` record
otherwise: `op` is destroyed, each operand of `op` has lost `op` from its user
set and kept its other users, and no other user set and no operand list has
changed. -/
theorem C15_destruction_of_a_used_value_amended (m : Memory) (g : Graph) (xs : List Nat)
    (op : Nat) (res : Graph.Resident m g xs) (hop : op ∈ xs) :
    (op ∉ m.heap.uses op → m.heap.usersAtDestruction op = m.heap.users op) ∧
    (m.heap.usersAtDestruction op ≠ [] →
      Graph.erase m g op = .error .valueInUse ∧
      m.heap.destroyAction op = .error .valueInUse) ∧
    (m.heap.usersAtDestruction op = [] →
      ∃ m1 g1, Graph.erase m g op = .ok (m1, g1) ∧
        m.heap.destroyAction op = .ok m1.heap ∧
        m1.heap.read op = none ∧
        (∀ v ∈ m.heap.uses op, op ∉ m1.heap.userKeys v) ∧
        (∀ x, x ≠ op → m1.heap.users x =
          if x ∈ m.heap.uses op then (m.heap.users x).filter (fun e => e.1 != op)
          else m.heap.users x) ∧
        (∀ x, x ≠ op → m1.heap.uses x = m.heap.uses x) ∧
        IList.WellFormed m1.nodes g1.list (xs.erase op)) := by
  obtain ⟨nodes1, l1, hun, wf1, _, _, _, _⟩ := IList.unlink_wellFormed res.wf hop
  obtain ⟨t, k, ak, n, hshape⟩ := Heap.isAction_iff.mp (res.actions op hop)
  obtain ⟨hfail, hsucc⟩ := Heap.destroyAction_cases hshape
    (fun v hv => (res.operands op hop v hv).1)
  refine ⟨?_, ?_, ?_⟩
  · intro hself
    simp [Heap.usersAtDestruction, hself]
  · intro hne
    have herr := hfail hne
    exact ⟨by simp [Graph.erase, hun, herr, bind, Except.bind], herr⟩
  · intro hnil
    obtain ⟨h2, hr2, hdead, husers, huses, _, _, _, hkeys⟩ := hsucc hnil
    refine ⟨⟨nodes1.set op none, h2⟩,
      { g with list := { l1 with m_container := l1.m_container.erase op } }, ?_, hr2, hdead,
      hkeys, husers, huses, wf1⟩
    simp [Graph.erase, hun, hr2, bind, Except.bind, pure, Except.pure]

/-- Witness for C15, amended: in the graph of the test program the action `a3`
has no user and is erased, the action `a1` has three users and is not. -/
theorem C15_destruction_of_a_used_value_amended_witness :
    (∃ m1 g1, Graph.erase testMemory testGraph 2 = .ok (m1, g1) ∧
      m1.heap.read 2 = none ∧ ∀ v ∈ testMemory.heap.uses 2, 2 ∉ m1.heap.userKeys v) ∧
    Graph.erase testMemory testGraph 0 = .error .valueInUse := by
  have res : Graph.Resident testMemory testGraph [0, 1, 2, 3] := by
    refine ⟨⟨rfl, rfl, ?_, by decide, List.Perm.refl _⟩, ?_, ?_⟩
    · simp [NodeMem.Seg, testMemory, NodeMem.read]
    · decide
    · decide
  have key2 := C15_destruction_of_a_used_value_amended testMemory testGraph [0, 1, 2, 3] 2 res
    (by decide)
  have key0 := C15_destruction_of_a_used_value_amended testMemory testGraph [0, 1, 2, 3] 0 res
    (by decide)
  obtain ⟨m1, g1, hok, _, hdead, hkeys, _⟩ := key2.2.2 (by decide)
  exact ⟨⟨m1, g1, hok, hdead, hkeys⟩, (key0.2.1 (by decide)).1⟩
/-! ## Teardown and the order of the list -/

theorem Heap.UseDefConsistent.congr {h h1 : Heap} (c : h.UseDefConsistent)
    (husers : ∀ x, h1.users x = h.users x) (huses : ∀ x, h1.uses x = h.uses x) :
    h1.UseDefConsistent := by
  refine ⟨?_, ?_, ?_⟩
  · intro v op i hm
    rw [huses]
    rw [husers] at hm
    exact c.users_uses v op i hm
  · intro op i v hu
    rw [husers]
    rw [huses] at hu
    exact c.uses_users op i v hu
  · intro v
    simp only [Heap.userKeys, husers]
    exact c.keys v

theorem Heap.useDefConsistent_nil : Heap.UseDefConsistent [] := by
  refine ⟨?_, ?_, ?_⟩
  · intro v op i hm
    simp [Heap.users, Heap.read] at hm
  · intro op i v hu
    simp [Heap.uses, Heap.read] at hu
  · intro v
    simp [Heap.userKeys, Heap.users, Heap.read]

theorem Heap.users_of_dead {h : Heap} {x : Nat} (hx : h.read x = none) : h.users x = [] := by
  simp [Heap.users, hx]

/-- In a consistent heap nothing refers to a dead address. -/
theorem Heap.UseDefConsistent.dead {h : Heap} (c : h.UseDefConsistent) {x : Nat}
    (hx : h.read x = none) :
    (∀ v, x ∉ h.userKeys v) ∧ (∀ op, x ∉ h.uses op) := by
  constructor
  · intro v hk
    simp only [Heap.userKeys, List.mem_map] at hk
    obtain ⟨⟨op, i⟩, hm, rfl⟩ := hk
    have := c.users_uses v op i hm
    simp [Heap.uses_of_dead hx] at this
  · intro op hm
    obtain ⟨i, hi⟩ := List.getElem?_of_mem hm
    have := c.uses_users op i x hi
    simp [Heap.users_of_dead hx] at this

/-- The construction of an action over live operands keeps the heap
consistent. -/
theorem Heap.UseDefConsistent.construct {h : Heap} (c : h.UseDefConsistent) (kind : ActionKind)
    (type : Nat) (ak : Option AllocationKind) (us : List (Option Nat)) (h1 : Heap)
    (hok : Heap.pushUses (h.newAction kind type ak).1 h.length us = .ok h1)
    (hlive : ∀ v, some v ∈ us → (h.read v).isSome) : h1.UseDefConsistent := by
  obtain ⟨vs, _, hfresh, huses, husers, _, huother, _, hupush, hukeep⟩ :=
    Heap.construct_of_ok h kind type ak us h1 hok hlive
  obtain ⟨hnokey, hnouse⟩ := c.dead (Heap.read_length h)
  have hthis_uses : h.uses h.length = [] := Heap.uses_of_dead (Heap.read_length h)
  have hne : ∀ v ∈ vs, v ≠ h.length := by
    intro v hv
    obtain ⟨o, ho⟩ := Option.isSome_iff_exists.mp (hfresh.2 v hv).1
    exact Nat.ne_of_lt (Heap.read_lt ho)
  -- the users of a value after the construction
  have husers_cases : ∀ v, v ≠ h.length →
      (h1.users v = h.users v ∧ v ∉ vs) ∨
      (∃ j, vs[j]? = some v ∧ h1.users v = h.users v ++ [(h.length, j)]) := by
    intro v hv
    by_cases hmem : v ∈ vs
    · obtain ⟨j, hj⟩ := List.getElem?_of_mem hmem
      exact Or.inr ⟨j, hj, hupush j v hj⟩
    · exact Or.inl ⟨hukeep v hv hmem, hmem⟩
  refine ⟨?_, ?_, ?_⟩
  · intro v op i hm
    by_cases hv : v = h.length
    · subst hv
      rw [husers] at hm
      cases hm
    · have hold : (op, i) ∈ h.users v → (h1.uses op)[i]? = some v := by
        intro hm0
        have h0 := c.users_uses v op i hm0
        have hop : op ≠ h.length := by
          intro hc
          subst hc
          rw [hthis_uses] at h0
          simp at h0
        rw [huother op hop]
        exact h0
      rcases husers_cases v hv with ⟨heq, _⟩ | ⟨j, hj, heq⟩
      · rw [heq] at hm
        exact hold hm
      · rw [heq, List.mem_append] at hm
        rcases hm with hm | hm
        · exact hold hm
        · simp only [List.mem_singleton, Prod.mk.injEq] at hm
          obtain ⟨rfl, rfl⟩ := hm
          rw [huses]
          exact hj
  · intro op i v hu
    by_cases hop : op = h.length
    · subst hop
      rw [huses] at hu
      rw [hupush i v hu]
      simp
    · rw [huother op hop] at hu
      have hm0 := c.uses_users op i v hu
      have hv : v ≠ h.length := by
        intro hc
        subst hc
        exact hnouse op (List.getElem?_mem hu)
      rcases husers_cases v hv with ⟨heq, _⟩ | ⟨j, _, heq⟩
      · rw [heq]
        exact hm0
      · rw [heq]
        exact List.mem_append_left _ hm0
  · intro v
    by_cases hv : v = h.length
    · subst hv
      simp [Heap.userKeys, husers]
    · rcases husers_cases v hv with ⟨heq, _⟩ | ⟨j, _, heq⟩
      · simp only [Heap.userKeys, heq]
        exact c.keys v
      · simp only [Heap.userKeys, heq, List.map_append, List.map_cons, List.map_nil]
        rw [List.nodup_append]
        refine ⟨c.keys v, List.nodup_singleton _, ?_⟩
        intro k hk hk2
        simp only [List.mem_singleton] at hk2
        subst hk2
        exact hnokey v hk
namespace Heap

theorem replaceOneUse_inv {h h2 : Heap} {value : Nat} {e : Nat × Nat}
    (hok : replaceOneUse value h e = .ok h2) :
    (∃ t k ak n, h.shape e.1 = some (t, some (k, ak, n)) ∧ e.2 < n) ∧
      (∃ s, h.shape value = some s) ∧ e.1 ∉ h.userKeys value ∧
      (∀ x, h2.users x = if x = value then h.users value ++ [e] else h.users x) ∧
      (∀ x, h2.shape x = h.shape x) := by
  unfold replaceOneUse at hok
  cases hr : replaceUse h e.1 e.2 value with
  | error v => simp [hr] at hok
  | ok h1 =>
    simp only [hr] at hok
    obtain ⟨t, k, ak, n, hshape, hlt⟩ := replaceUse_inv hr
    obtain ⟨h1', hr1, hus1, _, hsh1⟩ := replaceUse_spec value hshape hlt
    rw [hr] at hr1
    cases hr1
    obtain ⟨ov, hov, hnew⟩ := addUser_inv hok
    obtain ⟨h2', hr2, hus2, _, hsh2⟩ := addUser_spec e.2 hov hnew
    rw [hok] at hr2
    cases hr2
    obtain ⟨s, hs⟩ := isSome_shape hov
    refine ⟨⟨t, k, ak, n, hshape, hlt⟩, ⟨s, by rw [← hsh1, hs]⟩, ?_, ?_, ?_⟩
    · simpa [userKeys, hus1] using hnew
    · intro x
      rw [hus2, hus1]
      by_cases hx : x = value
      · subst hx
        simp [hus1]
      · simp [hx, hus1]
    · intro x
      rw [hsh2, hsh1]

/-- A loop of `replaceAllUsesWith` that ran through: every entry named a live
action with the slot in range that the new value did not record, and the new
value was alive if there was an entry. -/
theorem replaceLoop_inv (value : Nat) (es : List (Nat × Nat)) (h h3 : Heap)
    (hok : es.foldlM (replaceOneUse value) h = .ok h3) :
    (∀ e ∈ es, (∃ t k ak n, h.shape e.1 = some (t, some (k, ak, n)) ∧ e.2 < n) ∧
      e.1 ∉ h.userKeys value) ∧
    (es ≠ [] → ∃ s, h.shape value = some s) := by
  induction es generalizing h with
  | nil => simp
  | cons e es ih =>
    rw [List.foldlM_cons] at hok
    cases hstep : replaceOneUse value h e with
    | error v =>
      rw [hstep] at hok
      cases hok
    | ok h2 =>
      rw [hstep] at hok
      have hok2 : es.foldlM (replaceOneUse value) h2 = .ok h3 := hok
      obtain ⟨hact, hlive, hnew, hus2, hsh2⟩ := replaceOneUse_inv hstep
      obtain ⟨hall, _⟩ := ih h2 hok2
      refine ⟨?_, fun _ => hlive⟩
      intro e2 he2
      rcases List.mem_cons.mp he2 with rfl | he2
      · exact ⟨hact, hnew⟩
      · obtain ⟨⟨t, k, ak, n, hs, hlt⟩, hk⟩ := hall e2 he2
        refine ⟨⟨t, k, ak, n, by rw [← hsh2, hs], hlt⟩, ?_⟩
        intro hc
        apply hk
        simp only [userKeys, hus2, if_true, List.map_append, List.mem_append]
        exact Or.inl hc

/-- The state after a call `replaceAllUsesWith` that succeeded on a value whose
user map has no key twice. -/
theorem replaceAllUsesWith_post {h h1 : Heap} {a b : Nat} (hnd : (h.userKeys a).Nodup)
    (hok : h.replaceAllUsesWith a b = .ok h1) :
    (∀ x, h1.users x =
      if x = a then [] else if x = b then h.users b ++ h.users a else h.users x) ∧
    (∀ e ∈ h.users a, (h1.uses e.1)[e.2]? = some b) ∧
    (∀ x i, (x, i) ∉ h.users a → (h1.uses x)[i]? = (h.uses x)[i]?) ∧
    (∀ x, h1.shape x = h.shape x) ∧
    (∀ e ∈ h.users a, e.1 ∉ h.userKeys b) := by
  unfold replaceAllUsesWith at hok
  cases ha : h.read a with
  | none => simp [ha] at hok
  | some oa =>
    simp only [ha] at hok
    have husers : h.users a = oa.m_users := by simp [users, ha]
    cases hloop : oa.m_users.foldlM (replaceOneUse b) h with
    | error v => simp [hloop] at hok
    | ok h3 =>
      simp only [hloop] at hok
      cases h3a : h3.read a with
      | none => simp [h3a] at hok
      | some o3 =>
        simp only [h3a, Except.ok.injEq] at hok
        subst hok
        rw [← husers] at hloop
        obtain ⟨hall, hlive⟩ := replaceLoop_inv b _ h h3 hloop
        by_cases hempty : h.users a = []
        · rw [hempty] at hloop
          simp only [List.foldlM_nil, pure, Except.pure, Except.ok.injEq] at hloop
          subst hloop
          refine ⟨?_, ?_, ?_, ?_, ?_⟩
          · intro x
            rw [users_set h3a]
            by_cases hx : x = a
            · simp [hx]
            · by_cases hxb : x = b
              · simp [hx, hxb, hempty]
              · simp [hx, hxb]
          · simp [hempty]
          · intro x i _
            rw [uses_set_users h3a]
          · intro x
            rw [shape_set_users h3a]
          · simp [hempty]
        · obtain ⟨h3', hr3, hus3, hget3, _, hslot3, hsh3⟩ :=
            replaceLoop_spec b (h.users a) h (hlive hempty) (fun e he => (hall e he).1) hnd
              (fun e he => (hall e he).2)
          rw [hloop] at hr3
          cases hr3
          have hab : a ≠ b := by
            rintro rfl
            obtain ⟨e, he⟩ := List.exists_mem_of_ne_nil _ hempty
            exact (hall e he).2 (List.mem_map_of_mem Prod.fst he)
          refine ⟨?_, ?_, ?_, ?_, fun e he => (hall e he).2⟩
          · intro x
            rw [users_set h3a, hus3]
          · intro e he
            rw [uses_set_users h3a]
            exact hget3 e he
          · intro x i hxi
            rw [uses_set_users h3a]
            exact hslot3 x i (fun e he hc => hxi (hc ▸ he))
          · intro x
            rw [shape_set_users h3a, hsh3]

end Heap
/-- A successful `replaceAllUsesWith` keeps the heap consistent. -/
theorem Heap.UseDefConsistent.replaceAllUsesWith {h h1 : Heap} (c : h.UseDefConsistent)
    {a b : Nat} (hok : h.replaceAllUsesWith a b = .ok h1) : h1.UseDefConsistent := by
  obtain ⟨husers, hget, hslot, _, hdisj⟩ := Heap.replaceAllUsesWith_post (c.keys a) hok
  have hab : ∀ e ∈ h.users a, a ≠ b := by
    rintro e he rfl
    exact hdisj e he (List.mem_map_of_mem Prod.fst he)
  have hkeep : ∀ v op i, v ≠ a → (op, i) ∈ h.users v → (h1.uses op)[i]? = some v := by
    intro v op i hva hm
    have h0 := c.users_uses v op i hm
    rw [hslot op i]
    · exact h0
    · intro hma
      have h2 := c.users_uses a op i hma
      rw [h0] at h2
      exact hva (Option.some.inj h2)
  refine ⟨?_, ?_, ?_⟩
  · intro v op i hm
    rw [husers] at hm
    by_cases hva : v = a
    · simp [hva] at hm
    · by_cases hvb : v = b
      · subst hvb
        simp only [if_neg hva, if_true, List.mem_append] at hm
        rcases hm with hm | hm
        · exact hkeep v op i hva hm
        · exact hget (op, i) hm
      · simp only [if_neg hva, if_neg hvb] at hm
        exact hkeep v op i hva hm
  · intro op i v hu
    by_cases hm : (op, i) ∈ h.users a
    · have hb := hget (op, i) hm
      simp only at hb
      rw [hu] at hb
      have hvb : v = b := Option.some.inj hb
      subst hvb
      have hne : v ≠ a := fun hc => hab _ hm hc.symm
      rw [husers, if_neg hne, if_pos rfl]
      exact List.mem_append_right _ hm
    · rw [hslot op i hm] at hu
      have hm0 := c.uses_users op i v hu
      have hva : v ≠ a := by
        rintro rfl
        exact hm hm0
      rw [husers, if_neg hva]
      by_cases hvb : v = b
      · rw [if_pos hvb]
        subst hvb
        exact List.mem_append_left _ hm0
      · rw [if_neg hvb]
        exact hm0
  · intro v
    simp only [Heap.userKeys, husers]
    by_cases hva : v = a
    · simp [hva]
    · by_cases hvb : v = b
      · subst hvb
        simp only [if_neg hva, if_true, List.map_append]
        rw [List.nodup_append]
        refine ⟨c.keys v, c.keys a, ?_⟩
        intro k hk hk2
        simp only [List.mem_map] at hk2
        obtain ⟨e, he, rfl⟩ := hk2
        exact hdisj e he hk
      · simp only [if_neg hva, if_neg hvb]
        exact c.keys v

theorem Heap.destroyAction_inv {h h2 : Heap} {this : Nat} (hok : h.destroyAction this = .ok h2) :
    ∃ t k ak n, h.shape this = some (t, some (k, ak, n)) := by
  unfold Heap.destroyAction at hok
  cases hr : h.read this with
  | none => simp [Heap.derefAction, hr] at hok
  | some o =>
    cases hd : o.derived with
    | nullConstant => simp [Heap.derefAction, hr, hd] at hok
    | action a =>
      exact ⟨o.m_type, a.m_kind, a.allocationKind, a.m_uses.length, by simp [Heap.shape, hr, hd]⟩

theorem Heap.UseDefConsistent.live_operand {h : Heap} (c : h.UseDefConsistent) {op v : Nat}
    (hv : v ∈ h.uses op) : (h.read v).isSome := by
  obtain ⟨i, hi⟩ := List.getElem?_of_mem hv
  have hm := c.uses_users op i v hi
  cases hr : h.read v with
  | none => simp [Heap.users, hr] at hm
  | some o => rfl

/-- A successful destruction of an action keeps the heap consistent. -/
theorem Heap.UseDefConsistent.destroyAction {h h2 : Heap} (c : h.UseDefConsistent)
    {op : Nat} (hok : h.destroyAction op = .ok h2) : h2.UseDefConsistent := by
  obtain ⟨t, k, ak, n, hshape⟩ := Heap.destroyAction_inv hok
  obtain ⟨hfail, hsucc⟩ := Heap.destroyAction_cases hshape (fun v hv => c.live_operand hv)
  have hnil : h.usersAtDestruction op = [] := by
    by_contra hne
    rw [hfail hne] at hok
    cases hok
  obtain ⟨h2', hr2, _, husers, huses, _, husers_op, huses_op, _⟩ := hsucc hnil
  rw [hok] at hr2
  cases hr2
  -- every user that the action records is the action itself, as its own operand
  have hself : ∀ k i, (k, i) ∈ h.users op → k = op := by
    intro k i hm
    by_contra hne
    unfold Heap.usersAtDestruction at hnil
    split at hnil
    · have : (k, i) ∈ (h.users op).filter (fun e => e.1 != op) := by
        rw [List.mem_filter]
        exact ⟨hm, by simpa using hne⟩
      rw [hnil] at this
      cases this
    · rw [hnil] at hm
      cases hm
  have hsub : ∀ x, x ≠ op → ∀ e, e ∈ h2.users x → e ∈ h.users x ∧ (x ∈ h.uses op → e.1 ≠ op) := by
    intro x hx e he
    rw [husers x hx] at he
    by_cases hxu : x ∈ h.uses op
    · rw [if_pos hxu, List.mem_filter] at he
      exact ⟨he.1, fun _ => by simpa using he.2⟩
    · rw [if_neg hxu] at he
      exact ⟨he, fun hc => absurd hc hxu⟩
  refine ⟨?_, ?_, ?_⟩
  · intro v k i hm
    by_cases hv : v = op
    · subst hv
      rw [husers_op] at hm
      cases hm
    · obtain ⟨hm0, hkey⟩ := hsub v hv (k, i) hm
      have h0 := c.users_uses v k i hm0
      have hk : k ≠ op := by
        rintro rfl
        exact hkey (List.getElem?_mem h0) rfl
      rw [huses k hk]
      exact h0
  · intro k i v hu
    have hk : k ≠ op := by
      rintro rfl
      rw [huses_op] at hu
      simp at hu
    rw [huses k hk] at hu
    have hm0 := c.uses_users k i v hu
    have hv : v ≠ op := by
      rintro rfl
      exact hk (hself k i hm0)
    rw [husers v hv]
    by_cases hvu : v ∈ h.uses op
    · rw [if_pos hvu, List.mem_filter]
      exact ⟨hm0, by simpa using hk⟩
    · rw [if_neg hvu]
      exact hm0
  · intro v
    by_cases hv : v = op
    · subst hv
      simp [Heap.userKeys, husers_op]
    · simp only [Heap.userKeys, husers v hv]
      by_cases hvu : v ∈ h.uses op
      · rw [if_pos hvu]
        exact (c.keys v).sublist ((List.filter_sublist _).map Prod.fst)
      · rw [if_neg hvu]
        exact c.keys v

/-- A request to the constant pool changes no user map and no operand list. -/
theorem ConstantPool.get_heap {env : StdEnv} {h h1 : Heap} {pool cp : ConstantPool}
    {tp tp1 : TypePool} {c : Nat} (hok : ConstantPool.get env h pool tp = .ok (h1, cp, tp1, c)) :
    (∀ x, h1.users x = h.users x) ∧ (∀ x, h1.uses x = h.uses x) := by
  have hdead : h.read h.length = none := Heap.read_length h
  have key : ∀ (o : Option Value),
      (∀ v, o = some v → v.m_users = [] ∧ v.derived = .nullConstant) →
      (∀ x, Heap.users (h ++ [o]) x = h.users x) ∧ (∀ x, Heap.uses (h ++ [o]) x = h.uses x) := by
    intro o ho
    constructor
    · intro x
      by_cases hx : x = h.length
      · subst hx
        cases o with
        | none => simp [Heap.users, Heap.read_append_length, hdead]
        | some v => simp [Heap.users, Heap.read_append_length, hdead, (ho v rfl).1]
      · exact Heap.users_append_ne h o hx
    · intro x
      by_cases hx : x = h.length
      · subst hx
        cases o with
        | none => simp [Heap.uses, Heap.read_append_length, hdead]
        | some v => simp [Heap.uses, Heap.read_append_length, hdead, (ho v rfl).2]
      · exact Heap.uses_append_ne h o hx
  unfold ConstantPool.get at hok
  cases hg : TypePool.get env tp .NullType with
  | error e => simp [hg] at hok
  | ok res =>
    obtain ⟨tp2, type⟩ := res
    simp only [hg, Heap.alloc] at hok
    cases hf : internFind env Constant.hash Constant.equal pool h.length with
    | none =>
      simp only [hf, Except.ok.injEq, Prod.mk.injEq] at hok
      obtain ⟨rfl, _⟩ := hok
      exact key _ (by rintro v hv; cases hv; exact ⟨rfl, rfl⟩)
    | some found =>
      simp only [hf] at hok
      cases hp : pool[found]? with
      | none => simp [hp] at hok
      | some c0 =>
        simp only [hp, Except.ok.injEq, Prod.mk.injEq] at hok
        obtain ⟨rfl, _⟩ := hok
        have hset : (h ++ [some (Value.mk type [] .nullConstant)]).set h.length none =
            h ++ [none] := by
          simp
        rw [hset]
        exact key none (by intro v hv; cases hv)
theorem Graph.erase_inv {m m1 : Memory} {g g1 : Graph} {a : Nat}
    (hok : Graph.erase m g a = .ok (m1, g1)) : m.heap.destroyAction a = .ok m1.heap := by
  unfold Graph.erase at hok
  cases hu : IList.unlink m.nodes g.list a with
  | error e => simp [hu, bind, Except.bind] at hok
  | ok res =>
    obtain ⟨nodes1, l1⟩ := res
    cases hd : m.heap.destroyAction a with
    | error e => simp [hu, hd, bind, Except.bind] at hok
    | ok h2 =>
      simp only [hu, hd, bind, Except.bind, pure, Except.pure, Except.ok.injEq,
        Prod.mk.injEq] at hok
      rw [← hok.1]

/-- Every successful call keeps the heap consistent. -/
theorem Graph.step_consistent {env : StdEnv} {s s1 : Memory × Graph}
    (hstep : Graph.Step env s s1) (c : s.1.heap.UseDefConsistent) :
    s1.1.heap.UseDefConsistent := by
  cases hstep with
  | typeGet m g d tp1 r _ => exact c
  | constantGet m g h1 cp tp1 k hok =>
    obtain ⟨husers, huses⟩ := ConstantPool.get_heap hok
    exact c.congr husers huses
  | allocation m g type h1 this hok =>
    simp only [Heap.Allocation, Except.ok.injEq] at hok
    have hh : h1 = (m.heap.newAction .Allocation type (some .Static)).1 := by rw [hok]
    subst hh
    exact c.construct .Allocation type (some .Static) [] _ rfl (by simp)
  | allocationDynamic m g type use h1 this hlive hok =>
    simp only [Heap.AllocationDynamic] at hok
    cases hp : Heap.pushUses (m.heap.newAction .Allocation type (some .Dynamic)).1
        (m.heap.newAction .Allocation type (some .Dynamic)).2 [some use] with
    | error e => simp [hp] at hok
    | ok h2 =>
      simp only [hp, Except.ok.injEq, Prod.mk.injEq] at hok
      obtain ⟨rfl, _⟩ := hok
      exact c.construct .Allocation type (some .Dynamic) [some use] _ hp (by
        intro v hv
        simp only [List.mem_singleton, Option.some.injEq] at hv
        subst hv
        exact hlive)
  | composition m g type uses h1 this hlive hok =>
    simp only [Heap.Composition] at hok
    cases hp : Heap.pushUses (m.heap.newAction .Composition type none).1
        (m.heap.newAction .Composition type none).2 (uses.map some) with
    | error e => simp [hp] at hok
    | ok h2 =>
      simp only [hp, Except.ok.injEq, Prod.mk.injEq] at hok
      obtain ⟨rfl, _⟩ := hok
      exact c.construct .Composition type none (uses.map some) _ hp (by
        intro v hv
        simp only [List.mem_map, Option.some.injEq, exists_eq_right] at hv
        exact hlive v hv)
  | realAction m g useDef use h1 this hlive hok =>
    cases ht : m.heap.type useDef with
    | none => simp [Heap.RealAction, ht] at hok
    | some t =>
      have hud : (m.heap.read useDef).isSome := by
        cases hr : m.heap.read useDef <;> simp [Heap.type, hr] at ht ⊢
      simp only [Heap.RealAction, Option.bind, ht] at hok
      cases hp : Heap.pushUses (m.heap.newAction .RealAction t none).1
          (m.heap.newAction .RealAction t none).2 [some useDef, some use] with
      | error e => simp [hp] at hok
      | ok h2 =>
        simp only [hp, Except.ok.injEq, Prod.mk.injEq] at hok
        obtain ⟨rfl, _⟩ := hok
        exact c.construct .RealAction t none [some useDef, some use] _ hp (by
          intro v hv
          simp only [List.mem_cons, Option.some.injEq, List.mem_singleton, List.not_mem_nil,
            or_false] at hv
          rcases hv with rfl | rfl <;> assumption)
  | terminator m g use h1 tp1 this hlive hok =>
    simp only [Heap.Terminator] at hok
    cases hg : TypePool.get env g.m_types .NullType with
    | error e => simp [hg] at hok
    | ok res =>
      obtain ⟨tp2, t⟩ := res
      simp only [hg] at hok
      cases hp : Heap.pushUses (m.heap.newAction .Terminator t none).1
          (m.heap.newAction .Terminator t none).2 [some use] with
      | error e => simp [hp] at hok
      | ok h2 =>
        simp only [hp, Except.ok.injEq, Prod.mk.injEq] at hok
        obtain ⟨rfl, _⟩ := hok
        exact c.construct .Terminator t none [some use] _ hp (by
          intro v hv
          simp only [List.mem_singleton, Option.some.injEq] at hv
          subst hv
          exact hlive)
  | insertAfter m g node after nodes1 l1 _ => exact c
  | insertBefore m g node before nodes1 l1 _ => exact c
  | replaceAllUsesWith m g a b h1 hok => exact c.replaceAllUsesWith hok
  | erase m g a m1 g1 hok => exact c.destroyAction (Graph.erase_inv hok)

theorem Graph.reachable_consistent {env : StdEnv} {s : Memory × Graph}
    (hreach : Graph.Reachable env s) : s.1.heap.UseDefConsistent := by
  induction hreach with
  | init => exact Heap.useDefConsistent_nil
  | step s s1 _ hstep ih => exact Graph.step_consistent hstep ih

/-- C18. In every state reached from the empty free store and the empty graph
by successful calls of the type pool, the constant pool, the constructors of
the actions over live values, `insertAfter`, `insertBefore` (and so
`push_back`, `push_front`), `replaceAllUsesWith` and `erase`, for every value
`v`, operation `op` and slot `i`: the user map of `v` holds the entry of `op`
and `i` if and only if the operand of `op` at slot `i` is `v`; and the user map
of `v` has no key twice, so it maps `op` to `i` alone. A dead object has no
operands and records no users, so the two sides are false for it. -/
theorem C18_use_def_consistency_is_invariant (env : StdEnv) (s : Memory × Graph)
    (hreach : Graph.Reachable env s) :
    (∀ v op i : Nat, (op, i) ∈ s.1.heap.users v ↔ (s.1.heap.uses op)[i]? = some v) ∧
    (∀ v, (s.1.heap.userKeys v).Nodup) ∧
    (∀ v op i : Nat, (s.1.heap.uses op)[i]? = some v →
      s.1.heap.isAction op = true ∧ (s.1.heap.read v).isSome) := by
  have c := Graph.reachable_consistent hreach
  refine ⟨fun v op i => ⟨c.users_uses v op i, c.uses_users op i v⟩, c.keys, ?_⟩
  intro v op i hu
  refine ⟨?_, c.live_operand (List.getElem?_mem hu)⟩
  cases hr : s.1.heap.read op with
  | none => simp [Heap.uses, hr] at hu
  | some o =>
    cases hd : o.derived with
    | nullConstant => simp [Heap.uses, hr, hd] at hu
    | action a => simp [Heap.isAction, hr, hd]
/-- Witness for C18: the state `selfUseMemory`, `selfUseGraph` is reached by a
request for `BufferType(Device, 4, 4)`, `a1 = Allocation`,
`a2 = Composition(a1)`, two `push_back` calls and `a1.replaceAllUsesWith(a2)`;
there `a2` records itself at slot 0 and has itself as operand 0. -/
theorem C18_use_def_consistency_is_invariant_witness :
    Graph.Reachable StdEnv.sample (selfUseMemory, selfUseGraph) ∧
    (∀ v op i : Nat, (op, i) ∈ selfUseMemory.heap.users v ↔
      (selfUseMemory.heap.uses op)[i]? = some v) ∧
    selfUseMemory.heap.users 1 = [(1, 0)] := by
  have r0 : Graph.Reachable StdEnv.sample (⟨[], []⟩, ⟨IList.init, [], []⟩) :=
    Graph.Reachable.init
  have r1 : Graph.Reachable StdEnv.sample
      (⟨[], []⟩, ⟨IList.init, [], [.BufferType .Device 4 4]⟩) :=
    Graph.Reachable.step _ _ r0
      (Graph.Step.typeGet ⟨[], []⟩ ⟨IList.init, [], []⟩ (.BufferType .Device 4 4)
        [.BufferType .Device 4 4] 0 (by decide))
  have r2 : Graph.Reachable StdEnv.sample
      (⟨[some ⟨none, none⟩], [some ⟨0, [], .action ⟨[], .Allocation, some .Static⟩⟩]⟩,
        ⟨IList.init, [], [.BufferType .Device 4 4]⟩) :=
    Graph.Reachable.step _ _ r1
      (Graph.Step.allocation ⟨[], []⟩ ⟨IList.init, [], [.BufferType .Device 4 4]⟩ 0
        [some ⟨0, [], .action ⟨[], .Allocation, some .Static⟩⟩] 0 (by decide))
  have r3 : Graph.Reachable StdEnv.sample
      (⟨[some ⟨none, none⟩, some ⟨none, none⟩],
        [some ⟨0, [(1, 0)], .action ⟨[], .Allocation, some .Static⟩⟩,
          some ⟨0, [], .action ⟨[0], .Composition, none⟩⟩]⟩,
        ⟨IList.init, [], [.BufferType .Device 4 4]⟩) :=
    Graph.Reachable.step _ _ r2
      (Graph.Step.composition
        ⟨[some ⟨none, none⟩], [some ⟨0, [], .action ⟨[], .Allocation, some .Static⟩⟩]⟩
        ⟨IList.init, [], [.BufferType .Device 4 4]⟩ 0 [0]
        [some ⟨0, [(1, 0)], .action ⟨[], .Allocation, some .Static⟩⟩,
          some ⟨0, [], .action ⟨[0], .Composition, none⟩⟩] 1 (by decide) (by decide))
  have r4 : Graph.Reachable StdEnv.sample
      (⟨[some ⟨none, none⟩, some ⟨none, none⟩],
        [some ⟨0, [(1, 0)], .action ⟨[], .Allocation, some .Static⟩⟩,
          some ⟨0, [], .action ⟨[0], .Composition, none⟩⟩]⟩,
        ⟨⟨some 0, some 0, [0]⟩, [], [.BufferType .Device 4 4]⟩) :=
    Graph.Reachable.step _ _ r3
      (Graph.Step.insertAfter
        ⟨[some ⟨none, none⟩, some ⟨none, none⟩],
          [some ⟨0, [(1, 0)], .action ⟨[], .Allocation, some .Static⟩⟩,
            some ⟨0, [], .action ⟨[0], .Composition, none⟩⟩]⟩
        ⟨IList.init, [], [.BufferType .Device 4 4]⟩ (some 0) none
        [some ⟨none, none⟩, some ⟨none, none⟩] ⟨some 0, some 0, [0]⟩ (by decide))
  have r5 : Graph.Reachable StdEnv.sample
      (⟨[some ⟨none, some 1⟩, some ⟨some 0, none⟩],
        [some ⟨0, [(1, 0)], .action ⟨[], .Allocation, some .Static⟩⟩,
          some ⟨0, [], .action ⟨[0], .Composition, none⟩⟩]⟩,
        ⟨⟨some 0, some 1, [0, 1]⟩, [], [.BufferType .Device 4 4]⟩) :=
    Graph.Reachable.step _ _ r4
      (Graph.Step.insertAfter
        ⟨[some ⟨none, none⟩, some ⟨none, none⟩],
          [some ⟨0, [(1, 0)], .action ⟨[], .Allocation, some .Static⟩⟩,
            some ⟨0, [], .action ⟨[0], .Composition, none⟩⟩]⟩
        ⟨⟨some 0, some 0, [0]⟩, [], [.BufferType .Device 4 4]⟩ (some 1) (some 0)
        [some ⟨none, some 1⟩, some ⟨some 0, none⟩] ⟨some 0, some 1, [0, 1]⟩ (by decide))
  have r6 : Graph.Reachable StdEnv.sample (selfUseMemory, selfUseGraph) :=
    Graph.Reachable.step _ _ r5
      (Graph.Step.replaceAllUsesWith
        ⟨[some ⟨none, some 1⟩, some ⟨some 0, none⟩],
          [some ⟨0, [(1, 0)], .action ⟨[], .Allocation, some .Static⟩⟩,
            some ⟨0, [], .action ⟨[0], .Composition, none⟩⟩]⟩
        ⟨⟨some 0, some 1, [0, 1]⟩, [], [.BufferType .Device 4 4]⟩ 0 1
        [some ⟨0, [], .action ⟨[], .Allocation, some .Static⟩⟩,
          some ⟨0, [(1, 0)], .action ⟨[1], .Composition, none⟩⟩] (by decide))
  exact ⟨r6, (C18_use_def_consistency_is_invariant StdEnv.sample _ r6).1, by decide⟩
/-! ## Equality and hash of the type descriptors as relations -/

/-- The function `Type::equal` gives the same answer in both directions for
every pair of descriptors but a plain `ImageType` paired with a
`ScreenBufferImage` or a `TiedToScreenBufferImage`. -/
theorem TypeDesc.equal_comm_or (t1 t2 : TypeDesc) :
    t1.equal t2 = t2.equal t1 ∨
    (t1.concreteKind = .ImageType ∧
      (t2.concreteKind = .ScreenBufferImage ∨ t2.concreteKind = .TiedToScreenBufferImage)) ∨
    (t2.concreteKind = .ImageType ∧
      (t1.concreteKind = .ScreenBufferImage ∨ t1.concreteKind = .TiedToScreenBufferImage)) := by
  cases t1 <;> cases t2 <;>
    first
    | exact Or.inl rfl
    | exact Or.inr (Or.inl ⟨rfl, Or.inl rfl⟩)
    | exact Or.inr (Or.inl ⟨rfl, Or.inr rfl⟩)
    | exact Or.inr (Or.inr ⟨rfl, Or.inl rfl⟩)
    | exact Or.inr (Or.inr ⟨rfl, Or.inr rfl⟩)
    | (left
       rw [Bool.eq_iff_iff]
       simp only [TypeDesc.equal, TypeDesc.imageEqual, TypeDesc.asImageType,
         ImageType.equalFields, Bool.and_eq_true, beq_iff_eq, Bool.not_eq_true',
         Bool.false_eq_true, if_false_left, ite_eq_left_iff]
       try (constructor <;> intro h <;> simp_all))

/-- Descriptors that `Type::equal` accepts have the same hash, but for a plain
`ImageType` as receiver that accepts a `ScreenBufferImage` or a
`TiedToScreenBufferImage`. -/
theorem TypeDesc.hash_eq_or (env : StdEnv) (t1 t2 : TypeDesc) :
    t1.equal t2 = false ∨ TypeDesc.hash env t1 = TypeDesc.hash env t2 ∨
    (t1.concreteKind = .ImageType ∧
      (t2.concreteKind = .ScreenBufferImage ∨ t2.concreteKind = .TiedToScreenBufferImage)) := by
  by_cases h : t1.equal t2 = true
  · right
    cases t1 <;> cases t2 <;>
      first
      | exact Or.inr ⟨rfl, Or.inl rfl⟩
      | exact Or.inr ⟨rfl, Or.inr rfl⟩
      | (left
         simp only [TypeDesc.equal, TypeDesc.imageEqual, TypeDesc.asImageType,
           ImageType.equalFields, Bool.and_eq_true, beq_iff_eq, Bool.not_eq_true',
           Bool.false_eq_true, if_false_left, ite_eq_left_iff] at h
         try simp_all [TypeDesc.hash])
  · left
    simpa using h
/-- C22. The function `Type::equal` is not symmetric: a plain
`ImageType(ScreenBuffer, Auto, Auto)` as receiver accepts `ScreenBufferImage(0)`,
since the `dynamic_cast<ImageType *>` succeeds on the derived class and the
`ImageType` members agree, while `ScreenBufferImage(0)` as receiver rejects the
plain `ImageType`; the same holds for a plain
`ImageType(TiedToScreenBuffer, pf, Auto)` and `TiedToScreenBufferImage(pf, 0)`.
With `std::hash` the identity, interning depends on the order: after
`get<ScreenBufferImage>(0)` the request for the plain `ImageType` returns the
reference of the `ScreenBufferImage` and stores nothing, while after the
request for the plain `ImageType` the request `get<ScreenBufferImage>(0)`
stores a second descriptor. Every other pair of descriptors gets the same
answer in both directions. -/
theorem C22_equal_is_not_symmetric :
    (TypeDesc.ImageType .ScreenBuffer .Auto .Auto 1 0 0 0).equal (.ScreenBufferImage 0) = true ∧
    (TypeDesc.ScreenBufferImage 0).equal (.ImageType .ScreenBuffer .Auto .Auto 1 0 0 0) = false ∧
    (TypeDesc.ImageType .TiedToScreenBuffer (.listed 3) .Auto 1 0 0 0).equal
      (.TiedToScreenBufferImage (.listed 3) 0) = true ∧
    (TypeDesc.TiedToScreenBufferImage (.listed 3) 0).equal
      (.ImageType .TiedToScreenBuffer (.listed 3) .Auto 1 0 0 0) = false ∧
    (∃ p1 r1 p2 r2,
      TypePool.get StdEnv.sample [] (.ScreenBufferImage 0) = .ok (p1, r1) ∧
      TypePool.get StdEnv.sample p1 (.ImageType .ScreenBuffer .Auto .Auto 1 0 0 0) =
        .ok (p2, r2) ∧
      r2 = r1 ∧ p2 = [.ScreenBufferImage 0]) ∧
    (∃ p1 r1 p2 r2,
      TypePool.get StdEnv.sample [] (.ImageType .ScreenBuffer .Auto .Auto 1 0 0 0) =
        .ok (p1, r1) ∧
      TypePool.get StdEnv.sample p1 (.ScreenBufferImage 0) = .ok (p2, r2) ∧
      r2 ≠ r1 ∧ p2 = [.ImageType .ScreenBuffer .Auto .Auto 1 0 0 0, .ScreenBufferImage 0]) ∧
    (∀ t1 t2 : TypeDesc, t1.equal t2 = t2.equal t1 ∨
      (t1.concreteKind = .ImageType ∧
        (t2.concreteKind = .ScreenBufferImage ∨
          t2.concreteKind = .TiedToScreenBufferImage)) ∨
      (t2.concreteKind = .ImageType ∧
        (t1.concreteKind = .ScreenBufferImage ∨
          t1.concreteKind = .TiedToScreenBufferImage))) := by
  refine ⟨by decide, by decide, by decide, by decide, ⟨_, _, _, _, rfl, rfl, ?_, ?_⟩,
    ⟨_, _, _, _, rfl, rfl, ?_, ?_⟩, TypeDesc.equal_comm_or⟩ <;> decide

/-- With `std::hash<size_t>` the identity, the hash of `ScreenBufferImage(id)`
is the hash of its `ImageType` part plus `id` in `size_t`, which differs from
the hash of the `ImageType` part for every `id` from 1 to the largest
`size_t`. -/
theorem TypeDesc.hash_screenBuffer_ne (hashUnsigned : Nat → Nat) (pixelFormatAuto : Nat)
    (choose : List Nat → List Nat → Nat) (bucket : Nat → Nat → Nat) (k : Nat) :
    TypeDesc.hash ⟨fun x => x, hashUnsigned, pixelFormatAuto, choose, bucket⟩
        (.ScreenBufferImage (k % (sizeModulus - 1) + 1)) ≠
      TypeDesc.hash ⟨fun x => x, hashUnsigned, pixelFormatAuto, choose, bucket⟩
        (.ImageType .ScreenBuffer .Auto .Auto 1 0 0 0) := by
  have hlt : ∀ (env : StdEnv) (i : rgc.ImageType), rgc.ImageType.hash env i < sizeModulus := by
    intro env i
    unfold rgc.ImageType.hash StdEnv.stdHashSize
    exact Nat.mod_lt _ (by decide)
  have hH := hlt ⟨fun x => x, hashUnsigned, pixelFormatAuto, choose, bucket⟩
    ⟨.ScreenBuffer, .Auto, .Auto, 1, [0, 0, 0]⟩
  simp only [TypeDesc.hash, StdEnv.stdHashSize, sizeAdd]
  generalize rgc.ImageType.hash ⟨fun x => x, hashUnsigned, pixelFormatAuto, choose, bucket⟩
    ⟨.ScreenBuffer, .Auto, .Auto, 1, [0, 0, 0]⟩ = H at hH ⊢
  have hk : k % (sizeModulus - 1) < sizeModulus - 1 := Nat.mod_lt _ (by decide)
  generalize k % (sizeModulus - 1) = j at hk ⊢
  simp only [sizeModulus] at hH hk ⊢
  norm_num at hH hk ⊢
  omega

/-- C23. The hash is not consistent with `Type::equal`: a plain
`ImageType(ScreenBuffer, Auto, Auto)` as receiver accepts `ScreenBufferImage(1)`,
but with `std::hash` the identity the hash of the first is 21 and the hash of
the second, which adds the swap-chain id, is 22; the same holds for a plain
`ImageType(TiedToScreenBuffer, pf, Auto)` and `TiedToScreenBufferImage(pf, 1)`.
Whatever `std::hash<unsigned>` and the value of `PixelFormat::Auto` are, with
`std::hash<size_t>` the identity the two hashes differ for every swap-chain id
from 1 to the largest `size_t`, while `equal` accepts the pair for every id.
For every other pair of descriptors that `equal` accepts, and for every
`std::hash`, the hashes are equal; and two constants that `Constant::equal`
accepts have the same hash. -/
theorem C23_equal_descriptors_with_different_hash :
    (TypeDesc.ImageType .ScreenBuffer .Auto .Auto 1 0 0 0).equal (.ScreenBufferImage 1) = true ∧
    TypeDesc.hash StdEnv.sample (.ImageType .ScreenBuffer .Auto .Auto 1 0 0 0) = 21 ∧
    TypeDesc.hash StdEnv.sample (.ScreenBufferImage 1) = 22 ∧
    (TypeDesc.ImageType .TiedToScreenBuffer (.listed 3) .Auto 1 0 0 0).equal
      (.TiedToScreenBufferImage (.listed 3) 1) = true ∧
    TypeDesc.hash StdEnv.sample (.ImageType .TiedToScreenBuffer (.listed 3) .Auto 1 0 0 0) ≠
      TypeDesc.hash StdEnv.sample (.TiedToScreenBufferImage (.listed 3) 1) ∧
    (∀ (hashUnsigned : Nat → Nat) (pixelFormatAuto : Nat) (choose : List Nat → List Nat → Nat)
      (bucket : Nat → Nat → Nat) (k : Nat),
      (TypeDesc.ImageType .ScreenBuffer .Auto .Auto 1 0 0 0).equal
        (.ScreenBufferImage (k % (sizeModulus - 1) + 1)) = true ∧
      TypeDesc.hash ⟨fun x => x, hashUnsigned, pixelFormatAuto, choose, bucket⟩
          (.ScreenBufferImage (k % (sizeModulus - 1) + 1)) ≠
        TypeDesc.hash ⟨fun x => x, hashUnsigned, pixelFormatAuto, choose, bucket⟩
          (.ImageType .ScreenBuffer .Auto .Auto 1 0 0 0)) ∧
    (∀ (env : StdEnv) (t1 t2 : TypeDesc),
      t1.equal t2 = false ∨ TypeDesc.hash env t1 = TypeDesc.hash env t2 ∨
      (t1.concreteKind = .ImageType ∧
        (t2.concreteKind = .ScreenBufferImage ∨
          t2.concreteKind = .TiedToScreenBufferImage))) ∧
    (∀ c1 c2 : Nat, Constant.equal c1 c2 = false ∨ Constant.hash c1 = Constant.hash c2) := by
  refine ⟨by decide, by decide, by decide, by decide, by decide,
    fun hu pfa ch bk k => ⟨rfl, TypeDesc.hash_screenBuffer_ne hu pfa ch bk k⟩, TypeDesc.hash_eq_or,
    fun _ _ => Or.inr rfl⟩
/-! ## The precondition of replaceAllUsesWith -/

namespace Heap

/-- The loop of `replaceAllUsesWith` over entries that name live actions with
the slot in range stops at the double-insertion assertion when the new value
already records the action of one of the entries. -/
theorem replaceLoop_double (value : Nat) (es : List (Nat × Nat)) (h : Heap)
    (hv : ∃ s, h.shape value = some s)
    (hes : ∀ e ∈ es, ∃ t k ak n, h.shape e.1 = some (t, some (k, ak, n)) ∧ e.2 < n)
    (hcommon : ∃ e ∈ es, e.1 ∈ h.userKeys value) :
    es.foldlM (replaceOneUse value) h = .error .userDoubleInsertion := by
  induction es generalizing h with
  | nil =>
    obtain ⟨e, he, _⟩ := hcommon
    cases he
  | cons e0 rest ih =>
    obtain ⟨s, hs⟩ := hv
    obtain ⟨t, k, ak, n, hshape, hlt⟩ := hes e0 (List.mem_cons_self _ _)
    obtain ⟨h1, hr1, hus1, _, hsh1⟩ := replaceUse_spec value hshape hlt
    obtain ⟨ov, hov, _⟩ := read_of_shape (hs ▸ (hsh1 value) : h1.shape value = some (s.1, s.2))
    by_cases hold : e0.1 ∈ h.userKeys value
    · have hold1 : e0.1 ∈ h1.userKeys value := by simpa [userKeys, hus1] using hold
      have herr := addUser_double e0.2 hov hold1
      have hstep : replaceOneUse value h e0 = .error .userDoubleInsertion := by
        simp [replaceOneUse, hr1, herr]
      rw [List.foldlM_cons, hstep]
      rfl
    · have hnew1 : e0.1 ∉ h1.userKeys value := by simpa [userKeys, hus1] using hold
      obtain ⟨h2, hr2, hus2, _, hsh2⟩ := addUser_spec e0.2 hov hnew1
      have hstep : replaceOneUse value h e0 = .ok h2 := by
        simp [replaceOneUse, hr1, hr2]
      rw [List.foldlM_cons, hstep]
      apply ih h2 ⟨s, by rw [hsh2, hsh1, hs]⟩
      · intro e2 he2
        obtain ⟨t2, k2, ak2, n2, hs2, hlt2⟩ := hes e2 (List.mem_cons_of_mem _ he2)
        exact ⟨t2, k2, ak2, n2, by rw [hsh2, hsh1, hs2], hlt2⟩
      · obtain ⟨e, he, hek⟩ := hcommon
        rcases List.mem_cons.mp he with rfl | he
        · exact absurd hek hold
        · refine ⟨e, he, ?_⟩
          simp only [userKeys, hus2, hus1, if_true, List.map_append, List.mem_append]
          exact Or.inl hek

/-- The call `replaceAllUsesWith` succeeds on a live value whose entries name
live actions with the slot in range, none of them recorded by the live new
value. -/
theorem replaceAllUsesWith_ok {h : Heap} {a b : Nat} {oa ob : Value}
    (ha : h.read a = some oa) (hb : h.read b = some ob) (hnd : (h.userKeys a).Nodup)
    (hops : ∀ e ∈ h.users a, ∃ t k ak n, h.shape e.1 = some (t, some (k, ak, n)) ∧ e.2 < n)
    (hdisj : ∀ e ∈ h.users a, e.1 ∉ h.userKeys b) :
    ∃ h1, h.replaceAllUsesWith a b = .ok h1 := by
  have husers : h.users a = oa.m_users := by simp [users, ha]
  obtain ⟨sb, hsb⟩ := isSome_shape hb
  obtain ⟨h2, hr2, _, _, _, _, hsh2⟩ := replaceLoop_spec b (h.users a) h ⟨sb, hsb⟩ hops hnd hdisj
  obtain ⟨sa, hsa⟩ := isSome_shape ha
  obtain ⟨o2, ho2, _⟩ := read_of_shape (hsa ▸ hsh2 a : h2.shape a = some (sa.1, sa.2))
  refine ⟨h2.set a (some { o2 with m_users := [] }), ?_⟩
  simp only [replaceAllUsesWith, ha]
  rw [← husers, hr2]
  simp only [ho2]

end Heap

/-- C21. Let `a` be a live value whose user map has no key twice and whose
entries name live operations with the slot among their operands. If some
operation is a user of both `a` and `b`, `a.replaceAllUsesWith(b)` is the
double-insertion violation of `b.addUser`; so is `a.replaceAllUsesWith(a)`
when the user set of `a` is not empty. If `a` and `b` are distinct, `b` is
alive and no user of `a` is a user of `b`, the call succeeds: the user map of
`b` is its former one followed by the entries of `a`, so every former entry of
`b` is kept; the operand slot of every entry of `a` holds `b`; every other
operand slot of every operation is unchanged; the user set of `a` is empty and
the user set of every other value is unchanged. -/
theorem C21_replaceAllUsesWith_needs_disjoint_users (h : Heap) (a b : Nat) (oa : Value)
    (ha : h.read a = some oa)
    (hops : ∀ e ∈ h.users a, ∃ o act, h.read e.1 = some o ∧ o.derived = .action act ∧
      e.2 < act.m_uses.length)
    (hnd : (h.userKeys a).Nodup) :
    ((∃ op, op ∈ h.userKeys a ∧ op ∈ h.userKeys b) →
      h.replaceAllUsesWith a b = .error .userDoubleInsertion) ∧
    (h.users a ≠ [] → h.replaceAllUsesWith a a = .error .userDoubleInsertion) ∧
    (a ≠ b → (h.read b).isSome → (∀ op ∈ h.userKeys a, op ∉ h.userKeys b) →
      ∃ h1, h.replaceAllUsesWith a b = .ok h1 ∧
        h1.users b = h.users b ++ h.users a ∧
        (∀ e ∈ h.users b, e ∈ h1.users b) ∧
        (∀ e ∈ h.users a, (h1.uses e.1)[e.2]? = some b) ∧
        (∀ x i : Nat, (x, i) ∉ h.users a → (h1.uses x)[i]? = (h.uses x)[i]?) ∧
        h1.users a = [] ∧
        (∀ x, x ≠ a → x ≠ b → h1.users x = h.users x)) := by
  have husers : h.users a = oa.m_users := by simp [Heap.users, ha]
  have hshapes : ∀ e ∈ h.users a,
      ∃ t k ak n, h.shape e.1 = some (t, some (k, ak, n)) ∧ e.2 < n := by
    intro e he
    obtain ⟨o, act, hro, hd, hlt⟩ := hops e he
    exact ⟨o.m_type, act.m_kind, act.allocationKind, act.m_uses.length,
      by simp [Heap.shape, hro, hd], hlt⟩
  have hfail : ∀ c, (∃ op, op ∈ h.userKeys a ∧ op ∈ h.userKeys c) →
      h.replaceAllUsesWith a c = .error .userDoubleInsertion := by
    rintro c ⟨op, hopa, hopc⟩
    have hc : ∃ s, h.shape c = some s := by
      cases hr : h.read c with
      | none => simp [Heap.userKeys, Heap.users, hr] at hopc
      | some oc => exact Heap.isSome_shape hr
    obtain ⟨e, he, hfst⟩ := List.mem_map.mp hopa
    have hloop := Heap.replaceLoop_double c (h.users a) h hc hshapes
      ⟨e, he, by rw [hfst]; exact hopc⟩
    simp only [Heap.replaceAllUsesWith, ha]
    rw [← husers, hloop]
  refine ⟨hfail b, ?_, ?_⟩
  · intro hne
    obtain ⟨e, he⟩ := List.exists_mem_of_ne_nil _ hne
    exact hfail a ⟨e.1, List.mem_map_of_mem Prod.fst he, List.mem_map_of_mem Prod.fst he⟩
  · intro hab hb hdisj
    obtain ⟨ob, hob⟩ := Option.isSome_iff_exists.mp hb
    obtain ⟨h1, hok⟩ := Heap.replaceAllUsesWith_ok ha hob hnd hshapes
      (fun e he => hdisj e.1 (List.mem_map_of_mem Prod.fst he))
    obtain ⟨hus, hget, hslot, _, _⟩ := Heap.replaceAllUsesWith_post hnd hok
    have hb1 : h1.users b = h.users b ++ h.users a := by
      rw [hus, if_neg (fun hc => hab hc.symm), if_pos rfl]
    refine ⟨h1, hok, hb1, ?_, hget, hslot, ?_, ?_⟩
    · intro e he
      rw [hb1]
      exact List.mem_append_left _ he
    · rw [hus, if_pos rfl]
    · intro x hxa hxb
      rw [hus, if_neg hxa, if_neg hxb]

/-- Witness for C21: on the heap of the test program, where
`a3 = RealAction(a1, a2)` uses both `a1` and `a2`, `a2.replaceAllUsesWith(a1)`
is the double-insertion violation, and `a2.replaceAllUsesWith(nc)` succeeds and
gives the constant the one entry of `a2`. -/
theorem C21_replaceAllUsesWith_needs_disjoint_users_witness :
    testHeap.replaceAllUsesWith 1 0 = .error .userDoubleInsertion ∧
    ∃ h1, testHeap.replaceAllUsesWith 1 4 = .ok h1 ∧
      h1.users 4 = testHeap.users 4 ++ testHeap.users 1 ∧ h1.users 1 = [] := by
  have ha : testHeap.read 1 = some ⟨0, [(2, 1)], .action ⟨[0], .Composition, none⟩⟩ := by
    decide
  have hops : ∀ e ∈ testHeap.users 1, ∃ o act, testHeap.read e.1 = some o ∧
      o.derived = .action act ∧ e.2 < act.m_uses.length := by
    intro e he
    have he2 : e = (2, 1) := by
      have hu : testHeap.users 1 = [(2, 1)] := by decide
      rw [hu] at he
      simpa using he
    subst he2
    exact ⟨⟨0, [], .action ⟨[0, 1], .RealAction, none⟩⟩, ⟨[0, 1], .RealAction, none⟩,
      by decide, rfl, by decide⟩
  have key0 := C21_replaceAllUsesWith_needs_disjoint_users testHeap 1 0 _ ha hops (by decide)
  have key4 := C21_replaceAllUsesWith_needs_disjoint_users testHeap 1 4 _ ha hops (by decide)
  obtain ⟨h1, hok, hb, _, _, _, hempty, _⟩ := key4.2.2 (by decide) (by decide) (by decide)
  exact ⟨key0.1 ⟨2, by decide, by decide⟩, h1, hok, hb, hempty⟩
/-! ## Teardown with a user outside the list -/

/-- A request for `NullType`, issued twice in a row, returns the same
reference and stores nothing the second time, whatever the pool holds. -/
theorem TypePool.get_null_twice (env : StdEnv) (tp : TypePool) :
    ∃ tp1 r, TypePool.get env tp .NullType = .ok (tp1, r) ∧
      TypePool.get env tp1 .NullType = .ok (tp1, r) := by
  cases hf : internFind env (TypeDesc.hash env) TypeDesc.equal tp .NullType with
  | some found =>
    refine ⟨tp, found, ?_, ?_⟩ <;>
      simp [TypePool.get, TypeDesc.construct, internGet, hf]
  | none =>
    have hno : ∀ i : Nat, tp[i]? ≠ some TypeDesc.NullType := by
      intro i hi
      have hsome : ∃ r, internFind env (TypeDesc.hash env) TypeDesc.equal tp .NullType =
          some r := internFind_isSome hi rfl rfl
      obtain ⟨r, hr⟩ := hsome
      rw [hf] at hr
      cases hr
    have hlast : (tp ++ [TypeDesc.NullType])[tp.length]? = some TypeDesc.NullType := by simp
    have hsome : ∃ r, internFind env (TypeDesc.hash env) TypeDesc.equal
        (tp ++ [TypeDesc.NullType]) .NullType = some r := internFind_isSome hlast rfl rfl
    obtain ⟨r, hr⟩ := hsome
    obtain ⟨e, he, _, heq⟩ := internFind_eq_some hr
    have hen := TypeDesc.eq_null_of_equal heq
    subst hen
    have hrl : r = tp.length := by
      rcases Nat.lt_trichotomy r tp.length with hlt | heq2 | hgt
      · rw [List.getElem?_append_left hlt] at he
        exact absurd he (hno r)
      · exact heq2
      · rw [List.getElem?_eq_none (by simp; omega)] at he
        cases he
    subst hrl
    refine ⟨tp ++ [.NullType], tp.length, ?_, ?_⟩
    · simp [TypePool.get, TypeDesc.construct, internGet, hf]
    · simp [TypePool.get, TypeDesc.construct, internGet, hr]

/-- The request `get<NullConstant>`, issued twice in a row, returns the same
constant and leaves both pools as they are the second time. -/
theorem ConstantPool.get_twice (env : StdEnv) (h : Heap) (pool : ConstantPool) (tp : TypePool) :
    ∃ h1 p1 tp1 c, ConstantPool.get env h pool tp = .ok (h1, p1, tp1, c) ∧
      ∃ h2, ConstantPool.get env h1 p1 tp1 = .ok (h2, p1, tp1, c) := by
  obtain ⟨tp1, type, hget1, hget2⟩ := TypePool.get_null_twice env tp
  have hcand : ∀ pool2 : ConstantPool, ∀ c c2 : Nat,
      internFind env Constant.hash Constant.equal pool2 c =
        internFind env Constant.hash Constant.equal pool2 c2 := fun _ _ _ => rfl
  cases hf : internFind env Constant.hash Constant.equal pool h.length with
  | some found =>
    obtain ⟨c, hc, _, _⟩ := internFind_eq_some hf
    refine ⟨(h ++ [some (Value.mk type [] .nullConstant)]).set h.length none, pool, tp1, c, ?_, ?_⟩
    · simp only [ConstantPool.get, hget1, Heap.alloc, hf, hc]
    · have hf2 := hf
      rw [hcand pool h.length
        ((h ++ [some (Value.mk type [] .nullConstant)]).set h.length none).length] at hf2
      exact ⟨((h ++ [some (Value.mk type [] .nullConstant)]).set h.length none ++
          [some (Value.mk type [] .nullConstant)]).set
          ((h ++ [some (Value.mk type [] .nullConstant)]).set h.length none).length none,
        by simp only [ConstantPool.get, hget2, Heap.alloc, hf2, hc]⟩
  | none =>
    refine ⟨h ++ [some (Value.mk type [] .nullConstant)], pool ++ [h.length], tp1, h.length, ?_, ?_⟩
    · simp only [ConstantPool.get, hget1, Heap.alloc, hf]
    · have hnil := internFind_eq_none hf
      have hpool : pool = [] := by
        cases pool with
        | nil => rfl
        | cons x xs =>
          simp [acceptedFrom, Constant.hash, Constant.equal, NullConstant.m_equal] at hnil
      subst hpool
      have hf2 : ∀ c, internFind env Constant.hash Constant.equal [h.length] c = some 0 := by
        intro c
        simp only [internFind, acceptedFrom, Constant.hash, Constant.equal, NullConstant.m_equal,
          beq_self_eq_true, Bool.and_self, if_true, List.length_singleton, Nat.mod_one]
        rfl
      exact ⟨((h ++ [some (Value.mk type [] .nullConstant)]) ++
          [some (Value.mk type [] .nullConstant)]).set
          (h ++ [some (Value.mk type [] .nullConstant)]).length none,
        by simp only [ConstantPool.get, hget2, Heap.alloc, hf2, List.nil_append,
          List.getElem?_cons_zero]⟩

/-- C1. Two equal requests need not return the same reference. With the set of
libstdc++ (identity `std::hash`, the bucket walked from the element stored
last), `get<ImageType>(ScreenBuffer, Auto, Auto)` on the empty pool returns
reference 0, `get<ScreenBufferImage>(0)` stores a second descriptor and returns
reference 1, and `get<ImageType>(ScreenBuffer, Auto, Auto)` issued again
returns reference 1: the plain `ImageType` candidate accepts the
`ScreenBufferImage`, which has the same hash code 21 and comes first in the
bucket. The pool is not enlarged by the third request. On a pool that holds
`ScreenBufferImage(13)` alone, whose hash code 34 falls into the bucket of 21,
the request for the plain `ImageType` returns that descriptor and stores
nothing. The witnesses of the claim hold for every standard library:
`BufferType(Device, 4, 4)` requested twice on the empty pool yields reference 0
both times and a pool of one element; and `NullConstant`, requested twice in a
row on any constant pool, yields one constant and leaves the pools as they are
the second time. -/
theorem C1_repeated_request_returns_another_reference :
    (TypePool.get StdEnv.libstdcxx [] (.ImageType .ScreenBuffer .Auto .Auto 1 0 0 0) =
        .ok ([.ImageType .ScreenBuffer .Auto .Auto 1 0 0 0], 0) ∧
      TypePool.get StdEnv.libstdcxx [.ImageType .ScreenBuffer .Auto .Auto 1 0 0 0]
          (.ScreenBufferImage 0) =
        .ok ([.ImageType .ScreenBuffer .Auto .Auto 1 0 0 0, .ScreenBufferImage 0], 1) ∧
      TypePool.get StdEnv.libstdcxx
          [.ImageType .ScreenBuffer .Auto .Auto 1 0 0 0, .ScreenBufferImage 0]
          (.ImageType .ScreenBuffer .Auto .Auto 1 0 0 0) =
        .ok ([.ImageType .ScreenBuffer .Auto .Auto 1 0 0 0, .ScreenBufferImage 0], 1)) ∧
    (TypeDesc.hash StdEnv.libstdcxx (.ImageType .ScreenBuffer .Auto .Auto 1 0 0 0) = 21 ∧
      TypeDesc.hash StdEnv.libstdcxx (.ScreenBufferImage 0) = 21 ∧
      TypeDesc.hash StdEnv.libstdcxx (.ScreenBufferImage 13) = 34 ∧
      TypePool.get StdEnv.libstdcxx [.ScreenBufferImage 13]
          (.ImageType .ScreenBuffer .Auto .Auto 1 0 0 0) =
        .ok ([.ScreenBufferImage 13], 0)) ∧
    (∀ env : StdEnv,
      TypePool.get env [] (.BufferType .Device 4 4) = .ok ([.BufferType .Device 4 4], 0) ∧
      TypePool.get env [.BufferType .Device 4 4] (.BufferType .Device 4 4) =
        .ok ([.BufferType .Device 4 4], 0) ∧
      ConstantPool.get env [] [] [] =
        .ok ([some ⟨0, [], .nullConstant⟩], [0], [.NullType], 0) ∧
      ConstantPool.get env [some ⟨0, [], .nullConstant⟩] [0] [.NullType] =
        .ok ([some ⟨0, [], .nullConstant⟩, none], [0], [.NullType], 0)) ∧
    (∀ (env : StdEnv) (h : Heap) (pool : ConstantPool) (tp : TypePool),
      ∃ h1 p1 tp1 c, ConstantPool.get env h pool tp = .ok (h1, p1, tp1, c) ∧
        ∃ h2, ConstantPool.get env h1 p1 tp1 = .ok (h2, p1, tp1, c)) := by
  refine ⟨⟨by decide, by decide, by decide⟩, ⟨by decide, by decide, by decide, by decide⟩,
    ?_, ConstantPool.get_twice⟩
  intro env
  refine ⟨?_, ?_, ?_, ?_⟩
  · simp [TypePool.get, TypeDesc.construct, internGet, internFind, acceptedFrom]
  · simp [TypePool.get, TypeDesc.construct, internGet, internFind, acceptedFrom,
      TypeDesc.equal, Nat.mod_one]
  · simp [ConstantPool.get, TypePool.get, TypeDesc.construct, internGet, internFind, acceptedFrom,
      Heap.alloc]
  · simp [ConstantPool.get, TypePool.get, TypeDesc.construct, internGet, internFind, acceptedFrom,
      Heap.alloc, TypeDesc.equal, TypeDesc.hash, Constant.hash, Constant.equal,
      NullConstant.m_equal, Nat.mod_one]
/-! ## Teardown after an insertion in the middle of the list -/

/-- C4. The destructor reports a cycle on an acyclic graph whose operations
are all inserted. Three allocations without any use-def edge are inserted by
`push_back(a0)`, `push_back(a1)` and `insertAfter(a2, a0)`; `insertAfter` leaves
`a2` without a next link, so the forward iteration is `a0`, `a2`. The first
round of `Graph::~Graph` erases these two; in the second round the list still
holds `a1` (`size()` is 1) but its head is null, the iteration is empty, no
unused action is collected and the assertion `cyclic dependency` fails, with
`a1` never erased. On a list in a consistent state the destructor does what the
claim says: for live actions with live operands that record them, every user in
the list and an acyclic use-def graph, it completes, the list is empty at the
end and the actions erased are the actions of the list, each once; so for the
test graph `a1..a4` and for the chain allocation, action, terminator, both
built by `push_back`. -/
theorem C4_teardown_after_insertion_in_the_middle :
    (middleInsertProgram = .ok (middleInsertMemory, middleInsertGraph) ∧
      middleInsertGraph.list.m_container = [0, 1, 2] ∧
      (∀ a ∈ [0, 1, 2], middleInsertMemory.heap.isAction a = true ∧
        middleInsertMemory.heap.uses a = [] ∧ middleInsertMemory.heap.users a = []) ∧
      Graph.UsersResident middleInsertMemory [0, 1, 2] ∧
      Graph.Acyclic middleInsertMemory [0, 1, 2] ∧
      middleInsertGraph.list.forward middleInsertMemory.nodes = some [0, 2] ∧
      (Graph.teardown middleInsertMemory middleInsertGraph).status =
        .violation .cyclicDependency ∧
      (Graph.teardown middleInsertMemory middleInsertGraph).rounds = [[0, 2]] ∧
      (Graph.teardown middleInsertMemory middleInsertGraph).graph.list =
        ⟨none, some 1, [1]⟩ ∧
      (Graph.teardown middleInsertMemory middleInsertGraph).memory.heap.isAction 1 = true) ∧
    (∀ (m : Memory) (g : Graph) (xs : List Nat), Graph.Resident m g xs →
      Graph.UsersResident m xs → Graph.Acyclic m xs →
      (Graph.teardown m g).status = .completed ∧
      (Graph.teardown m g).graph.list = IList.init ∧
      (Graph.teardown m g).rounds.length ≤ xs.length ∧
      (∀ round ∈ (Graph.teardown m g).rounds, round ≠ []) ∧
      (Graph.teardown m g).rounds.flatten.Perm xs ∧
      (∀ a ∈ xs, (Graph.teardown m g).memory.heap.read a = none ∧
        (Graph.teardown m g).memory.nodes.read a = none) ∧
      (∀ x, x ∉ xs → (Graph.teardown m g).memory.heap.shape x = m.heap.shape x ∧
        (Graph.teardown m g).memory.nodes.read x = m.nodes.read x)) ∧
    (Graph.Resident testMemory testGraph [0, 1, 2, 3] ∧
      Graph.UsersResident testMemory [0, 1, 2, 3] ∧ Graph.Acyclic testMemory [0, 1, 2, 3]) ∧
    ((Graph.teardown testMemory testGraph).status = .completed ∧
      (Graph.teardown testMemory testGraph).rounds = [[2, 3], [1], [0]] ∧
      chainProgram StdEnv.sample = .ok (chainMemory, chainGraph) ∧
      (Graph.teardown chainMemory chainGraph).status = .completed ∧
      (Graph.teardown chainMemory chainGraph).rounds = [[3], [2], [0]]) := by
  refine ⟨⟨by decide, by decide, by decide, ?_, ⟨fun a => a, by decide⟩, by decide, by decide!,
    by decide!, by decide!, by decide!⟩, Graph.teardown_completes,
    ⟨⟨⟨rfl, rfl, ⟨rfl, rfl, rfl, rfl, trivial⟩, by decide, List.Perm.refl _⟩, by decide, by decide⟩,
      ?_, ⟨fun a => a, by decide⟩⟩,
    ⟨by decide!, by decide!, by decide!, by decide!, by decide!⟩⟩
  · unfold Graph.UsersResident
    decide
  · unfold Graph.UsersResident
    decide

end rgc
